import Mathlib

/-!
The package `structs` of thinredis: sharded dictionary and skip list.

A shallow embedding of `structs/dict.go` and `structs/skip_list.go`, followed by the
properties of the two structures.

Conventions of the embedding.

* A pointer to a skip-list node is an address (`Nat`); `nil` is `none`. The nodes a list has
  allocated live in `SkipList.mem`; `SkipList.next` is the next free address.
* Every function that can panic in Go (nil dereference, index out of range, division by zero)
  or loop forever returns `none` in that case. A `for` loop without a bound in the source (the
  walks along forward pointers) takes a number of iterations it may use (`fuel`); `Insert` and
  `Delete` give it one more than the number of nodes allocated, and a walk that needs more has
  met some node twice, so it never ends.
* `util.HashKey` and `config.Configures.ShardNum` are not part of the package: the hash
  function and the configured shard number are parameters.
* `float64` scores are `Float64`: either `nan`, or `num k` where `k` is the signed position of
  the value in the chain of non-NaN values (`0` for both zeros, the infinities at the two ends).
  The code only ever compares scores with `<` and `==`, and these agree with the order of the
  positions.
* Go `int` is `Int` for spans, ranks, lengths and return codes; level counts and loop indices,
  which the code keeps non-negative, are `Nat`.
-/

namespace ThinRedis

/-! ## Skip list: data model -/

/-- The float64 scores, up to the comparisons the code performs on them. -/
inductive Float64 where
  | nan : Float64
  | num (k : Int) : Float64
deriving DecidableEq, Repr

/-- Go `a < b` on float64: false as soon as one side is NaN. -/
def Float64.lt : Float64 → Float64 → Bool
  | .num a, .num b => decide (a < b)
  | _, _ => false

/-- Go `a == b` on float64: false as soon as one side is NaN. -/
def Float64.eq : Float64 → Float64 → Bool
  | .num a, .num b => decide (a = b)
  | _, _ => false

/-- Go `a < b` on strings (lexicographic). -/
def strLess (a b : String) : Bool := decide (a.toList < b.toList)

/-- Go `a == b` on strings. -/
def strEq (a b : String) : Bool := decide (a = b)

/-- The type `skipListLevel`. -/
structure skipListLevel where
  forward : Option Nat
  span : Int
deriving DecidableEq, Repr

/-- The type `SkipListNode`. -/
structure SkipListNode where
  val : String
  score : Float64
  back : Option Nat
  level : List skipListLevel
deriving DecidableEq, Repr

/-- Node memory: address to node. -/
abbrev Mem := Nat → SkipListNode

/-- The type `SkipList`, together with the nodes it has allocated. -/
structure SkipList where
  mem : Mem
  next : Nat
  header : Nat
  tail : Option Nat
  length : Int
  level : Nat

/-- The constant `sklMaxLevel`. -/
def sklMaxLevel : Nat := 32

/-- Read `a[i]` in an array of `sklMaxLevel` cells (`update`, `rank`). -/
def idx {α : Type} (a : Nat → α) (i : Nat) : Option α :=
  if i < sklMaxLevel then some (a i) else none

/-- Write `a[i] = v` in an array of `sklMaxLevel` cells. -/
def idxSet {α : Type} (a : Nat → α) (i : Nat) (v : α) : Option (Nat → α) :=
  if i < sklMaxLevel then some (Function.update a i v) else none

/-- Read `x.level[i]`. -/
def lvl (mem : Mem) (x i : Nat) : Option skipListLevel := (mem x).level[i]?

/-- The memory after the cell `x.level[i]` has become `l`. -/
def putLevel (mem : Mem) (x i : Nat) (l : skipListLevel) : Mem :=
  Function.update mem x { mem x with level := (mem x).level.set i l }

/-- Write `x.level[i].forward = f`. -/
def setForward (mem : Mem) (x i : Nat) (f : Option Nat) : Option Mem :=
  match lvl mem x i with
  | none => none
  | some l => some (putLevel mem x i { l with forward := f })

/-- Write `x.level[i].span = s`. -/
def setSpan (mem : Mem) (x i : Nat) (s : Int) : Option Mem :=
  match lvl mem x i with
  | none => none
  | some l => some (putLevel mem x i { l with span := s })

/-- Write `x.back = b`. -/
def setBack (mem : Mem) (x : Nat) (b : Option Nat) : Mem :=
  Function.update mem x { mem x with back := b }

/-- The function `NewSklNode`: `make` zeroes every level. -/
def NewSklNode (level : Nat) (score : Float64) (val : String) : SkipListNode :=
  { val := val, score := score, back := none, level := List.replicate level ⟨none, 0⟩ }

/-- The function `NewSkipList`. The header is allocated at address 0; the loop then clears
each of its levels and the back pointer. -/
def NewSkipList : SkipList :=
  let header := NewSklNode sklMaxLevel (.num 0) ""
  let header := (List.range sklMaxLevel).foldl
    (fun (n : SkipListNode) i => { n with level := n.level.set i ⟨none, 0⟩ }) header
  let header := { header with back := none }
  { mem := Function.update (fun _ => NewSklNode 0 (.num 0) "") 0 header
    next := 1
    header := 0
    tail := none
    length := 0
    level := 1 }

/-- One call of `rand.Int31()` with result `v` passes the test
`float64(v & 0xFFFF) < sklLevelP * 0xFFFF`. The right side is 16383.75 and the left side
is an integer, both exact in float64, so the test is `4 * (v & 0xFFFF) < 0xFFFF`. -/
def drawPasses (v : Nat) : Bool := decide (4 * (v &&& 0xFFFF) < 0xFFFF)

/-- The loop of `sklRandomLevel` over the successive results of `rand.Int31()`. -/
def sklRandomLoop : List Nat → Nat → Option Nat
  | [], _ => none
  | v :: rest, level => if drawPasses v then sklRandomLoop rest (level + 1) else some level

/-- The function `sklRandomLevel`, given the results of the calls of `rand.Int31()` it makes;
`none` when every draw in the list passes (the loop has not ended yet). -/
def sklRandomLevel (draws : List Nat) : Option Nat :=
  match sklRandomLoop draws 1 with
  | none => none
  | some level => if level > sklMaxLevel then some sklMaxLevel else some level

/-- The test both search loops apply to the forward node `n`:
`n.score < score || (n.score == score && n.val < val)`. -/
def nodeLess (n : SkipListNode) (score : Float64) (val : String) : Bool :=
  n.score.lt score || (n.score.eq score && strLess n.val val)

/-! ## Skip list: `Insert` -/

/-- Inner loop of the search in `Insert`, at level `i`, from node `x`, for at most `fuel`
iterations. -/
def insertWalk (mem : Mem) (score : Float64) (val : String) (i : Nat) :
    Nat → Nat → (Nat → Int) → Option (Nat × (Nat → Int))
  | 0, _, _ => none
  | fuel + 1, x, rank =>
    match lvl mem x i with
    | none => none
    | some l =>
      match l.forward with
      | none => some (x, rank)
      | some f =>
        if nodeLess (mem f) score val then
          match idx rank i with
          | none => none
          | some r =>
            match idxSet rank i (r + l.span) with
            | none => none
            | some rank => insertWalk mem score val i fuel f rank
        else some (x, rank)

/-- The statement `if i == skl.level-1 { rank[i] = 0 } else { rank[i] = rank[i+1] }`. -/
def rankStart (rank : Nat → Int) (level i : Nat) : Option (Nat → Int) :=
  if i = level - 1 then idxSet rank i 0
  else
    match idx rank (i + 1) with
    | none => none
    | some r => idxSet rank i r

/-- Outer loop of the search in `Insert`: `k` levels remain, the next one is `k - 1`. -/
def insertSearch (mem : Mem) (level : Nat) (score : Float64) (val : String) (fuel : Nat) :
    Nat → Nat → (Nat → Option Nat) → (Nat → Int) → Option ((Nat → Option Nat) × (Nat → Int))
  | 0, _, update, rank => some (update, rank)
  | i + 1, x, update, rank =>
    match rankStart rank level i with
    | none => none
    | some rank =>
      match insertWalk mem score val i fuel x rank with
      | none => none
      | some (x, rank) =>
        match idxSet update i (some x) with
        | none => none
        | some update => insertSearch mem level score val fuel i x update rank

/-- The loop `for i = skl.level; i < level; i++` of `Insert`; `n` iterations remain. -/
def insertRaise (header : Nat) (length : Int) :
    Nat → Nat → Mem → (Nat → Option Nat) → (Nat → Int) →
      Option (Mem × (Nat → Option Nat) × (Nat → Int))
  | 0, _, mem, update, rank => some (mem, update, rank)
  | n + 1, i, mem, update, rank =>
    match idxSet rank i 0 with
    | none => none
    | some rank =>
      match idxSet update i (some header) with
      | none => none
      | some update =>
        match setSpan mem header i length with
        | none => none
        | some mem => insertRaise header length n (i + 1) mem update rank

/-- The loop `for i = 0; i < level; i++` of `Insert` that links the new node `x`. -/
def insertSplice (x : Nat) (update : Nat → Option Nat) (rank : Nat → Int) :
    Nat → Nat → Mem → Option Mem
  | 0, _, mem => some mem
  | n + 1, i, mem =>
    match idx update i, idx rank 0, idx rank i with
    | some (some u), some r0, some ri =>
      match lvl mem u i with
      | none => none
      | some lu =>
        match setForward mem x i lu.forward with
        | none => none
        | some mem =>
          match setForward mem u i (some x) with
          | none => none
          | some mem =>
            match lvl mem u i with
            | none => none
            | some lu =>
              match setSpan mem x i (lu.span - (r0 - ri)) with
              | none => none
              | some mem =>
                match setSpan mem u i ((r0 - ri) + 1) with
                | none => none
                | some mem => insertSplice x update rank n (i + 1) mem
    | _, _, _ => none

/-- The loop `for i = level; i < skl.level; i++` of `Insert`. -/
def insertIncr (update : Nat → Option Nat) : Nat → Nat → Mem → Option Mem
  | 0, _, mem => some mem
  | n + 1, i, mem =>
    match idx update i with
    | some (some u) =>
      match lvl mem u i with
      | none => none
      | some lu =>
        match setSpan mem u i (lu.span + 1) with
        | none => none
        | some mem => insertIncr update n (i + 1) mem
    | _ => none

/-- The block `if level > skl.level { ... }` of `Insert`; returns the memory, `update`,
`rank` and `skl.level` afterwards. -/
def insertGrow (skl : SkipList) (level : Nat) (update : Nat → Option Nat) (rank : Nat → Int) :
    Option (Mem × (Nat → Option Nat) × (Nat → Int) × Nat) :=
  if level > skl.level then
    match insertRaise skl.header skl.length (level - skl.level) skl.level
        skl.mem update rank with
    | none => none
    | some (mem, update, rank) => some (mem, update, rank, level)
  else some (skl.mem, update, rank, skl.level)

/-- The end of `Insert`, from `// update the back pointer` on: `x` is the new node, `u0` is
`update[0]`, `mem` and `sklLevel` are the memory and `skl.level` at that point. -/
def insertFinish (skl : SkipList) (mem : Mem) (x : Nat) (u0 : Option Nat) (sklLevel : Nat) :
    Option (SkipList × Nat) :=
  let mem := if u0 = some skl.header then setBack mem x none else setBack mem x u0
  match lvl mem x 0 with
  | none => none
  | some lx =>
    match lx.forward with
    | some f =>
      some ({ mem := setBack mem f (some x), next := skl.next + 1,
              header := skl.header, tail := skl.tail,
              length := skl.length + 1, level := sklLevel }, x)
    | none =>
      some ({ mem := mem, next := skl.next + 1,
              header := skl.header, tail := some x,
              length := skl.length + 1, level := sklLevel }, x)

/-- The method `SkipList.Insert`; `draws` are the results of the calls of `rand.Int31()`.
Returns the list afterwards and the address of the new node. -/
def SkipList.Insert (skl : SkipList) (score : Float64) (val : String) (draws : List Nat) :
    Option (SkipList × Nat) :=
  match insertSearch skl.mem skl.level score val (skl.next + 1) skl.level skl.header
      (fun _ => none) (fun _ => 0) with
  | none => none
  | some (update, rank) =>
    match sklRandomLevel draws with
    | none => none
    | some level =>
      match insertGrow skl level update rank with
      | none => none
      | some (mem, update, rank, sklLevel) =>
        let x := skl.next
        let mem := Function.update mem x (NewSklNode level score val)
        match insertSplice x update rank level 0 mem with
        | none => none
        | some mem =>
          match insertIncr update (sklLevel - level) level mem with
          | none => none
          | some mem =>
            match idx update 0 with
            | some u0 => insertFinish skl mem x u0 sklLevel
            | none => none

/-! ## Skip list: `Delete` -/

/-- Inner loop of the search in `Delete`, at level `i`, from node `x`, for at most `fuel`
iterations. -/
def deleteWalk (mem : Mem) (score : Float64) (val : String) (i : Nat) :
    Nat → Nat → Option Nat
  | 0, _ => none
  | fuel + 1, x =>
    match lvl mem x i with
    | none => none
    | some l =>
      match l.forward with
      | none => some x
      | some f =>
        if nodeLess (mem f) score val then deleteWalk mem score val i fuel f
        else some x

/-- Outer loop of the search in `Delete`; returns `update` and the node reached. -/
def deleteSearch (mem : Mem) (score : Float64) (val : String) (fuel : Nat) :
    Nat → Nat → (Nat → Option Nat) → Option ((Nat → Option Nat) × Nat)
  | 0, x, update => some (update, x)
  | i + 1, x, update =>
    match deleteWalk mem score val i fuel x with
    | none => none
    | some x =>
      match idxSet update i (some x) with
      | none => none
      | some update => deleteSearch mem score val fuel i x update

/-- The loop `for i = 0; i < skl.level; i++` of `deleteNode`. -/
def deleteUnlink (x : Nat) (update : Nat → Option Nat) : Nat → Nat → Mem → Option Mem
  | 0, _, mem => some mem
  | n + 1, i, mem =>
    match idx update i with
    | some (some u) =>
      match lvl mem u i with
      | none => none
      | some lu =>
        if lu.forward = some x then
          match lvl mem x i with
          | none => none
          | some lx =>
            match setSpan mem u i (lu.span + (lx.span - 1)) with
            | none => none
            | some mem =>
              match lvl mem x i with
              | none => none
              | some lx =>
                match setForward mem u i lx.forward with
                | none => none
                | some mem => deleteUnlink x update n (i + 1) mem
        else
          match setSpan mem u i (lu.span - 1) with
          | none => none
          | some mem => deleteUnlink x update n (i + 1) mem
    | _ => none

/-- The loop `for skl.level > 1 && skl.header.level[skl.level-1].forward == nil` of
`deleteNode`, from level count `level`; returns the level count it ends with. -/
def deleteShrink (mem : Mem) (header : Nat) : Nat → Option Nat
  | 0 => some 0
  | l + 1 =>
    if l + 1 > 1 then
      match lvl mem header l with
      | none => none
      | some hl => if hl.forward = none then deleteShrink mem header l else some (l + 1)
    else some (l + 1)

/-- The end of `deleteNode`, from `// remove the unused levels of header` on; `mem` and
`tail` are the memory and `skl.tail` at that point. -/
def deleteFinish (skl : SkipList) (mem : Mem) (tail : Option Nat) : Option SkipList :=
  match deleteShrink mem skl.header skl.level with
  | none => none
  | some level =>
    some { mem := mem, next := skl.next, header := skl.header, tail := tail,
           length := skl.length - 1, level := level }

/-- The method `SkipList.deleteNode`. -/
def SkipList.deleteNode (skl : SkipList) (x : Nat) (update : Nat → Option Nat) :
    Option SkipList :=
  match deleteUnlink x update skl.level 0 skl.mem with
  | none => none
  | some mem =>
    match lvl mem x 0 with
    | none => none
    | some lx =>
      match lx.forward with
      | some f => deleteFinish skl (setBack mem f (mem x).back) skl.tail
      | none => deleteFinish skl mem (mem x).back

/-- The method `SkipList.Delete`. Returns the list afterwards and the return code. -/
def SkipList.Delete (skl : SkipList) (score : Float64) (val : String) :
    Option (SkipList × Int) :=
  match deleteSearch skl.mem score val (skl.next + 1) skl.level skl.header (fun _ => none) with
  | none => none
  | some (update, x) =>
    match lvl skl.mem x 0 with
    | none => none
    | some l =>
      match l.forward with
      | none => some (skl, 0)
      | some x =>
        if Float64.eq score (skl.mem x).score && strEq val (skl.mem x).val then
          match skl.deleteNode x update with
          | none => none
          | some skl => some (skl, 1)
        else some (skl, 0)

/-! ## Skip list: what a caller can observe by following pointers -/

/-- The nodes met by following the level-`i` forward pointers, starting with the node `cur`
(or at the end of the chain when `cur` is `nil`). -/
def walkFrom (mem : Mem) (i : Nat) : Nat → Option Nat → Option (List Nat)
  | _, none => some []
  | 0, some _ => none
  | fuel + 1, some a =>
    match lvl mem a i with
    | none => none
    | some l =>
      match walkFrom mem i fuel l.forward with
      | none => none
      | some rest => some (a :: rest)

/-- The level-`i` forward chain of the list: the nodes after the header, in order. -/
def SkipList.nodesAt (skl : SkipList) (i : Nat) : Option (List Nat) :=
  match lvl skl.mem skl.header i with
  | none => none
  | some l => walkFrom skl.mem i skl.next l.forward

/-- The level-0 forward chain (addresses). -/
def SkipList.nodes (skl : SkipList) : Option (List Nat) := skl.nodesAt 0

/-- The (score, member) pair stored in the node at address `a`. -/
def keyAt (mem : Mem) (a : Nat) : Float64 × String := ((mem a).score, (mem a).val)

/-- The level-0 forward traversal from the header: the (score, member) pairs in chain order. -/
def SkipList.traversal (skl : SkipList) : Option (List (Float64 × String)) :=
  match skl.nodes with
  | none => none
  | some l => some (l.map (keyAt skl.mem))

/-- Follow the level-`i` forward pointers from node `a`, whose accumulated span is `r`; list
every node reached with the sum of the spans of the links followed from the start to it. -/
def rankWalk (mem : Mem) (i : Nat) : Nat → Nat → Int → Option (List (Nat × Int))
  | 0, _, _ => none
  | fuel + 1, a, r =>
    match lvl mem a i with
    | none => none
    | some l =>
      match l.forward with
      | none => some []
      | some f =>
        match rankWalk mem i fuel f (r + l.span) with
        | none => none
        | some rest => some ((f, r + l.span) :: rest)

/-- The nodes of the level-`i` chain, each with the sum of the level-`i` spans from the
header to it. -/
def SkipList.spanRanks (skl : SkipList) (i : Nat) : Option (List (Nat × Int)) :=
  rankWalk skl.mem i (skl.next + 1) skl.header 0

/-- The nodes met by following back pointers, starting with the node `cur`. -/
def backFrom (mem : Mem) : Nat → Option Nat → Option (List Nat)
  | _, none => some []
  | 0, some _ => none
  | fuel + 1, some a =>
    match backFrom mem fuel (mem a).back with
    | none => none
    | some rest => some (a :: rest)

/-- The backward traversal: from the tail along the back pointers. -/
def SkipList.backNodes (skl : SkipList) : Option (List Nat) := backFrom skl.mem skl.next skl.tail

/-- The comparison of the search loops, on (score, member) pairs: `a` is strictly less
than `b` when `a.score < b.score`, or the scores are equal and `a.val < b.val`. -/
def keyLess (a b : Float64 × String) : Bool :=
  a.1.lt b.1 || (a.1.eq b.1 && strLess a.2 b.2)

/-- The pair matches: scores `==` and members `==`. -/
def keyEq (a b : Float64 × String) : Bool := a.1.eq b.1 && strEq a.2 b.2

/-- Place `k` in `t` immediately before the first element that is not strictly less
than `k`. -/
def placeKey (k : Float64 × String) (t : List (Float64 × String)) : List (Float64 × String) :=
  t.takeWhile (fun a => keyLess a k) ++ k :: t.dropWhile (fun a => keyLess a k)

/-- Ascending (score, member) order: no element is strictly less than an earlier one. -/
def Ascending (t : List (Float64 × String)) : Prop :=
  t.Pairwise (fun a b => keyLess b a = false)

/-- The lists reachable from `NewSkipList` by `Insert` and `Delete` calls whose score
arguments satisfy `ok`. -/
inductive ReachableBy (ok : Float64 → Prop) : SkipList → Prop
  | new : ReachableBy ok NewSkipList
  | insert {skl skl2 : SkipList} {x : Nat} (score : Float64) (val : String) (draws : List Nat) :
      ReachableBy ok skl → ok score → skl.Insert score val draws = some (skl2, x) →
      ReachableBy ok skl2
  | delete {skl skl2 : SkipList} {r : Int} (score : Float64) (val : String) :
      ReachableBy ok skl → ok score → skl.Delete score val = some (skl2, r) →
      ReachableBy ok skl2

/-- Reachable by any `Insert` and `Delete` calls. -/
def Reachable (skl : SkipList) : Prop := ReachableBy (fun _ => True) skl

/-- Reachable by `Insert` and `Delete` calls with non-NaN scores. -/
def ReachableOrd (skl : SkipList) : Prop := ReachableBy (fun s => s ≠ Float64.nan) skl

/-! ## Sharded dictionary -/

/-- The constant `MaxTableSize`. -/
def MaxTableSize : Int := 2048

/-- The constant `MinTableSize`. -/
def MinTableSize : Int := 16

/-- The type `shard`: a Go map from string keys to values of type `V` (the lock has no
sequential effect). -/
structure shard (V : Type) where
  mp : AList (fun _ : String => V)

/-- The type `Dict`. -/
structure Dict (V : Type) where
  dict : List (shard V)
  size : Int

/-- The function `NewDict`, for the configured shard number `ShardNum`. -/
def NewDict {V : Type} (ShardNum : Int) : Dict V :=
  let size := if ShardNum < MinTableSize ∨ ShardNum > MaxTableSize then 128 else ShardNum
  { dict := List.replicate size.toNat { mp := ∅ }, size := size }

/-- The method `Dict.getKeyPos`, for the hash function `HashKey`; Go `%` truncates, and
panics on a zero divisor. -/
def Dict.getKeyPos {V : Type} (HashKey : String → Int) (m : Dict V) (key : String) :
    Option Int :=
  if m.size = 0 then none else some (Int.tmod (HashKey key) m.size)

/-- Read `m.dict[pos]`. -/
def Dict.shardAt {V : Type} (m : Dict V) (pos : Int) : Option (shard V) :=
  if pos < 0 then none else m.dict[pos.toNat]?

/-- The shard `m.dict[pos]` after its map has become `mp` (shards are held by pointer, so
the slice itself does not change). -/
def Dict.withShard {V : Type} (m : Dict V) (pos : Int) (mp : AList (fun _ : String => V)) :
    Dict V :=
  { m with dict := m.dict.set pos.toNat { mp := mp } }

/-- The method `Dict.Set`. -/
def Dict.Set {V : Type} (HashKey : String → Int) (m : Dict V) (key : String) (rob : V) :
    Option (Dict V × Int) :=
  match m.getKeyPos HashKey key with
  | none => none
  | some pos =>
    match m.shardAt pos with
    | none => none
    | some shard =>
      let added : Int := if (shard.mp.lookup key).isSome then 0 else 1
      some (m.withShard pos (shard.mp.insert key rob), added)

/-- The method `Dict.SetIfExist`. -/
def Dict.SetIfExist {V : Type} (HashKey : String → Int) (m : Dict V) (key : String) (rob : V) :
    Option (Dict V × Int) :=
  match m.getKeyPos HashKey key with
  | none => none
  | some pos =>
    match m.shardAt pos with
    | none => none
    | some shard =>
      if (shard.mp.lookup key).isSome then
        some (m.withShard pos (shard.mp.insert key rob), 1)
      else some (m, 0)

/-- The method `Dict.SetIfNotExist`. -/
def Dict.SetIfNotExist {V : Type} (HashKey : String → Int) (m : Dict V) (key : String)
    (rob : V) : Option (Dict V × Int) :=
  match m.getKeyPos HashKey key with
  | none => none
  | some pos =>
    match m.shardAt pos with
    | none => none
    | some shard =>
      if (shard.mp.lookup key).isSome then some (m, 0)
      else some (m.withShard pos (shard.mp.insert key rob), 1)

/-- The method `Dict.Get`; the value is the zero value (`default`) when the key is absent. -/
def Dict.Get {V : Type} [Inhabited V] (HashKey : String → Int) (m : Dict V) (key : String) :
    Option (V × Bool) :=
  match m.getKeyPos HashKey key with
  | none => none
  | some pos =>
    match m.shardAt pos with
    | none => none
    | some shard =>
      match shard.mp.lookup key with
      | some value => some (value, true)
      | none => some (default, false)

/-- The method `Dict.Delete`. -/
def Dict.Delete {V : Type} (HashKey : String → Int) (m : Dict V) (key : String) :
    Option (Dict V × Int) :=
  match m.getKeyPos HashKey key with
  | none => none
  | some pos =>
    match m.shardAt pos with
    | none => none
    | some shard =>
      if (shard.mp.lookup key).isSome then
        some (m.withShard pos (shard.mp.erase key), 1)
      else some (m, 0)

/-- The method `Dict.Len`. -/
def Dict.Len {V : Type} (m : Dict V) : Int :=
  m.dict.foldl (fun sum shard => sum + (shard.mp.entries.length : Int)) 0

/-- The method `Dict.Clear`. -/
def Dict.Clear {V : Type} (ShardNum : Int) (_m : Dict V) : Dict V := NewDict ShardNum

/-- The method `Dict.Keys` (Go walks each map in an unspecified order; here in the order of
the association list). -/
def Dict.Keys {V : Type} (m : Dict V) : List String :=
  m.dict.foldl (fun keys shard => keys ++ shard.mp.keys) []

/-- Successive calls `Set(key, v)` for the values `vs`, in order: the dictionary afterwards
and the return codes. -/
def Dict.SetEach {V : Type} (HashKey : String → Int) (m : Dict V) (key : String) :
    List V → Option (Dict V × List Int)
  | [] => some (m, [])
  | v :: vs =>
    match m.Set HashKey key v with
    | none => none
    | some (m2, r) =>
      match Dict.SetEach HashKey m2 key vs with
      | none => none
      | some (m3, rs) => some (m3, r :: rs)

/-- A `Dict` as `NewDict` builds it and every method keeps it: `size` is the number of
shards and is positive. -/
def Dict.Valid {V : Type} (m : Dict V) : Prop :=
  m.size = (m.dict.length : Int) ∧ 0 < m.size

/-! ## Skip list: the shape of a well-formed list -/

/-- The number of levels of the node at address `a`: `len(a.level)`. -/
def nlev (mem : Mem) (a : Nat) : Nat := (mem a).level.length

/-- The level-`i` link a node must carry when the nodes after it in the level-0 chain are
`rest` and `nl` gives their numbers of levels: forward is the first node of `rest` with more
than `i` levels and span is the number of level-0 hops to it; with no such node, forward is
`nil` and span is the number of nodes left. -/
def expLink (nl : Nat → Nat) (i : Nat) : List Nat → skipListLevel
  | [] => ⟨none, 0⟩
  | b :: rest =>
    if i < nl b then ⟨some b, 1⟩
    else ⟨(expLink nl i rest).forward, (expLink nl i rest).span + 1⟩

/-- Every node of the sequence carries, at each of its levels below `cap`, the link that
the nodes after it call for. -/
def Linked (mem : Mem) (cap : Nat) : List Nat → Prop
  | [] => True
  | a :: rest =>
    (∀ i, i < cap → i < nlev mem a → lvl mem a i = some (expLink (nlev mem) i rest)) ∧
    Linked mem cap rest

/-- The back pointer of every node of the sequence is the node before it (`p` for the
first one). -/
def BackLinked (mem : Mem) : Option Nat → List Nat → Prop
  | _, [] => True
  | p, a :: rest => (mem a).back = p ∧ BackLinked mem (some a) rest

/-- The node before the nodes that follow `A`, when `p` comes before `A`. -/
def lastOr (p : Option Nat) (A : List Nat) : Option Nat :=
  match A.getLast? with
  | some a => some a
  | none => p

/-- The node `u` is the last node of `P` with more than `j` levels, and `r` nodes of `P`
come before it. -/
def LastAbove (nl : Nat → Nat) (j : Nat) (P : List Nat) (u : Nat) (r : Int) : Prop :=
  ∃ pre mid, P = pre ++ u :: mid ∧ r = (pre.length : Int) ∧ j < nl u ∧ ∀ b ∈ mid, nl b ≤ j

/-- The search stops in front of `R` at level `j`: the first node of `R` with more than `j`
levels, if there is one, is not less than the pair searched for. -/
def Stops (mem : Mem) (score : Float64) (val : String) (j : Nat) (R : List Nat) : Prop :=
  ∀ f, (expLink (nlev mem) j R).forward = some f → nodeLess (mem f) score val = false

/-- The two memories agree on everything but the contents of the level cells. -/
def Shape (mem mem2 : Mem) : Prop :=
  ∀ b, (mem2 b).val = (mem b).val ∧ (mem2 b).score = (mem b).score ∧
    (mem2 b).back = (mem b).back ∧ nlev mem2 b = nlev mem b

/-- The list `skl` is well formed and `L` is its level-0 chain (the nodes after the header). -/
structure Inv (skl : SkipList) (L : List Nat) : Prop where
  nodup : (skl.header :: L).Nodup
  alloc : ∀ a ∈ skl.header :: L, a < skl.next
  hdr_lev : nlev skl.mem skl.header = sklMaxLevel
  lev_pos : 1 ≤ skl.level
  lev_max : skl.level ≤ sklMaxLevel
  node_lev : ∀ a ∈ L, 1 ≤ nlev skl.mem a ∧ nlev skl.mem a ≤ skl.level
  linked : Linked skl.mem skl.level (skl.header :: L)
  hdr_free : ∀ i, skl.level ≤ i → i < sklMaxLevel →
    ∃ l, lvl skl.mem skl.header i = some l ∧ l.forward = none
  top : 1 < skl.level → ∃ a ∈ L, nlev skl.mem a = skl.level
  len : skl.length = (L.length : Int)
  backs : BackLinked skl.mem none L
  tail : skl.tail = L.getLast?

/-- The place of a pair in the order "score ascending, then member ascending" (a NaN
score is sent to 0; the order is only used on pairs without NaN). -/
def keyRank (k : Float64 × String) : Lex (Int × String) :=
  toLex ((match k.1 with
    | .num i => i
    | .nan => 0), k.2)

/-- The chain `L` holds no NaN score and its pairs are in ascending order. -/
def Sorted (mem : Mem) (L : List Nat) : Prop :=
  (∀ a ∈ L, (mem a).score ≠ Float64.nan) ∧ Ascending (L.map (keyAt mem))

/-! ## Sample lists -/

/-- The list after `Insert(score, val)`, when the call returns (else the list itself). -/
def afterInsert (skl : SkipList) (score : Float64) (val : String) (draws : List Nat) :
    SkipList :=
  match skl.Insert score val draws with
  | some p => p.1
  | none => skl

/-- The list after `Delete(score, val)`, when the call returns (else the list itself). -/
def afterDelete (skl : SkipList) (score : Float64) (val : String) : SkipList :=
  match skl.Delete score val with
  | some p => p.1
  | none => skl

/-- A new list after `Insert(5, "b")`, drawn level 1. -/
def sklOne : SkipList := afterInsert NewSkipList (.num 5) "b" [65535]

/-- Then `Insert(5, "a")`, drawn level 2. -/
def sklTwo : SkipList := afterInsert sklOne (.num 5) "a" [0, 65535]

/-- Then `Insert(7, "c")`, drawn level 3. -/
def sklThree : SkipList := afterInsert sklTwo (.num 7) "c" [0, 0, 65535]

/-! ## Sample dictionary -/

/-- A hash function for the examples: the length of the key. -/
def lengthHash (key : String) : Int := key.length

/-- A dictionary of 16 shards holding `"a"` with value 1. -/
def dictOne : Dict Nat :=
  match (NewDict 16 : Dict Nat).Set lengthHash "a" 1 with
  | some p => p.1
  | none => NewDict 16

/-! ## Sequences of calls -/

/-- The dictionaries reachable from `NewDict()` by sequential calls of `Set`, `SetIfExist`,
`SetIfNotExist`, `Delete` and `Clear`, for the hash function `HashKey` and the configured
shard number `ShardNum`. -/
inductive DictReach {V : Type} (HashKey : String → Int) (ShardNum : Int) : Dict V → Prop
  | new : DictReach HashKey ShardNum (NewDict ShardNum)
  | set {m m2 : Dict V} {r : Int} (key : String) (rob : V) :
      DictReach HashKey ShardNum m → m.Set HashKey key rob = some (m2, r) →
      DictReach HashKey ShardNum m2
  | setIfExist {m m2 : Dict V} {r : Int} (key : String) (rob : V) :
      DictReach HashKey ShardNum m → m.SetIfExist HashKey key rob = some (m2, r) →
      DictReach HashKey ShardNum m2
  | setIfNotExist {m m2 : Dict V} {r : Int} (key : String) (rob : V) :
      DictReach HashKey ShardNum m → m.SetIfNotExist HashKey key rob = some (m2, r) →
      DictReach HashKey ShardNum m2
  | delete {m m2 : Dict V} {r : Int} (key : String) :
      DictReach HashKey ShardNum m → m.Delete HashKey key = some (m2, r) →
      DictReach HashKey ShardNum m2
  | clear {m : Dict V} :
      DictReach HashKey ShardNum m → DictReach HashKey ShardNum (m.Clear ShardNum)

/-- Successive calls `Set(k, v)` for the pairs `kvs`, in order. -/
def Dict.SetAll {V : Type} (HashKey : String → Int) (m : Dict V) :
    List (String × V) → Option (Dict V)
  | [] => some m
  | kv :: kvs =>
    match m.Set HashKey kv.1 kv.2 with
    | none => none
    | some (m2, _) => Dict.SetAll HashKey m2 kvs

/-- Successive calls `Delete(k)` for the keys `ks`, in order. -/
def Dict.DeleteAll {V : Type} (HashKey : String → Int) (m : Dict V) :
    List String → Option (Dict V)
  | [] => some m
  | k :: ks =>
    match m.Delete HashKey k with
    | none => none
    | some (m2, _) => Dict.DeleteAll HashKey m2 ks

/-- Every key stored in the dictionary is stored in the shard `getKeyPos` gives for it. -/
def Dict.Placed {V : Type} (HashKey : String → Int) (m : Dict V) : Prop :=
  ∀ (i : Nat) (sh : shard V), m.dict[i]? = some sh →
    ∀ k, k ∈ sh.mp.keys → m.getKeyPos HashKey k = some (i : Int)

/-- The lists reachable from the list `skl0` by later `Insert` and `Delete` calls. -/
inductive ReachableFrom (skl0 : SkipList) : SkipList → Prop
  | refl : ReachableFrom skl0 skl0
  | insert {skl skl2 : SkipList} {x : Nat} (score : Float64) (val : String)
      (draws : List Nat) :
      ReachableFrom skl0 skl → skl.Insert score val draws = some (skl2, x) →
      ReachableFrom skl0 skl2
  | delete {skl skl2 : SkipList} {r : Int} (score : Float64) (val : String) :
      ReachableFrom skl0 skl → skl.Delete score val = some (skl2, r) →
      ReachableFrom skl0 skl2

/-! ## The level draw as the specification words it -/

/-- The draw of the specification, a number in [0, 1]: the low 16 bits of the result `v` of
`rand.Int31()`, over `0xFFFF`. -/
def specDraw (v : Nat) : ℚ := ((v &&& 0xFFFF : Nat) : ℚ) / 0xFFFF

/-- The loop of the specification, `while draw() < 0.25 and level < 32: level += 1`, over
the successive draws; `none` when the draws run out before it ends. -/
def specRandomLoop : List Nat → Nat → Option Nat
  | [], _ => none
  | v :: rest, level =>
    if specDraw v < 0.25 ∧ level < 32 then specRandomLoop rest (level + 1) else some level

/-- The level draw of the specification: `level = 1`, then the loop. -/
def specRandomLevel (draws : List Nat) : Option Nat := specRandomLoop draws 1

/-- The three-element sample list after `Insert(NaN, "n")`, drawn level 1. -/
def sklNaN : SkipList := afterInsert sklThree Float64.nan "n" [65535]

/-! ## Theorems -/

/-! ### Memory cells -/

theorem lvl_lt {mem : Mem} {a i : Nat} {l : skipListLevel} (h : lvl mem a i = some l) :
    i < nlev mem a := by
  unfold lvl at h
  unfold nlev
  exact (List.getElem?_eq_some.mp h).1

theorem lvl_of_lt {mem : Mem} {a i : Nat} (h : i < nlev mem a) :
    ∃ l, lvl mem a i = some l := by
  unfold nlev at h
  exact ⟨(mem a).level[i], by unfold lvl; exact List.getElem?_eq_getElem h⟩

theorem lvl_at (mem : Mem) (a i : Nat) (h : i < nlev mem a) : ∃ l, lvl mem a i = some l :=
  lvl_of_lt h

theorem lvl_putLevel (mem : Mem) (a i : Nat) (l : skipListLevel) (b j : Nat) :
    lvl (putLevel mem a i l) b j =
      if b = a ∧ j = i ∧ i < nlev mem a then some l else lvl mem b j := by
  unfold lvl putLevel nlev
  by_cases hb : b = a
  · subst hb
    simp only [Function.update_same, List.getElem?_set]
    by_cases hj : j = i
    · subst hj
      by_cases hlt : j < (mem b).level.length
      · simp [hlt]
      · simp [hlt, List.getElem?_eq_none (Nat.not_lt.mp hlt)]
    · have : ¬ i = j := fun h => hj h.symm
      simp [hj, this]
  · simp [Function.update_noteq hb, hb]

theorem shape_putLevel (mem : Mem) (a i : Nat) (l : skipListLevel) :
    Shape mem (putLevel mem a i l) := by
  intro b
  unfold putLevel nlev
  by_cases hb : b = a
  · subst hb
    simp
  · simp [Function.update_noteq hb]

theorem Shape.refl (mem : Mem) : Shape mem mem := fun _ => ⟨rfl, rfl, rfl, rfl⟩

theorem Shape.trans {m1 m2 m3 : Mem} (h1 : Shape m1 m2) (h2 : Shape m2 m3) : Shape m1 m3 := by
  intro b
  obtain ⟨a1, a2, a3, a4⟩ := h1 b
  obtain ⟨b1, b2, b3, b4⟩ := h2 b
  exact ⟨b1.trans a1, b2.trans a2, b3.trans a3, b4.trans a4⟩

theorem Shape.nlev_eq {m1 m2 : Mem} (h : Shape m1 m2) : nlev m2 = nlev m1 :=
  funext fun b => (h b).2.2.2

theorem setForward_eq {mem : Mem} {a i : Nat} {l : skipListLevel} (h : lvl mem a i = some l)
    (f : Option Nat) : setForward mem a i f = some (putLevel mem a i ⟨f, l.span⟩) := by
  simp [setForward, h]

theorem setSpan_eq {mem : Mem} {a i : Nat} {l : skipListLevel} (h : lvl mem a i = some l)
    (s : Int) : setSpan mem a i s = some (putLevel mem a i ⟨l.forward, s⟩) := by
  simp [setSpan, h]

theorem lvl_setBack (mem : Mem) (a : Nat) (p : Option Nat) (b j : Nat) :
    lvl (setBack mem a p) b j = lvl mem b j := by
  unfold lvl setBack
  by_cases hb : b = a
  · subst hb; simp
  · simp [Function.update_noteq hb]

theorem nlev_setBack (mem : Mem) (a : Nat) (p : Option Nat) :
    nlev (setBack mem a p) = nlev mem := by
  funext b
  unfold nlev setBack
  by_cases hb : b = a
  · subst hb; simp
  · simp [Function.update_noteq hb]

theorem back_setBack (mem : Mem) (a : Nat) (p : Option Nat) (b : Nat) :
    (setBack mem a p b).back = if b = a then p else (mem b).back := by
  unfold setBack
  by_cases hb : b = a
  · subst hb; simp
  · simp [Function.update_noteq hb, hb]

theorem keyAt_setBack (mem : Mem) (a : Nat) (p : Option Nat) :
    keyAt (setBack mem a p) = keyAt mem := by
  funext b
  unfold keyAt setBack
  by_cases hb : b = a
  · subst hb; simp
  · simp [Function.update_noteq hb]

theorem Shape.keyAt_eq {m1 m2 : Mem} (h : Shape m1 m2) : keyAt m2 = keyAt m1 := by
  funext b
  unfold keyAt
  rw [(h b).1, (h b).2.1]

/-! ### Expected links -/

theorem expLink_cons (nl : Nat → Nat) (i b : Nat) (R : List Nat) :
    expLink nl i (b :: R) =
      if i < nl b then ⟨some b, 1⟩
      else ⟨(expLink nl i R).forward, (expLink nl i R).span + 1⟩ := rfl

theorem expLink_congr {nl nl2 : Nat → Nat} (i : Nat) {R : List Nat}
    (h : ∀ b ∈ R, nl2 b = nl b) : expLink nl2 i R = expLink nl i R := by
  induction R with
  | nil => rfl
  | cons b R ih =>
    have hb := h b (List.mem_cons_self _ _)
    have ih2 := ih (fun c hc => h c (List.mem_cons_of_mem _ hc))
    rw [expLink_cons, expLink_cons, hb, ih2]

theorem expLink_low (nl : Nat → Nat) (i : Nat) (A B : List Nat) (h : ∀ b ∈ A, nl b ≤ i) :
    expLink nl i (A ++ B) = ⟨(expLink nl i B).forward, (expLink nl i B).span + A.length⟩ := by
  induction A with
  | nil => simp
  | cons b A ih =>
    have hb : ¬ i < nl b := Nat.not_lt.mpr (h b (List.mem_cons_self _ _))
    have ih2 := ih (fun c hc => h c (List.mem_cons_of_mem _ hc))
    rw [List.cons_append, expLink_cons, if_neg hb, ih2]
    simp only [List.length_cons]
    congr 1
    push_cast
    ring

theorem expLink_first (nl : Nat → Nat) (i : Nat) (A B : List Nat) (f : Nat)
    (h : ∀ b ∈ A, nl b ≤ i) (hf : i < nl f) :
    expLink nl i (A ++ f :: B) = ⟨some f, (A.length : Int) + 1⟩ := by
  rw [expLink_low nl i A (f :: B) h, expLink_cons, if_pos hf]
  congr 1
  ring

theorem expLink_high (nl : Nat → Nat) (i : Nat) (A B B2 : List Nat)
    (h : ∃ b ∈ A, i < nl b) : expLink nl i (A ++ B) = expLink nl i (A ++ B2) := by
  induction A with
  | nil => simp at h
  | cons b A ih =>
    rw [List.cons_append, List.cons_append, expLink_cons, expLink_cons]
    by_cases hb : i < nl b
    · simp [hb]
    · simp only [hb, if_false]
      obtain ⟨c, hc, hci⟩ := h
      rcases List.mem_cons.mp hc with rfl | hc2
      · exact absurd hci hb
      · rw [ih ⟨c, hc2, hci⟩]

theorem expLink_forward_some {nl : Nat → Nat} {i : Nat} {R : List Nat} {f : Nat}
    (h : (expLink nl i R).forward = some f) :
    ∃ A B, R = A ++ f :: B ∧ (∀ b ∈ A, nl b ≤ i) ∧ i < nl f := by
  induction R with
  | nil => simp [expLink] at h
  | cons b R ih =>
    rw [expLink_cons] at h
    by_cases hb : i < nl b
    · simp only [hb, if_true, Option.some.injEq] at h
      subst h
      exact ⟨[], R, rfl, by simp, hb⟩
    · simp only [hb, if_false] at h
      obtain ⟨A, B, rfl, hA, hf⟩ := ih h
      refine ⟨b :: A, B, rfl, ?_, hf⟩
      intro c hc
      rcases List.mem_cons.mp hc with rfl | hc2
      · exact Nat.not_lt.mp hb
      · exact hA c hc2

theorem expLink_forward_none {nl : Nat → Nat} {i : Nat} {R : List Nat} :
    (expLink nl i R).forward = none ↔ ∀ b ∈ R, nl b ≤ i := by
  induction R with
  | nil => simp [expLink]
  | cons b R ih =>
    rw [expLink_cons]
    by_cases hb : i < nl b
    · simp only [hb, if_true]
      constructor
      · intro h; simp at h
      · intro h
        have := h b (List.mem_cons_self _ _)
        omega
    · simp only [hb, if_false, ih, List.mem_cons, forall_eq_or_imp]
      constructor
      · intro h; exact ⟨Nat.not_lt.mp hb, h⟩
      · intro h; exact h.2

theorem expLink_all_low {nl : Nat → Nat} {i : Nat} {R : List Nat} (h : ∀ b ∈ R, nl b ≤ i) :
    expLink nl i R = ⟨none, R.length⟩ := by
  have := expLink_low nl i R [] h
  simpa [expLink] using this

/-! ### Linked sequences -/

theorem Linked.congr {mem mem2 : Mem} {cap : Nat} {H : List Nat}
    (h : Linked mem cap H) (hl : ∀ a ∈ H, ∀ i, i < cap → lvl mem2 a i = lvl mem a i)
    (hn : ∀ a ∈ H, nlev mem2 a = nlev mem a) : Linked mem2 cap H := by
  induction H with
  | nil => trivial
  | cons a H ih =>
    obtain ⟨h1, h2⟩ := h
    refine ⟨?_, ih h2 (fun b hb => hl b (List.mem_cons_of_mem _ hb))
      (fun b hb => hn b (List.mem_cons_of_mem _ hb))⟩
    intro i hi hia
    rw [hn a (List.mem_cons_self _ _)] at hia
    rw [hl a (List.mem_cons_self _ _) i hi, h1 i hi hia]
    congr 1
    exact (expLink_congr i (fun b hb => hn b (List.mem_cons_of_mem _ hb))).symm

theorem Linked.suffix {mem : Mem} {cap : Nat} {A B : List Nat}
    (h : Linked mem cap (A ++ B)) : Linked mem cap B := by
  induction A with
  | nil => simpa using h
  | cons a A ih => exact ih h.2

theorem Linked.at {mem : Mem} {cap : Nat} {A B : List Nat} {a : Nat}
    (h : Linked mem cap (A ++ a :: B)) {i : Nat} (hi : i < cap) (hia : i < nlev mem a) :
    lvl mem a i = some (expLink (nlev mem) i B) :=
  (Linked.suffix h).1 i hi hia

theorem Linked.mono {mem : Mem} {cap cap2 : Nat} {H : List Nat}
    (h : Linked mem cap H) (hc : cap2 ≤ cap) : Linked mem cap2 H := by
  induction H with
  | nil => trivial
  | cons a H ih => exact ⟨fun i hi hia => h.1 i (by omega) hia, ih h.2⟩

theorem idx_lt {α : Type} (a : Nat → α) {i : Nat} (h : i < sklMaxLevel) : idx a i = some (a i) := by
  simp [idx, h]

theorem idxSet_lt {α : Type} (a : Nat → α) {i : Nat} (v : α) (h : i < sklMaxLevel) :
    idxSet a i v = some (Function.update a i v) := by
  simp [idxSet, h]

theorem Stops.low {mem : Mem} {score : Float64} {val : String} {j : Nat} {A B : List Nat}
    (h : Stops mem score val j (A ++ B)) (hA : ∀ b ∈ A, nlev mem b ≤ j) :
    Stops mem score val j B := by
  intro f hf
  apply h f
  rw [expLink_low _ _ _ _ hA]
  exact hf

theorem insertWalk_spec {mem : Mem} {cap i : Nat} (score : Float64) (val : String)
    (hi : i < cap) (hi32 : i < sklMaxLevel) :
    ∀ (fuel x : Nat) (R : List Nat) (rank : Nat → Int),
      Linked mem cap (x :: R) → i < nlev mem x → R.length < fuel →
      ∃ passed R2 x2 pre,
        R = passed ++ R2 ∧
        insertWalk mem score val i fuel x rank =
          some (x2, Function.update rank i (rank i + passed.length)) ∧
        x :: passed = pre ++ [x2] ∧
        i < nlev mem x2 ∧
        Stops mem score val i R2 ∧
        (passed ≠ [] → nodeLess (mem x2) score val = true) ∧
        (∀ j, i < j → Stops mem score val j R →
          (∀ b ∈ passed, nlev mem b ≤ j) ∧ Stops mem score val j R2) := by
  intro fuel
  induction fuel with
  | zero => intro x R rank _ _ h; omega
  | succ fuel ih =>
    intro x R rank hL hx hfuel
    have hlx : lvl mem x i = some (expLink (nlev mem) i R) := hL.1 i hi hx
    cases hfw : (expLink (nlev mem) i R).forward with
    | none =>
      refine ⟨[], R, x, [], rfl, ?_, rfl, hx, ?_, by simp, ?_⟩
      · simp [insertWalk, hlx, hfw]
      · intro f hf; rw [hfw] at hf; cases hf
      · intro j _ hs; exact ⟨by simp, hs⟩
    | some f =>
      obtain ⟨A, B, hR, hA, hf⟩ := expLink_forward_some hfw
      by_cases hless : nodeLess (mem f) score val = true
      · subst hR
        have hLf : Linked mem cap (f :: B) := by
          have := Linked.suffix (A := x :: A) (B := f :: B) (by simpa using hL)
          exact this
        have hlen : B.length < fuel := by
          simp at hfuel; omega
        obtain ⟨passed, R2, x2, pre, hB, hw, hpre, hx2, hst, hls, hj⟩ :=
          ih f B (Function.update rank i (rank i + (expLink (nlev mem) i (A ++ f :: B)).span))
            hLf hf hlen
        refine ⟨A ++ f :: passed, R2, x2, x :: A ++ pre, ?_, ?_, ?_, hx2, hst, ?_, ?_⟩
        · simp [hB]
        · simp only [insertWalk, hlx, hfw, hless, if_true, idx_lt rank hi32,
            idxSet_lt rank _ hi32]
          rw [hw]
          simp only [Function.update_same, Function.update_idem]
          rw [expLink_first _ _ _ _ _ hA hf]
          simp only [List.length_append, List.length_cons]
          have e : rank i + ((A.length : Int) + 1) + (passed.length : Int) =
              rank i + ((A.length + (passed.length + 1) : Nat) : Int) := by
            push_cast; ring
          rw [e]
        · simp [hpre]
        · intro _
          by_cases hp : passed = []
          · subst hp
            have h2 := congrArg List.getLast? hpre
            simp at h2
            rw [← h2]; exact hless
          · exact hls hp
        · intro j hij hs
          have hfj : nlev mem f ≤ j := by
            by_contra hc
            have hc2 : j < nlev mem f := by omega
            have := hs f (by
              rw [expLink_first _ _ _ _ _ (fun b hb => by have := hA b hb; omega) hc2])
            rw [this] at hless
            cases hless
          have hAj : ∀ b ∈ A ++ [f], nlev mem b ≤ j := by
            intro b hb
            rcases List.mem_append.mp hb with h1 | h1
            · have := hA b h1; omega
            · simp at h1; subst h1; exact hfj
          have hsB : Stops mem score val j B := by
            apply Stops.low (A := A ++ [f]) _ hAj
            simpa using hs
          obtain ⟨h1, h2⟩ := hj j hij hsB
          refine ⟨?_, h2⟩
          intro b hb
          rcases List.mem_append.mp hb with h3 | h3
          · have := hA b h3; omega
          · rcases List.mem_cons.mp h3 with h4 | h4
            · subst h4; exact hfj
            · exact h1 b h4
      · refine ⟨[], R, x, [], rfl, ?_, rfl, hx, ?_, by simp, ?_⟩
        · simp [insertWalk, hlx, hfw, hless]
        · intro g hg
          rw [hfw] at hg
          cases hg
          simpa using hless
        · intro j _ hs; exact ⟨by simp, hs⟩

theorem LastAbove.extend {nl : Nat → Nat} {j : Nat} {P : List Nat} {u : Nat} {r : Int}
    (h : LastAbove nl j P u r) {A : List Nat} (hA : ∀ b ∈ A, nl b ≤ j) :
    LastAbove nl j (P ++ A) u r := by
  obtain ⟨pre, mid, hP, hr, hu, hm⟩ := h
  refine ⟨pre, mid ++ A, by simp [hP], hr, hu, ?_⟩
  intro b hb
  rcases List.mem_append.mp hb with h1 | h1
  · exact hm b h1
  · exact hA b h1

theorem insertSearch_spec (mem : Mem) (cap : Nat) (score : Float64) (val : String) (fuel : Nat)
    (hcap : cap ≤ sklMaxLevel) :
    ∀ (k x : Nat) (P0 R : List Nat) (update : Nat → Option Nat) (rank : Nat → Int),
      k ≤ cap → Linked mem cap (P0 ++ x :: R) → k ≤ nlev mem x → R.length < fuel →
      (k < cap → update k = some x ∧ rank k = P0.length) → (k = cap → P0 = []) →
      (∀ j, k ≤ j → j < cap → ∃ u, update j = some u ∧
        LastAbove (nlev mem) j (P0 ++ [x]) u (rank j) ∧ Stops mem score val j R) →
      (P0 = [] ∨ nodeLess (mem x) score val = true) →
      ∃ passed R2 P1 x1 update2 rank2,
        R = passed ++ R2 ∧ P0 ++ x :: passed = P1 ++ [x1] ∧
        insertSearch mem cap score val fuel k x update rank = some (update2, rank2) ∧
        (0 < cap → update2 0 = some x1 ∧ rank2 0 = P1.length) ∧
        (∀ j, j < cap → ∃ u, update2 j = some u ∧
          LastAbove (nlev mem) j (P1 ++ [x1]) u (rank2 j) ∧ Stops mem score val j R2) ∧
        (P1 = [] ∨ nodeLess (mem x1) score val = true) := by
  intro k
  induction k with
  | zero =>
    intro x P0 R update rank _ _ _ _ h0 _ hF hless
    refine ⟨[], R, P0, x, update, rank, by simp, rfl, by simp [insertSearch], ?_, ?_, hless⟩
    · intro hc; exact h0 hc
    · intro j hj; exact hF j (Nat.zero_le _) hj
  | succ i ih =>
    intro x P0 R update rank hk hL hx hfuel hcur htop hF hless
    have hi : i < cap := by omega
    have hi32 : i < sklMaxLevel := by omega
    -- the first assignment to rank[i]
    have hr1 : rankStart rank cap i =
        some (Function.update rank i (P0.length : Int)) := by
      unfold rankStart
      by_cases hic : i = cap - 1
      · have : i + 1 = cap := by omega
        rw [if_pos hic, idxSet_lt _ _ hi32, htop this]
        simp
      · have hlt : i + 1 < cap := by omega
        rw [if_neg hic, idx_lt _ (by omega : i + 1 < sklMaxLevel)]
        simp only []
        rw [idxSet_lt _ _ hi32, (hcur hlt).2]
    have hLx : Linked mem cap (x :: R) := Linked.suffix hL
    obtain ⟨passed, R1, x2, pre, hR, hw, hpre, hx2, hst, hls, hj⟩ :=
      insertWalk_spec score val hi hi32 fuel x R (Function.update rank i (P0.length : Int))
        hLx (by omega) hfuel
    have hlenpre : pre.length = passed.length := by
      have := congrArg List.length hpre
      simp at this
      omega
    have hP : P0 ++ x :: passed = (P0 ++ pre) ++ [x2] := by
      rw [hpre]; simp
    obtain ⟨passed2, R2, P1, x1, update2, rank2, hR1, hP1, hs, h0, hall, hless2⟩ :=
      ih x2 (P0 ++ pre) R1 (Function.update update i (some x2))
        (Function.update (Function.update rank i (P0.length : Int)) i
          (Function.update rank i (P0.length : Int) i + passed.length))
        (by omega)
        (by
          have : (P0 ++ pre) ++ x2 :: R1 = P0 ++ x :: R := by
            rw [hR]
            have : (P0 ++ pre) ++ x2 :: R1 = (P0 ++ (pre ++ [x2])) ++ R1 := by simp
            rw [this, ← hpre]
            simp
          rw [this]; exact hL)
        (by omega)
        (by
          have := congrArg List.length hR
          simp at this
          omega)
        (by
          intro _
          simp [hlenpre])
        (by intro h; omega)
        (by
          intro j hij hjc
          by_cases hji : j = i
          · subst hji
            refine ⟨x2, by simp, ⟨P0 ++ pre, [], by simp, ?_, hx2, by simp⟩, hst⟩
            simp [hlenpre]
          · have hlt : i + 1 ≤ j := by omega
            obtain ⟨u, hu, hla, hsj⟩ := hF j hlt hjc
            obtain ⟨hp1, hp2⟩ := hj j (by omega) hsj
            refine ⟨u, ?_, ?_, hp2⟩
            · rw [Function.update_noteq hji]; exact hu
            · have e : (P0 ++ pre) ++ [x2] = (P0 ++ [x]) ++ passed := by
                rw [← hP]; simp
              rw [e]
              simp only [Function.update_idem, Function.update_noteq hji]
              exact hla.extend hp1)
        (by
          by_cases hp : passed = []
          · subst hp
            have hpre0 : pre = [] := List.length_eq_zero.mp (by simpa using hlenpre)
            subst hpre0
            simp at hpre
            subst hpre
            rcases hless with h | h
            · left; simp [h]
            · right; exact h
          · right; exact hls hp)
    refine ⟨passed ++ passed2, R2, P1, x1, update2, rank2, ?_, ?_, ?_, h0, hall, hless2⟩
    · rw [hR, hR1]; simp
    · rw [← hP1]
      have e : P0 ++ x :: (passed ++ passed2) = (P0 ++ x :: passed) ++ passed2 := by simp
      rw [e, hP]; simp
    · simp only [insertSearch, hr1, hw, idxSet_lt _ _ hi32]
      exact hs

theorem setForward_spec {mem : Mem} {a i : Nat} {l : skipListLevel} (h : lvl mem a i = some l)
    (f : Option Nat) :
    ∃ m, setForward mem a i f = some m ∧ Shape mem m ∧
      ∀ b j, lvl m b j = if b = a ∧ j = i then some ⟨f, l.span⟩ else lvl mem b j := by
  refine ⟨_, setForward_eq h f, shape_putLevel _ _ _ _, ?_⟩
  intro b j
  rw [lvl_putLevel]
  have := lvl_lt h
  by_cases hc : b = a ∧ j = i
  · rw [if_pos ⟨hc.1, hc.2, this⟩, if_pos hc]
  · rw [if_neg (fun hh => hc ⟨hh.1, hh.2.1⟩), if_neg hc]

theorem setSpan_spec {mem : Mem} {a i : Nat} {l : skipListLevel} (h : lvl mem a i = some l)
    (s : Int) :
    ∃ m, setSpan mem a i s = some m ∧ Shape mem m ∧
      ∀ b j, lvl m b j = if b = a ∧ j = i then some ⟨l.forward, s⟩ else lvl mem b j := by
  refine ⟨_, setSpan_eq h s, shape_putLevel _ _ _ _, ?_⟩
  intro b j
  rw [lvl_putLevel]
  have := lvl_lt h
  by_cases hc : b = a ∧ j = i
  · rw [if_pos ⟨hc.1, hc.2, this⟩, if_pos hc]
  · rw [if_neg (fun hh => hc ⟨hh.1, hh.2.1⟩), if_neg hc]

theorem insertRaise_spec (header : Nat) (length : Int) :
    ∀ (n i : Nat) (mem : Mem) (update : Nat → Option Nat) (rank : Nat → Int),
      i + n ≤ sklMaxLevel → i + n ≤ nlev mem header →
      ∃ mem2 update2 rank2,
        insertRaise header length n i mem update rank = some (mem2, update2, rank2) ∧
        Shape mem mem2 ∧
        (∀ j, update2 j = if i ≤ j ∧ j < i + n then some header else update j) ∧
        (∀ j, rank2 j = if i ≤ j ∧ j < i + n then 0 else rank j) ∧
        (∀ b j, ¬ (b = header ∧ i ≤ j ∧ j < i + n) → lvl mem2 b j = lvl mem b j) ∧
        (∀ j l, i ≤ j → j < i + n → lvl mem header j = some l →
          lvl mem2 header j = some ⟨l.forward, length⟩) := by
  intro n
  induction n with
  | zero =>
    intro i mem update rank _ _
    refine ⟨mem, update, rank, rfl, Shape.refl _, ?_, ?_, ?_, ?_⟩
    · intro j; rw [if_neg (by omega)]
    · intro j; rw [if_neg (by omega)]
    · intro b j _; rfl
    · intro j l h1 h2; omega
  | succ n ih =>
    intro i mem update rank h32 hlev
    have hi32 : i < sklMaxLevel := by omega
    obtain ⟨l0, hl0⟩ := lvl_at mem header i (by omega)
    have hsh := shape_putLevel mem header i ⟨l0.forward, length⟩
    obtain ⟨mem2, update2, rank2, hrun, hshape, hu, hr, hframe, hhdr⟩ :=
      ih (i + 1) (putLevel mem header i ⟨l0.forward, length⟩)
        (Function.update update i (some header)) (Function.update rank i 0)
        (by omega) (by rw [(hsh header).2.2.2]; omega)
    refine ⟨mem2, update2, rank2, ?_, hsh.trans hshape, ?_, ?_, ?_, ?_⟩
    · simp only [insertRaise, idxSet_lt _ _ hi32, setSpan_eq hl0]
      exact hrun
    · intro j
      rw [hu j]
      by_cases hj : j = i
      · subst hj
        simp
      · rw [Function.update_noteq hj]
        by_cases h1 : i + 1 ≤ j ∧ j < i + 1 + n
        · rw [if_pos h1, if_pos (by omega)]
        · rw [if_neg h1, if_neg (by omega)]
    · intro j
      rw [hr j]
      by_cases hj : j = i
      · subst hj
        simp
      · rw [Function.update_noteq hj]
        by_cases h1 : i + 1 ≤ j ∧ j < i + 1 + n
        · rw [if_pos h1, if_pos (by omega)]
        · rw [if_neg h1, if_neg (by omega)]
    · intro b j hb
      rw [hframe b j (by intro h; apply hb; exact ⟨h.1, by omega, by omega⟩), lvl_putLevel]
      rw [if_neg]
      intro h
      apply hb
      exact ⟨h.1, by omega, by omega⟩
    · intro j l h1 h2 hl
      by_cases hj : j = i
      · subst hj
        rw [hframe header j (by intro h; omega), lvl_putLevel]
        rw [hl0] at hl
        cases hl
        rw [if_pos ⟨rfl, rfl, by omega⟩]
      · apply hhdr j l (by omega) (by omega)
        rw [lvl_putLevel, if_neg (by intro h; exact hj h.2.1)]
        exact hl

theorem insertSplice_spec (x : Nat) (update : Nat → Option Nat) (rank : Nat → Int) :
    ∀ (n i : Nat) (mem : Mem),
      i + n ≤ sklMaxLevel → i + n ≤ nlev mem x →
      (∀ j, i ≤ j → j < i + n → ∃ u, update j = some u ∧ u ≠ x ∧ j < nlev mem u) →
      ∃ mem2,
        insertSplice x update rank n i mem = some mem2 ∧
        Shape mem mem2 ∧
        (∀ b j, ¬ (i ≤ j ∧ j < i + n) → lvl mem2 b j = lvl mem b j) ∧
        (∀ b j, b ≠ x → update j ≠ some b → lvl mem2 b j = lvl mem b j) ∧
        (∀ j u lu, i ≤ j → j < i + n → update j = some u → lvl mem u j = some lu →
          lvl mem2 x j = some ⟨lu.forward, lu.span - (rank 0 - rank j)⟩ ∧
          lvl mem2 u j = some ⟨some x, (rank 0 - rank j) + 1⟩) := by
  intro n
  induction n with
  | zero =>
    intro i mem _ _ _
    refine ⟨mem, rfl, Shape.refl _, fun _ _ _ => rfl, fun _ _ _ _ => rfl, ?_⟩
    intro j u lu h1 h2; omega
  | succ n ih =>
    intro i mem h32 hlev hupd
    have hi32 : i < sklMaxLevel := by omega
    obtain ⟨u, hu, hux, hui⟩ := hupd i (Nat.le_refl _) (by omega)
    obtain ⟨lu, hlu⟩ := lvl_of_lt hui
    obtain ⟨lx, hlx⟩ := lvl_at mem x i (by omega)
    -- the four writes
    obtain ⟨m1, e1, s1, c1⟩ := setForward_spec hlx lu.forward
    have hm1u : lvl m1 u i = some lu := by
      rw [c1, if_neg (by intro h; exact hux h.1)]; exact hlu
    obtain ⟨m2, e2, s2, c2⟩ := setForward_spec hm1u (some x)
    have hm2u : lvl m2 u i = some ⟨some x, lu.span⟩ := by
      rw [c2, if_pos ⟨rfl, rfl⟩]
    have hm2x : lvl m2 x i = some ⟨lu.forward, lx.span⟩ := by
      rw [c2, if_neg (by intro h; exact hux h.1.symm), c1, if_pos ⟨rfl, rfl⟩]
    obtain ⟨m3, e3, s3, c3⟩ := setSpan_spec hm2x (lu.span - (rank 0 - rank i))
    have hm3u : lvl m3 u i = some ⟨some x, lu.span⟩ := by
      rw [c3, if_neg (by intro h; exact hux h.1)]; exact hm2u
    obtain ⟨m4, e4, s4, c4⟩ := setSpan_spec hm3u ((rank 0 - rank i) + 1)
    have s14 : Shape mem m4 := ((s1.trans s2).trans s3).trans s4
    have hm4 : ∀ b j, lvl m4 b j =
        if j = i then
          (if b = u then some ⟨some x, (rank 0 - rank i) + 1⟩
           else if b = x then some ⟨lu.forward, lu.span - (rank 0 - rank i)⟩
           else lvl mem b j)
        else lvl mem b j := by
      intro b j
      rw [c4, c3, c2, c1]
      by_cases hj : j = i
      · by_cases hbu : b = u
        · simp [hj, hbu]
        · by_cases hbx : b = x
          · simp [hj, hbu, hbx]
          · simp [hj, hbu, hbx]
      · simp [hj]
    obtain ⟨mem2, hrun, hshape, hout, hframe, hin⟩ := ih (i + 1) m4 (by omega)
      (by rw [(s14 x).2.2.2]; omega)
      (by
        intro j h1 h2
        obtain ⟨u2, hu2, hu2x, hu2j⟩ := hupd j (by omega) (by omega)
        exact ⟨u2, hu2, hu2x, by rw [(s14 u2).2.2.2]; exact hu2j⟩)
    refine ⟨mem2, ?_, s14.trans hshape, ?_, ?_, ?_⟩
    · simp only [insertSplice, idx_lt _ hi32, idx_lt rank (by unfold sklMaxLevel; omega : 0 < sklMaxLevel),
        hu, hlu, e1, e2, hm2u, e3, e4]
      exact hrun
    · intro b j hj
      rw [hout b j (by omega), hm4, if_neg (by omega)]
    · intro b j hbx hbu
      rw [hframe b j hbx hbu, hm4]
      by_cases hj : j = i
      · subst hj
        rw [if_pos rfl, if_neg (by intro h; apply hbu; rw [hu, h]), if_neg hbx]
      · rw [if_neg hj]
    · intro j u2 lu2 h1 h2 hu2 hlu2
      by_cases hj : j = i
      · subst hj
        rw [hu] at hu2
        cases hu2
        rw [hlu] at hlu2
        cases hlu2
        rw [hout x j (by omega), hout u j (by omega), hm4, hm4]
        simp [hux.symm]
      · apply hin j u2 lu2 (by omega) (by omega) hu2
        rw [hm4, if_neg hj]
        exact hlu2

theorem insertIncr_spec (update : Nat → Option Nat) :
    ∀ (n i : Nat) (mem : Mem),
      i + n ≤ sklMaxLevel →
      (∀ j, i ≤ j → j < i + n → ∃ u, update j = some u ∧ j < nlev mem u) →
      ∃ mem2,
        insertIncr update n i mem = some mem2 ∧
        Shape mem mem2 ∧
        (∀ b j, ¬ (i ≤ j ∧ j < i + n) → lvl mem2 b j = lvl mem b j) ∧
        (∀ b j, update j ≠ some b → lvl mem2 b j = lvl mem b j) ∧
        (∀ j u lu, i ≤ j → j < i + n → update j = some u → lvl mem u j = some lu →
          lvl mem2 u j = some ⟨lu.forward, lu.span + 1⟩) := by
  intro n
  induction n with
  | zero =>
    intro i mem _ _
    refine ⟨mem, rfl, Shape.refl _, fun _ _ _ => rfl, fun _ _ _ => rfl, ?_⟩
    intro j u lu h1 h2; omega
  | succ n ih =>
    intro i mem h32 hupd
    have hi32 : i < sklMaxLevel := by omega
    obtain ⟨u, hu, hui⟩ := hupd i (Nat.le_refl _) (by omega)
    obtain ⟨lu, hlu⟩ := lvl_of_lt hui
    obtain ⟨m1, e1, s1, c1⟩ := setSpan_spec hlu (lu.span + 1)
    obtain ⟨mem2, hrun, hshape, hout, hframe, hin⟩ := ih (i + 1) m1 (by omega)
      (by
        intro j h1 h2
        obtain ⟨u2, hu2, hu2j⟩ := hupd j (by omega) (by omega)
        exact ⟨u2, hu2, by rw [(s1 u2).2.2.2]; exact hu2j⟩)
    refine ⟨mem2, ?_, s1.trans hshape, ?_, ?_, ?_⟩
    · simp only [insertIncr, idx_lt _ hi32, hu, hlu, e1]
      exact hrun
    · intro b j hj
      rw [hout b j (by omega), c1, if_neg (by omega)]
    · intro b j hbu
      rw [hframe b j hbu, c1]
      rw [if_neg]
      intro h
      apply hbu
      rw [h.2, hu, h.1]
    · intro j u2 lu2 h1 h2 hu2 hlu2
      by_cases hj : j = i
      · subst hj
        rw [hu] at hu2
        cases hu2
        rw [hlu] at hlu2
        cases hlu2
        rw [hout u j (by omega), c1, if_pos ⟨rfl, rfl⟩]
      · apply hin j u2 lu2 (by omega) (by omega) hu2
        rw [c1, if_neg (by intro h; exact hj h.2)]
        exact hlu2

theorem deleteUnlink_spec (x : Nat) (update : Nat → Option Nat) :
    ∀ (n i : Nat) (mem : Mem),
      i + n ≤ sklMaxLevel →
      (∀ j, i ≤ j → j < i + n → ∃ u lu, update j = some u ∧ u ≠ x ∧ lvl mem u j = some lu ∧
        (lu.forward = some x → j < nlev mem x)) →
      ∃ mem2,
        deleteUnlink x update n i mem = some mem2 ∧
        Shape mem mem2 ∧
        (∀ b j, ¬ (i ≤ j ∧ j < i + n) → lvl mem2 b j = lvl mem b j) ∧
        (∀ b j, update j ≠ some b → lvl mem2 b j = lvl mem b j) ∧
        (∀ j u lu, i ≤ j → j < i + n → update j = some u → lvl mem u j = some lu →
          (lu.forward = some x → ∀ lx, lvl mem x j = some lx →
            lvl mem2 u j = some ⟨lx.forward, lu.span + (lx.span - 1)⟩) ∧
          (lu.forward ≠ some x → lvl mem2 u j = some ⟨lu.forward, lu.span - 1⟩)) := by
  intro n
  induction n with
  | zero =>
    intro i mem _ _
    refine ⟨mem, rfl, Shape.refl _, fun _ _ _ => rfl, fun _ _ _ => rfl, ?_⟩
    intro j u lu h1 h2; omega
  | succ n ih =>
    intro i mem h32 hupd
    have hi32 : i < sklMaxLevel := by omega
    obtain ⟨u, lu, hu, hux, hlu, hfx⟩ := hupd i (Nat.le_refl _) (by omega)
    -- one iteration
    have hstep : ∃ m1, Shape mem m1 ∧
        (∀ m3, deleteUnlink x update n (i + 1) m1 = some m3 →
          deleteUnlink x update (n + 1) i mem = some m3) ∧
        (∀ b j, ¬ (b = u ∧ j = i) → lvl m1 b j = lvl mem b j) ∧
        (lu.forward = some x → ∀ lx, lvl mem x i = some lx →
            lvl m1 u i = some ⟨lx.forward, lu.span + (lx.span - 1)⟩) ∧
        (lu.forward ≠ some x → lvl m1 u i = some ⟨lu.forward, lu.span - 1⟩) := by
      by_cases hf : lu.forward = some x
      · obtain ⟨lx, hlx⟩ := lvl_of_lt (hfx hf)
        obtain ⟨m1, e1, s1, c1⟩ := setSpan_spec hlu (lu.span + (lx.span - 1))
        have hm1x : lvl m1 x i = some lx := by
          rw [c1, if_neg (by intro h; exact hux h.1.symm)]; exact hlx
        have hm1u : lvl m1 u i = some ⟨lu.forward, lu.span + (lx.span - 1)⟩ := by
          rw [c1, if_pos ⟨rfl, rfl⟩]
        obtain ⟨m2, e2, s2, c2⟩ := setForward_spec hm1u lx.forward
        refine ⟨m2, s1.trans s2, ?_, ?_, ?_, ?_⟩
        · intro m3 hm3
          simp only [deleteUnlink, idx_lt _ hi32, hu, hlu, hf, if_true, hlx, e1, hm1x, e2]
          exact hm3
        · intro b j hb
          rw [c2, if_neg hb, c1, if_neg hb]
        · intro _ lx2 hlx2
          rw [hlx] at hlx2
          cases hlx2
          rw [c2, if_pos ⟨rfl, rfl⟩]
        · intro h; exact absurd hf h
      · obtain ⟨m1, e1, s1, c1⟩ := setSpan_spec hlu (lu.span - 1)
        refine ⟨m1, s1, ?_, ?_, ?_, ?_⟩
        · intro m3 hm3
          simp only [deleteUnlink, idx_lt _ hi32, hu, hlu, hf, if_false, e1]
          exact hm3
        · intro b j hb
          rw [c1, if_neg hb]
        · intro h; exact absurd h hf
        · intro _
          rw [c1, if_pos ⟨rfl, rfl⟩]
    obtain ⟨m1, s1, hrun1, c1, cx, cn⟩ := hstep
    obtain ⟨mem2, hrun, hshape, hout, hframe, hin⟩ := ih (i + 1) m1 (by omega)
      (by
        intro j h1 h2
        obtain ⟨u2, lu2, hu2, hu2x, hlu2, hfx2⟩ := hupd j (by omega) (by omega)
        refine ⟨u2, lu2, hu2, hu2x, ?_, ?_⟩
        · rw [c1 u2 j (by intro h; omega)]; exact hlu2
        · intro h; rw [(s1 x).2.2.2]; exact hfx2 h)
    refine ⟨mem2, hrun1 mem2 hrun, s1.trans hshape, ?_, ?_, ?_⟩
    · intro b j hj
      rw [hout b j (by omega), c1 b j (by intro h; omega)]
    · intro b j hbu
      rw [hframe b j hbu, c1 b j]
      intro h
      apply hbu
      rw [h.2, hu, h.1]
    · intro j u2 lu2 h1 h2 hu2 hlu2
      by_cases hj : j = i
      · subst hj
        rw [hu] at hu2
        cases hu2
        rw [hlu] at hlu2
        cases hlu2
        rw [hout u j (by omega)]
        exact ⟨cx, cn⟩
      · have hx2 : lvl m1 x j = lvl mem x j := c1 x j (by intro h; exact hj h.2)
        have := hin j u2 lu2 (by omega) (by omega) hu2
          (by rw [c1 u2 j (by intro h; exact hj h.2)]; exact hlu2)
        rw [hx2] at this
        exact this

theorem split_unique {α : Type} {pre mid pre2 mid2 : List α} {a : α}
    (h : pre ++ a :: mid = pre2 ++ a :: mid2) (hn : (pre ++ a :: mid).Nodup) :
    pre = pre2 ∧ mid = mid2 := by
  rcases List.append_eq_append_iff.mp h with ⟨t, h1, h2⟩ | ⟨t, h1, h2⟩
  · cases t with
    | nil => simp at h1 h2; exact ⟨h1.symm, h2⟩
    | cons c t =>
      exfalso
      simp at h2
      obtain ⟨rfl, h3⟩ := h2
      rw [h3] at hn
      have := List.nodup_append.mp hn
      have h4 := (List.nodup_cons.mp this.2.1).1
      exact h4 (by simp)
  · cases t with
    | nil => simp at h1 h2; exact ⟨h1, h2.symm⟩
    | cons c t =>
      exfalso
      simp at h2
      obtain ⟨rfl, h3⟩ := h2
      rw [h, h3] at hn
      have := List.nodup_append.mp hn
      have h4 := (List.nodup_cons.mp this.2.1).1
      exact h4 (by simp)

theorem LastAbove.unique {nl : Nat → Nat} {j : Nat} {P : List Nat} {u : Nat} {r : Int}
    (h : LastAbove nl j P u r) {pre mid : List Nat} {a : Nat} (hP : P = pre ++ a :: mid)
    (ha : j < nl a) (hm : ∀ b ∈ mid, nl b ≤ j) :
    u = a ∧ r = pre.length ∧ (P.length : Int) = r + 1 + mid.length := by
  obtain ⟨pre2, mid2, hP2, hr, hu, hm2⟩ := h
  have e : pre ++ a :: mid = pre2 ++ u :: mid2 := by rw [← hP, ← hP2]
  rcases List.append_eq_append_iff.mp e with ⟨t, h1, h2⟩ | ⟨t, h1, h2⟩
  · cases t with
    | nil =>
      simp at h1 h2
      obtain ⟨rfl, rfl⟩ := h2
      subst h1
      refine ⟨rfl, hr, ?_⟩
      rw [hP, hr]; simp; ring
    | cons c t =>
      exfalso
      simp at h2
      obtain ⟨rfl, h3⟩ := h2
      have := hm u (by rw [h3]; simp)
      omega
  · cases t with
    | nil =>
      simp at h1 h2
      obtain ⟨rfl, rfl⟩ := h2
      subst h1
      refine ⟨rfl, hr, ?_⟩
      rw [hP, hr]; simp; ring
    | cons c t =>
      exfalso
      simp at h2
      obtain ⟨rfl, h3⟩ := h2
      have := hm2 a (by rw [h3]; simp)
      omega

theorem LastAbove.ne_of_high {nl : Nat → Nat} {j : Nat} {P : List Nat} {u : Nat} {r : Int}
    (h : LastAbove nl j P u r) {pre mid : List Nat} {a : Nat} (hP : P = pre ++ a :: mid)
    (hn : P.Nodup) {b : Nat} (hb : b ∈ mid) (hbj : j < nl b) : u ≠ a := by
  rintro rfl
  obtain ⟨pre2, mid2, hP2, hr, hu, hm2⟩ := h
  have e : pre ++ u :: mid = pre2 ++ u :: mid2 := by rw [← hP, ← hP2]
  obtain ⟨_, h2⟩ := split_unique e (by rw [← hP]; exact hn)
  subst h2
  have := hm2 b hb
  omega

theorem LastAbove.mem {nl : Nat → Nat} {j : Nat} {P : List Nat} {u : Nat} {r : Int}
    (h : LastAbove nl j P u r) : u ∈ P := by
  obtain ⟨pre2, mid2, hP2, _, _, _⟩ := h
  rw [hP2]; simp

theorem LastAbove.congr_levels {nl nl2 : Nat → Nat} {j : Nat} {P : List Nat} {u : Nat} {r : Int}
    (h : LastAbove nl j P u r) (hn : ∀ b ∈ P, nl2 b = nl b) : LastAbove nl2 j P u r := by
  obtain ⟨pre, mid, hP, hr, hu, hm⟩ := h
  refine ⟨pre, mid, hP, hr, ?_, ?_⟩
  · rw [hn u (by rw [hP]; simp)]; exact hu
  · intro b hb
    rw [hn b (by rw [hP]; simp [hb])]
    exact hm b hb

theorem Linked_cons (mem : Mem) (cap a : Nat) (rest : List Nat) :
    Linked mem cap (a :: rest) ↔
      (∀ i, i < cap → i < nlev mem a → lvl mem a i = some (expLink (nlev mem) i rest)) ∧
        Linked mem cap rest := Iff.rfl

/-- Relinking around a new node `x` placed after the nodes `P`. -/
theorem linked_insert {mem mem2 : Mem} {cap level x : Nat} {P R : List Nat}
    {update : Nat → Option Nat} {rank : Nat → Int}
    (hL : Linked mem cap (P ++ R)) (hnd : (P ++ R).Nodup) (hx : x ∉ P ++ R)
    (hnl : ∀ b, b ≠ x → nlev mem2 b = nlev mem b) (hnx : nlev mem2 x = level)
    (hLA : ∀ j, j < cap → ∃ u, update j = some u ∧ LastAbove (nlev mem) j P u (rank j))
    (hr0 : rank 0 + 1 = P.length)
    (hframe : ∀ b j, j < cap → b ≠ x → update j ≠ some b → lvl mem2 b j = lvl mem b j)
    (hin : ∀ j u lu, j < level → j < cap → update j = some u → lvl mem u j = some lu →
      lvl mem2 x j = some ⟨lu.forward, lu.span - (rank 0 - rank j)⟩ ∧
      lvl mem2 u j = some ⟨some x, (rank 0 - rank j) + 1⟩)
    (hup : ∀ j u lu, level ≤ j → j < cap → update j = some u → lvl mem u j = some lu →
      lvl mem2 u j = some ⟨lu.forward, lu.span + 1⟩) :
    Linked mem2 cap (P ++ x :: R) := by
  have hPn : P.Nodup := (List.nodup_append.mp hnd).1
  have hxP : x ∉ P := fun h => hx (List.mem_append_left _ h)
  have hxR : x ∉ R := fun h => hx (List.mem_append_right _ h)
  have hnlR : ∀ b ∈ R, nlev mem2 b = nlev mem b := fun b hb =>
    hnl b (fun h => hxR (h ▸ hb))
  have hnlP : ∀ b ∈ P, nlev mem2 b = nlev mem b := fun b hb =>
    hnl b (fun h => hxP (h ▸ hb))
  have hLR : Linked mem2 cap R := by
    apply Linked.congr (Linked.suffix hL) _ hnlR
    intro a ha i hi
    apply hframe a i hi (fun h => hxR (h ▸ ha))
    intro hu
    obtain ⟨u, hu2, hla⟩ := hLA i hi
    rw [hu2] at hu
    cases hu
    exact (List.disjoint_of_nodup_append hnd) hla.mem ha
  have key : ∀ (S pre : List Nat), P = pre ++ S → Linked mem2 cap (S ++ x :: R) := by
    intro S
    induction S with
    | nil =>
      intro pre hP
      simp at hP
      subst hP
      rw [List.nil_append, Linked_cons]
      refine ⟨?_, hLR⟩
      intro i hi hix
      rw [hnx] at hix
      obtain ⟨u, hu, hla⟩ := hLA i hi
      obtain ⟨pre_i, mid_i, hPi, hri, hui, hmi⟩ := hla
      have hlu : lvl mem u i = some (expLink (nlev mem) i (mid_i ++ R)) := by
        apply Linked.at (A := pre_i) (B := mid_i ++ R) _ hi hui
        rw [hPi] at hL
        simpa using hL
      rw [(hin i u _ hix hi hu hlu).1, expLink_low _ _ _ _ hmi, expLink_congr i hnlR]
      have hlen := congrArg List.length hPi
      simp at hlen
      congr 2
      simp only []
      rw [hri]
      omega
    | cons a S ih =>
      intro pre hP
      rw [List.cons_append, Linked_cons]
      refine ⟨?_, ih (pre ++ [a]) (by rw [hP]; simp)⟩
      intro i hi hia
      have haP : a ∈ P := by rw [hP]; simp
      rw [hnlP a haP] at hia
      have hla0 : lvl mem a i = some (expLink (nlev mem) i (S ++ R)) := by
        apply Linked.at (A := pre) (B := S ++ R) _ hi hia
        rw [hP] at hL
        simpa using hL
      obtain ⟨u, hu, hla⟩ := hLA i hi
      by_cases hhigh : ∃ b ∈ S, i < nlev mem b
      · obtain ⟨b, hb, hbi⟩ := hhigh
        have hne : u ≠ a := hla.ne_of_high hP hPn hb hbi
        rw [hframe a i hi (fun h => hxP (h ▸ haP)) (by rw [hu]; intro h; cases h; exact hne rfl),
          hla0]
        congr 1
        have hb2 : i < nlev mem2 b := by
          rw [hnlP b (by rw [hP]; simp [hb])]; exact hbi
        rw [expLink_high (nlev mem2) i S (x :: R) R ⟨b, hb, hb2⟩]
        symm
        apply expLink_congr
        intro c hc
        rcases List.mem_append.mp hc with h | h
        · exact hnlP c (by rw [hP]; simp [h])
        · exact hnlR c h
      · have hlow : ∀ b ∈ S, nlev mem b ≤ i := by
          intro b hb
          by_contra hc
          exact hhigh ⟨b, hb, by omega⟩
        have hlow2 : ∀ b ∈ S, nlev mem2 b ≤ i := by
          intro b hb
          rw [hnlP b (by rw [hP]; simp [hb])]; exact hlow b hb
        obtain ⟨rfl, hri, hlen⟩ := hla.unique hP hia hlow
        rw [expLink_low _ _ _ _ hlow] at hla0
        by_cases hil : i < level
        · rw [(hin i u _ hil hi hu hla0).2, expLink_first _ _ _ _ _ hlow2 (by rw [hnx]; exact hil)]
          congr 2
          omega
        · rw [hup i u _ (by omega) hi hu hla0, expLink_low _ _ _ _ hlow2, expLink_cons,
            if_neg (by rw [hnx]; exact hil), expLink_congr i hnlR]
          congr 1
          simp only []
          ring_nf
  exact key P [] rfl

/-- What `update[j]` holds before the node `x` is unlinked. -/
theorem lastAbove_link {mem : Mem} {cap j x u : Nat} {P R : List Nat} {r : Int}
    (hL : Linked mem cap (P ++ x :: R)) (hnd : (P ++ x :: R).Nodup) (hj : j < cap)
    (hla : LastAbove (nlev mem) j P u r) :
    u ≠ x ∧ ∃ lu, lvl mem u j = some lu ∧ (lu.forward = some x → j < nlev mem x) := by
  have hdis := List.disjoint_of_nodup_append hnd
  have hux : u ≠ x := by
    intro h
    exact hdis hla.mem (by rw [h]; simp)
  obtain ⟨pre, mid, hP, _, hu, hm⟩ := hla
  have hlu : lvl mem u j = some (expLink (nlev mem) j (mid ++ x :: R)) := by
    apply Linked.at (A := pre) (B := mid ++ x :: R) _ hj hu
    rw [hP] at hL
    simpa using hL
  refine ⟨hux, _, hlu, ?_⟩
  intro hf
  rw [expLink_low _ _ _ _ hm] at hf
  simp only [expLink_cons] at hf
  by_contra hc
  rw [if_neg hc] at hf
  simp only [] at hf
  obtain ⟨A, B, hR, _, _⟩ := expLink_forward_some hf
  have hn2 := (List.nodup_append.mp hnd).2.1
  rw [hR] at hn2
  exact (List.nodup_cons.mp hn2).1 (by simp)

/-- Relinking around a removed node `x` that came right after the nodes `P`. -/
theorem linked_delete {mem mem2 : Mem} {cap x : Nat} {P R : List Nat}
    {update : Nat → Option Nat}
    (hL : Linked mem cap (P ++ x :: R)) (hnd : (P ++ x :: R).Nodup)
    (hsh : Shape mem mem2)
    (hLA : ∀ j, j < cap → ∃ u r, update j = some u ∧ LastAbove (nlev mem) j P u r)
    (hframe : ∀ b j, j < cap → update j ≠ some b → lvl mem2 b j = lvl mem b j)
    (hin : ∀ j u lu, j < cap → update j = some u → lvl mem u j = some lu →
      (lu.forward = some x → ∀ lx, lvl mem x j = some lx →
        lvl mem2 u j = some ⟨lx.forward, lu.span + (lx.span - 1)⟩) ∧
      (lu.forward ≠ some x → lvl mem2 u j = some ⟨lu.forward, lu.span - 1⟩)) :
    Linked mem2 cap (P ++ R) := by
  have hPn : P.Nodup := (List.nodup_append.mp hnd).1
  have hdis := List.disjoint_of_nodup_append hnd
  have hxR : x ∉ R := (List.nodup_cons.mp (List.nodup_append.mp hnd).2.1).1
  have hnl : nlev mem2 = nlev mem := hsh.nlev_eq
  have hLR : Linked mem2 cap R := by
    have h1 : Linked mem cap R := by
      have := Linked.suffix (A := P ++ [x]) (B := R) (by simpa using hL)
      exact this
    apply Linked.congr h1 _ (fun b _ => by rw [hnl])
    intro a ha i hi
    apply hframe a i hi
    intro hu
    obtain ⟨u, _, hu2, hla⟩ := hLA i hi
    rw [hu2] at hu
    cases hu
    exact hdis hla.mem (by simp [ha])
  have key : ∀ (S pre : List Nat), P = pre ++ S → Linked mem2 cap (S ++ R) := by
    intro S
    induction S with
    | nil =>
      intro pre _
      simpa using hLR
    | cons a S ih =>
      intro pre hP
      rw [List.cons_append, Linked_cons]
      refine ⟨?_, ih (pre ++ [a]) (by rw [hP]; simp)⟩
      intro i hi hia
      rw [hnl] at hia ⊢
      have hla0 : lvl mem a i = some (expLink (nlev mem) i (S ++ x :: R)) := by
        apply Linked.at (A := pre) (B := S ++ x :: R) _ hi hia
        rw [hP] at hL
        simpa using hL
      obtain ⟨u, _, hu, hla⟩ := hLA i hi
      by_cases hhigh : ∃ b ∈ S, i < nlev mem b
      · obtain ⟨b, hb, hbi⟩ := hhigh
        have hne : u ≠ a := hla.ne_of_high hP hPn hb hbi
        rw [hframe a i hi (by rw [hu]; intro h; cases h; exact hne rfl), hla0]
        congr 1
        exact expLink_high (nlev mem) i S (x :: R) R ⟨b, hb, hbi⟩
      · have hlow : ∀ b ∈ S, nlev mem b ≤ i := by
          intro b hb
          by_contra hc
          exact hhigh ⟨b, hb, by omega⟩
        obtain ⟨rfl, _, _⟩ := hla.unique hP hia hlow
        rw [expLink_low _ _ _ _ hlow, expLink_cons] at hla0
        rw [expLink_low _ _ _ _ hlow]
        by_cases hix : i < nlev mem x
        · rw [if_pos hix] at hla0
          have hlx : lvl mem x i = some (expLink (nlev mem) i R) := by
            apply Linked.at (A := P) (B := R) hL hi hix
          rw [((hin i u _ hi hu hla0).1 rfl) _ hlx]
          congr 2
          simp only []
          ring
        · rw [if_neg hix] at hla0
          have hfx : (expLink (nlev mem) i R).forward ≠ some x := by
            intro hf
            obtain ⟨A, B, hR, _, _⟩ := expLink_forward_some hf
            exact hxR (by rw [hR]; simp)
          rw [(hin i u _ hi hu hla0).2 hfx]
          congr 2
          simp only []
          ring
  exact key P [] rfl

theorem nodup_bound {l : List Nat} {n : Nat} (hn : l.Nodup) (hb : ∀ a ∈ l, a < n) :
    l.length ≤ n := by
  have hsub : l ⊆ List.range n := fun a ha => List.mem_range.mpr (hb a ha)
  have := (List.Nodup.subperm hn hsub).length_le
  simpa using this

theorem sklRandomLoop_ge : ∀ (draws : List Nat) (l r : Nat),
    sklRandomLoop draws l = some r → l ≤ r := by
  intro draws
  induction draws with
  | nil => intro l r h; simp [sklRandomLoop] at h
  | cons v rest ih =>
    intro l r h
    simp only [sklRandomLoop] at h
    by_cases hv : drawPasses v = true
    · rw [if_pos hv] at h
      have := ih _ _ h
      omega
    · rw [if_neg hv] at h
      cases h
      exact Nat.le_refl _

theorem sklRandomLevel_range {draws : List Nat} {level : Nat}
    (h : sklRandomLevel draws = some level) : 1 ≤ level ∧ level ≤ sklMaxLevel := by
  unfold sklRandomLevel at h
  cases hl : sklRandomLoop draws 1 with
  | none => rw [hl] at h; cases h
  | some r =>
    rw [hl] at h
    have hge := sklRandomLoop_ge _ _ _ hl
    simp only [] at h
    by_cases hr : r > sklMaxLevel
    · rw [if_pos hr] at h
      cases h
      exact ⟨by unfold sklMaxLevel; omega, Nat.le_refl _⟩
    · rw [if_neg hr] at h
      cases h
      exact ⟨hge, by omega⟩

/-! ### Back pointers -/

theorem BackLinked_cons (mem : Mem) (p : Option Nat) (a : Nat) (rest : List Nat) :
    BackLinked mem p (a :: rest) ↔ (mem a).back = p ∧ BackLinked mem (some a) rest := Iff.rfl

theorem BackLinked.congr_back {mem mem2 : Mem} {p : Option Nat} {l : List Nat}
    (h : BackLinked mem p l) (hb : ∀ a ∈ l, (mem2 a).back = (mem a).back) :
    BackLinked mem2 p l := by
  induction l generalizing p with
  | nil => trivial
  | cons a l ih =>
    rw [BackLinked_cons] at h ⊢
    exact ⟨by rw [hb a (List.mem_cons_self _ _)]; exact h.1,
      ih h.2 (fun b hb2 => hb b (List.mem_cons_of_mem _ hb2))⟩

theorem lastOr_nil (p : Option Nat) : lastOr p [] = p := rfl

theorem lastOr_cons (p : Option Nat) (a : Nat) (A : List Nat) :
    lastOr p (a :: A) = lastOr (some a) A := by
  unfold lastOr
  cases A with
  | nil => rfl
  | cons b A =>
    rw [List.getLast?_cons_cons, List.getLast?_eq_getLast _ (List.cons_ne_nil _ _)]

theorem lastOr_append_singleton (p : Option Nat) (A : List Nat) (a : Nat) :
    lastOr p (A ++ [a]) = some a := by
  unfold lastOr
  simp

theorem BackLinked_append (mem : Mem) (p : Option Nat) (A B : List Nat) :
    BackLinked mem p (A ++ B) ↔ BackLinked mem p A ∧ BackLinked mem (lastOr p A) B := by
  induction A generalizing p with
  | nil => simp [BackLinked, lastOr_nil]
  | cons a A ih =>
    rw [List.cons_append, BackLinked_cons, BackLinked_cons, ih, lastOr_cons]
    tauto

theorem Linked.raise {mem : Mem} {cap cap2 : Nat} {H : List Nat}
    (h : Linked mem cap H) (hlow : ∀ b ∈ H, nlev mem b ≤ cap) : Linked mem cap2 H := by
  induction H with
  | nil => trivial
  | cons a H ih =>
    rw [Linked_cons] at h ⊢
    refine ⟨?_, ih h.2 (fun b hb => hlow b (List.mem_cons_of_mem _ hb))⟩
    intro i _ hia
    have := hlow a (List.mem_cons_self _ _)
    exact h.1 i (by omega) hia

theorem insertGrow_spec {skl : SkipList} {L : List Nat} (hI : Inv skl L)
    {passed R : List Nat} (hL : L = passed ++ R)
    {update : Nat → Option Nat} {rank : Nat → Int}
    (hLA : ∀ j, j < skl.level → ∃ u, update j = some u ∧
      LastAbove (nlev skl.mem) j (skl.header :: passed) u (rank j))
    {level : Nat} (hl : level ≤ sklMaxLevel) :
    ∃ mem1 update1 rank1 cap2,
      insertGrow skl level update rank = some (mem1, update1, rank1, cap2) ∧
      cap2 = max skl.level level ∧
      Shape skl.mem mem1 ∧
      Linked mem1 cap2 (skl.header :: L) ∧
      (∀ j, j < cap2 → ∃ u, update1 j = some u ∧
        LastAbove (nlev mem1) j (skl.header :: passed) u (rank1 j)) ∧
      (∀ j, j < skl.level → update1 j = update j ∧ rank1 j = rank j) ∧
      (∀ i, cap2 ≤ i → i < sklMaxLevel →
        ∃ l, lvl mem1 skl.header i = some l ∧ l.forward = none) := by
  by_cases hgt : level > skl.level
  · obtain ⟨mem1, update1, rank1, hrun, hsh, hu, hr, hframe, hhdr⟩ :=
      insertRaise_spec skl.header skl.length (level - skl.level) skl.level skl.mem update rank
        (by omega) (by rw [hI.hdr_lev]; omega)
    have hnl : nlev mem1 = nlev skl.mem := hsh.nlev_eq
    have hmax : max skl.level level = level := by omega
    have hhL : skl.header ∉ L := (List.nodup_cons.mp hI.nodup).1
    refine ⟨mem1, update1, rank1, level, ?_, hmax.symm, hsh, ?_, ?_, ?_, ?_⟩
    · simp only [insertGrow, if_pos hgt, hrun]
    · rw [Linked_cons]
      constructor
      · intro i hi hih
        rw [hnl]
        by_cases hic : i < skl.level
        · rw [hframe _ i (by omega)]
          exact hI.linked.1 i hic (by rw [hI.hdr_lev]; rw [hnl, hI.hdr_lev] at hih; exact hih)
        · obtain ⟨l, hl1, hl2⟩ := hI.hdr_free i (by omega) (by omega)
          rw [hhdr i l (by omega) (by omega) hl1, hl2, hI.len]
          rw [expLink_all_low (fun b hb => by have := (hI.node_lev b hb).2; omega)]
      · have h1 : Linked skl.mem level L := Linked.raise hI.linked.2 (fun b hb => (hI.node_lev b hb).2)
        apply Linked.congr h1 _ (fun b _ => by rw [hnl])
        intro a ha i _
        apply hframe
        intro h
        exact hhL (h.1 ▸ ha)
    · intro j hj
      rw [hu j, hr j, hnl]
      by_cases hjc : j < skl.level
      · rw [if_neg (by omega), if_neg (by omega)]
        exact hLA j hjc
      · rw [if_pos (by omega), if_pos (by omega)]
        refine ⟨skl.header, rfl, [], passed, rfl, by simp, by rw [hI.hdr_lev]; omega, ?_⟩
        intro b hb
        have := (hI.node_lev b (by rw [hL]; simp [hb])).2
        omega
    · intro j hj
      rw [hu j, hr j, if_neg (by omega), if_neg (by omega)]
      exact ⟨rfl, rfl⟩
    · intro i hi hi32
      rw [hframe _ i (by omega)]
      exact hI.hdr_free i (by omega) hi32
  · have hmax : max skl.level level = skl.level := by omega
    refine ⟨skl.mem, update, rank, skl.level, ?_, hmax.symm, Shape.refl _, hI.linked, hLA,
      fun j _ => ⟨rfl, rfl⟩, hI.hdr_free⟩
    simp only [insertGrow, if_neg hgt]

theorem Inv.fuel {skl : SkipList} {L : List Nat} (hI : Inv skl L) : L.length < skl.next := by
  have := nodup_bound hI.nodup hI.alloc
  simp at this
  omega

theorem Inv.fresh {skl : SkipList} {L : List Nat} (hI : Inv skl L) :
    skl.next ∉ skl.header :: L := by
  intro h
  have := hI.alloc _ h
  omega

theorem insert_link {skl : SkipList} {L : List Nat} (hI : Inv skl L) (score : Float64)
    (val : String) (draws : List Nat) {level : Nat} (hd : sklRandomLevel draws = some level) :
    ∃ passed R P1 x1 mem4 cap2,
      L = passed ++ R ∧ skl.header :: passed = P1 ++ [x1] ∧
      skl.Insert score val draws = insertFinish skl mem4 skl.next (some x1) cap2 ∧
      cap2 = max skl.level level ∧
      (P1 = [] ∨ nodeLess (skl.mem x1) score val = true) ∧
      Stops skl.mem score val 0 R ∧
      Linked mem4 cap2 (skl.header :: passed ++ skl.next :: R) ∧
      (∀ b, b ≠ skl.next → (mem4 b).val = (skl.mem b).val ∧ (mem4 b).score = (skl.mem b).score ∧
        (mem4 b).back = (skl.mem b).back ∧ nlev mem4 b = nlev skl.mem b) ∧
      ((mem4 skl.next).val = val ∧ (mem4 skl.next).score = score ∧
        (mem4 skl.next).back = none ∧ nlev mem4 skl.next = level) ∧
      (∀ i, cap2 ≤ i → i < sklMaxLevel →
        ∃ l, lvl mem4 skl.header i = some l ∧ l.forward = none) := by
  obtain ⟨hlev1, hlev32⟩ := sklRandomLevel_range hd
  -- the search
  obtain ⟨passed, R, P1, x1, update, rank, hL, hP, hsearch, h0, hall, hless⟩ :=
    insertSearch_spec skl.mem skl.level score val (skl.next + 1) hI.lev_max
      skl.level skl.header [] L (fun _ => none) (fun _ => 0) (Nat.le_refl _)
      (by simpa using hI.linked) (by rw [hI.hdr_lev]; exact hI.lev_max)
      (by have := hI.fuel; omega) (by intro h; omega) (fun _ => rfl)
      (by intro j h1 h2; omega) (Or.inl rfl)
  simp only [List.nil_append] at hP
  obtain ⟨hu0, hr0⟩ := h0 hI.lev_pos
  have hLA : ∀ j, j < skl.level → ∃ u, update j = some u ∧
      LastAbove (nlev skl.mem) j (skl.header :: passed) u (rank j) := by
    intro j hj
    obtain ⟨u, h1, h2, _⟩ := hall j hj
    exact ⟨u, h1, by rw [hP]; exact h2⟩
  have hstop : Stops skl.mem score val 0 R := (hall 0 hI.lev_pos).choose_spec.2.2
  -- the new levels of the header
  obtain ⟨mem1, update1, rank1, cap2, hgrow, hcap2, hsh1, hL1, hLA1, hsame1, hfree1⟩ :=
    insertGrow_spec hI hL hLA hlev32
  have hc1 : skl.level ≤ cap2 := by omega
  have hc2 : level ≤ cap2 := by omega
  have hc3 : cap2 ≤ sklMaxLevel := by have := hI.lev_max; omega
  -- the new node
  have hfresh := hI.fresh
  have hnodup : (skl.header :: passed ++ R).Nodup := by
    have := hI.nodup; rw [hL] at this; simpa using this
  have hxP : skl.next ∉ skl.header :: passed := by
    intro h; apply hfresh; rw [hL]
    rcases List.mem_cons.mp h with h | h
    · rw [h]; simp
    · simp [h]
  have hxall : skl.next ∉ skl.header :: passed ++ R := by
    intro h; apply hfresh; rw [hL]; simpa using h
  obtain ⟨mem2, hmem2⟩ : ∃ mem2, mem2 = Function.update mem1 skl.next (NewSklNode level score val) :=
    ⟨_, rfl⟩
  have hm2x : mem2 skl.next = NewSklNode level score val := by rw [hmem2]; simp
  have hm2o : ∀ b, b ≠ skl.next → mem2 b = mem1 b := by
    intro b hb; rw [hmem2, Function.update_noteq hb]
  have hnl2o : ∀ b, b ≠ skl.next → nlev mem2 b = nlev mem1 b := by
    intro b hb; unfold nlev; rw [hm2o b hb]
  have hlvl2o : ∀ b j, b ≠ skl.next → lvl mem2 b j = lvl mem1 b j := by
    intro b j hb; unfold lvl; rw [hm2o b hb]
  have hnl2x : nlev mem2 skl.next = level := by
    unfold nlev; rw [hm2x]; simp [NewSklNode]
  have hne : ∀ b ∈ skl.header :: passed ++ R, b ≠ skl.next := by
    intro b hb h; exact hxall (h ▸ hb)
  have hL2 : Linked mem2 cap2 (skl.header :: passed ++ R) := by
    apply Linked.congr (by rw [hL] at hL1; simpa using hL1)
    · intro a ha i _; exact hlvl2o a i (hne a ha)
    · intro a ha; exact hnl2o a (hne a ha)
  have hLA2 : ∀ j, j < cap2 → ∃ u, update1 j = some u ∧
      LastAbove (nlev mem2) j (skl.header :: passed) u (rank1 j) := by
    intro j hj
    obtain ⟨u, h1, h2⟩ := hLA1 j hj
    refine ⟨u, h1, h2.congr_levels ?_⟩
    intro b hb
    exact hnl2o b (hne b (List.mem_append_left _ hb))
  have hupd2 : ∀ j, j < cap2 → ∃ u, update1 j = some u ∧ u ≠ skl.next ∧ j < nlev mem2 u := by
    intro j hj
    obtain ⟨u, h1, h2⟩ := hLA2 j hj
    refine ⟨u, h1, hne u (List.mem_append_left _ h2.mem), ?_⟩
    obtain ⟨_, _, _, _, h3, _⟩ := h2
    exact h3
  -- the two loops
  obtain ⟨mem3, hsplice, hsh3, hout3, hframe3, hin3⟩ :=
    insertSplice_spec skl.next update1 rank1 level 0 mem2 (by omega) (by omega)
      (by intro j _ hj; exact hupd2 j (by omega))
  obtain ⟨mem4, hincr, hsh4, hout4, hframe4, hin4⟩ :=
    insertIncr_spec update1 (cap2 - level) level mem3 (by omega)
      (by
        intro j _ hj
        obtain ⟨u, h1, _, h3⟩ := hupd2 j (by omega)
        exact ⟨u, h1, by rw [(hsh3 u).2.2.2]; exact h3⟩)
  have hsh24 : Shape mem2 mem4 := hsh3.trans hsh4
  have hu01 : update1 0 = some x1 := by rw [(hsame1 0 hI.lev_pos).1]; exact hu0
  have hr01 : rank1 0 = P1.length := by rw [(hsame1 0 hI.lev_pos).2]; exact hr0
  have hL4 : Linked mem4 cap2 (skl.header :: passed ++ skl.next :: R) := by
    apply @linked_insert mem2 mem4 cap2 level skl.next (skl.header :: passed) R update1 rank1
      hL2 hnodup hxall
    · intro b _; exact (hsh24 b).2.2.2
    · rw [(hsh24 _).2.2.2]; exact hnl2x
    · exact hLA2
    · rw [hr01, hP]; simp
    · intro b j _ hb hu
      rw [hframe4 b j hu, hframe3 b j hb hu]
    · intro j u lu hj _ hu hlu
      have := hin3 j u lu (Nat.zero_le _) (by omega) hu hlu
      rw [hout4 _ j (by omega), hout4 _ j (by omega)]
      exact this
    · intro j u lu hj hjc hu hlu
      apply hin4 j u lu hj (by omega) hu
      rw [hout3 u j (by omega)]
      exact hlu
  refine ⟨passed, R, P1, x1, mem4, cap2, hL, hP, ?_, hcap2, hless, hstop, hL4, ?_, ?_, ?_⟩
  · simp only [SkipList.Insert, hsearch, hd, hgrow, ← hmem2, hsplice, hincr,
      idx_lt update1 (by unfold sklMaxLevel; omega : 0 < sklMaxLevel), hu01]
  · intro b hb
    obtain ⟨a1, a2, a3, a4⟩ := hsh24 b
    obtain ⟨b1, b2, b3, b4⟩ := hsh1 b
    rw [a1, a2, a3, a4, hnl2o b hb, hm2o b hb]
    exact ⟨b1, b2, b3, b4⟩
  · obtain ⟨a1, a2, a3, a4⟩ := hsh24 skl.next
    rw [a1, a2, a3, a4, hm2x, hnl2x]
    exact ⟨rfl, rfl, rfl, rfl⟩
  · intro i hi hi32
    have hhx : skl.header ≠ skl.next := hne _ (by simp)
    rw [hout4 _ i (by omega), hout3 _ i (by omega), hlvl2o _ i hhx]
    exact hfree1 i hi hi32

theorem lastOr_mem {p : Option Nat} {A : List Nat} {y : Nat} (h : lastOr p A = some y)
    (hA : A ≠ []) : y ∈ A := by
  unfold lastOr at h
  rw [List.getLast?_eq_getLast _ hA] at h
  simp only [Option.some.injEq] at h
  rw [← h]
  exact List.getLast_mem hA

theorem lastOr_of_ne_nil {p q : Option Nat} {A : List Nat} (hA : A ≠ []) :
    lastOr p A = lastOr q A := by
  unfold lastOr
  rw [List.getLast?_eq_getLast _ hA]

theorem lastOr_eq_getLast? (A : List Nat) : lastOr none A = A.getLast? := by
  unfold lastOr
  cases h : A.getLast? <;> rfl

theorem expLink_zero {nl : Nat → Nat} {R : List Nat} (h : ∀ b ∈ R, 1 ≤ nl b) :
    expLink nl 0 R = ⟨R.head?, if R = [] then 0 else 1⟩ := by
  cases R with
  | nil => rfl
  | cons f R =>
    have := h f (List.mem_cons_self _ _)
    rw [expLink_cons, if_pos (by omega)]
    simp

theorem insert_inv {skl : SkipList} {L : List Nat} (hI : Inv skl L) (score : Float64)
    (val : String) (draws : List Nat) {level : Nat} (hd : sklRandomLevel draws = some level) :
    ∃ skl2 passed R,
      L = passed ++ R ∧
      skl.Insert score val draws = some (skl2, skl.next) ∧
      Inv skl2 (passed ++ skl.next :: R) ∧
      (∀ b, b ≠ skl.next → keyAt skl2.mem b = keyAt skl.mem b ∧
        nlev skl2.mem b = nlev skl.mem b) ∧
      keyAt skl2.mem skl.next = (score, val) ∧ nlev skl2.mem skl.next = level ∧
      (∀ a, passed.getLast? = some a → nodeLess (skl.mem a) score val = true) ∧
      (∀ f, R.head? = some f → nodeLess (skl.mem f) score val = false) ∧
      skl2.length = skl.length + 1 ∧ skl2.level = max skl.level level ∧
      skl2.next = skl.next + 1 ∧ skl2.header = skl.header := by
  obtain ⟨hlev1, hlev32⟩ := sklRandomLevel_range hd
  obtain ⟨passed, R, P1, x1, mem4, cap2, hL, hP, hrun, hcap2, hless, hstop, hL4, hold, hnew,
    hfree⟩ := insert_link hI score val draws hd
  have hnodup : (skl.header :: (passed ++ R)).Nodup := by rw [← hL]; exact hI.nodup
  have hfresh := hI.fresh
  have hx1 : lastOr (some skl.header) passed = some x1 := by
    have h1 := congrArg List.getLast? hP
    simp only [List.getLast?_append, List.getLast?_singleton, Option.or_some] at h1
    unfold lastOr
    cases passed with
    | nil => simpa using h1
    | cons a t =>
      rw [List.getLast?_cons_cons] at h1
      rw [h1]
  -- the back pointer of the new node
  obtain ⟨bk, hbk⟩ : ∃ bk, bk = lastOr none passed := ⟨_, rfl⟩
  have hbk2 : (if some x1 = some skl.header then setBack mem4 skl.next none
      else setBack mem4 skl.next (some x1)) = setBack mem4 skl.next bk := by
    cases hp : passed with
    | nil =>
      rw [hp] at hx1 hbk
      simp only [lastOr_nil, Option.some.injEq] at hx1
      rw [hbk, lastOr_nil, if_pos (by rw [hx1])]
    | cons a t =>
      have hne : passed ≠ [] := by rw [hp]; simp
      have hmem := lastOr_mem hx1 hne
      have hx1h : x1 ≠ skl.header := by
        intro h
        have := (List.nodup_cons.mp hnodup).1
        apply this
        rw [← h]
        exact List.mem_append_left _ hmem
      rw [if_neg (by intro h; cases h; exact hx1h rfl), hbk,
        lastOr_of_ne_nil (q := some skl.header) hne, hx1]
  have hnlR : ∀ b ∈ R, 1 ≤ nlev mem4 b := by
    intro b hb
    have hbL : b ∈ L := by rw [hL]; simp [hb]
    have hbx : b ≠ skl.next := fun h => hfresh (h ▸ List.mem_cons_of_mem _ hbL)
    rw [(hold b hbx).2.2.2]
    exact (hI.node_lev b hbL).1
  have hcpos : 0 < cap2 := by have := hI.lev_pos; omega
  have hlx : lvl (setBack mem4 skl.next bk) skl.next 0 =
      some ⟨R.head?, if R = [] then 0 else 1⟩ := by
    rw [lvl_setBack, ← expLink_zero hnlR]
    apply Linked.at (A := skl.header :: passed) (B := R) _ hcpos
    · rw [hnew.2.2.2]; omega
    · simpa using hL4
  -- the final state
  obtain ⟨mem6, hmem6⟩ : ∃ mem6 : Mem, mem6 = (match R.head? with
      | some f => setBack (setBack mem4 skl.next bk) f (some skl.next)
      | none => setBack mem4 skl.next bk) := ⟨_, rfl⟩
  obtain ⟨tail6, htail6⟩ : ∃ tail6 : Option Nat, tail6 = (match R.head? with
      | some _ => skl.tail
      | none => some skl.next) := ⟨_, rfl⟩
  have hfin : insertFinish skl mem4 skl.next (some x1) cap2 =
      some ({ mem := mem6, next := skl.next + 1, header := skl.header, tail := tail6,
              length := skl.length + 1, level := cap2 }, skl.next) := by
    unfold insertFinish
    simp only [hbk2, hlx]
    cases hR : R.head? with
    | none => simp [hmem6, htail6, hR]
    | some f => simp [hmem6, htail6, hR]
  have hlvl6 : ∀ b j, lvl mem6 b j = lvl mem4 b j := by
    intro b j
    rw [hmem6]
    cases R.head? <;> simp [lvl_setBack]
  have hnl6 : nlev mem6 = nlev mem4 := by
    rw [hmem6]
    cases R.head? <;> simp [nlev_setBack]
  have hkey6 : keyAt mem6 = keyAt mem4 := by
    rw [hmem6]
    cases R.head? <;> simp [keyAt_setBack]
  have hback6 : ∀ b, (mem6 b).back =
      if some b = R.head? then some skl.next
      else if b = skl.next then bk else (mem4 b).back := by
    intro b
    rw [hmem6]
    cases hR : R.head? with
    | none => simp [back_setBack]
    | some f =>
      simp only [back_setBack, Option.some.injEq]
  have hkeyo : ∀ b, b ≠ skl.next → keyAt mem6 b = keyAt skl.mem b := by
    intro b hb
    rw [hkey6]
    unfold keyAt
    rw [(hold b hb).1, (hold b hb).2.1]
  have hnlo : ∀ b, b ≠ skl.next → nlev mem6 b = nlev skl.mem b := by
    intro b hb
    rw [hnl6]; exact (hold b hb).2.2.2
  have hneL : ∀ b ∈ skl.header :: L, b ≠ skl.next := fun b hb h => hfresh (h ▸ hb)
  refine ⟨_, passed, R, hL, hrun.trans hfin, ?_, fun b hb => ⟨hkeyo b hb, hnlo b hb⟩, ?_, ?_,
    ?_, ?_, rfl, hcap2, rfl, rfl⟩
  · -- the invariant
    constructor
    · -- nodup
      show (skl.header :: (passed ++ skl.next :: R)).Nodup
      have h1 : (skl.next :: skl.header :: (passed ++ R)).Nodup :=
        List.nodup_cons.mpr ⟨by rw [← hL]; exact hfresh, hnodup⟩
      refine (List.Perm.nodup_iff ?_).mp h1
      have : skl.header :: (passed ++ skl.next :: R) =
          (skl.header :: passed) ++ skl.next :: R := by simp
      rw [this]
      exact (@List.perm_middle _ skl.next (skl.header :: passed) R).symm
    · -- alloc
      intro a ha
      show a < skl.next + 1
      have : a = skl.next ∨ a ∈ skl.header :: L := by
        rw [hL]
        simp only [List.mem_cons, List.mem_append] at ha ⊢
        tauto
      rcases this with h | h
      · omega
      · have := hI.alloc a h; omega
    · -- hdr_lev
      show nlev mem6 skl.header = sklMaxLevel
      rw [hnlo _ (hneL _ (by simp))]
      exact hI.hdr_lev
    · show 1 ≤ cap2
      omega
    · show cap2 ≤ sklMaxLevel
      have := hI.lev_max; omega
    · -- node_lev
      intro a ha
      show 1 ≤ nlev mem6 a ∧ nlev mem6 a ≤ cap2
      by_cases hax : a = skl.next
      · rw [hax, hnl6, hnew.2.2.2]; omega
      · have haL : a ∈ L := by
          rw [hL]
          simp only [List.mem_cons, List.mem_append] at ha ⊢
          tauto
        rw [hnlo a hax]
        have := hI.node_lev a haL
        omega
    · -- linked
      show Linked mem6 cap2 (skl.header :: (passed ++ skl.next :: R))
      apply Linked.congr (by simpa using hL4)
      · intro a _ i _; exact hlvl6 a i
      · intro a _; rw [hnl6]
    · -- hdr_free
      intro i hi hi32
      show ∃ l, lvl mem6 skl.header i = some l ∧ l.forward = none
      rw [hlvl6]
      exact hfree i hi hi32
    · -- top
      intro h1
      have h1 : 1 < cap2 := h1
      show ∃ a ∈ passed ++ skl.next :: R, nlev mem6 a = cap2
      by_cases hgt : level > skl.level
      · exact ⟨skl.next, by simp, by rw [hnl6, hnew.2.2.2]; omega⟩
      · have hc : cap2 = skl.level := by omega
        obtain ⟨a, ha, hal⟩ := hI.top (by omega)
        refine ⟨a, ?_, ?_⟩
        · rw [hL] at ha
          simp only [List.mem_cons, List.mem_append] at ha ⊢
          tauto
        · rw [hnlo a (hneL a (List.mem_cons_of_mem _ ha)), hal, hc]
    · -- len
      show skl.length + 1 = ((passed ++ skl.next :: R).length : Int)
      rw [hI.len, hL]
      simp
      ring
    · -- backs
      show BackLinked mem6 none (passed ++ skl.next :: R)
      have hold_b := hI.backs
      rw [hL, BackLinked_append] at hold_b
      obtain ⟨hb1, hb2⟩ := hold_b
      have hdisj : ∀ b ∈ passed, some b ≠ R.head? := by
        intro b hb h
        have hbR : b ∈ R := List.mem_of_mem_head? h.symm
        have := (List.nodup_cons.mp hnodup).2
        exact (List.disjoint_of_nodup_append this) hb hbR
      rw [BackLinked_append, BackLinked_cons]
      refine ⟨?_, ?_, ?_⟩
      · apply hb1.congr_back
        intro a ha
        have hax : a ≠ skl.next := hneL a (by rw [hL]; simp [ha])
        rw [hback6, if_neg (hdisj a ha), if_neg hax, (hold a hax).2.2.1]
      · rw [hback6, if_neg, if_pos rfl, hbk]
        intro h
        have hxR : skl.next ∈ R := List.mem_of_mem_head? h.symm
        exact hfresh (by rw [hL]; simp [hxR])
      · cases hR : R with
        | nil => trivial
        | cons f R2 =>
          rw [hR] at hb2 hback6
          rw [BackLinked_cons] at hb2 ⊢
          refine ⟨?_, ?_⟩
          · rw [hback6, if_pos (by simp)]
          · apply hb2.2.congr_back
            intro a ha
            have haL : a ∈ L := by rw [hL, hR]; simp [ha]
            have hax : a ≠ skl.next := hneL a (List.mem_cons_of_mem _ haL)
            have haf : a ≠ f := by
              intro h
              have h2 := (List.nodup_cons.mp hnodup).2
              rw [hR] at h2
              have h3 := (List.nodup_append.mp h2).2.1
              exact (List.nodup_cons.mp h3).1 (h ▸ ha)
            rw [hback6, if_neg (by simp [haf]), if_neg hax, (hold a hax).2.2.1]
    · -- tail
      show tail6 = (passed ++ skl.next :: R).getLast?
      rw [htail6]
      cases hR : R with
      | nil => simp
      | cons f R2 =>
        simp only [List.head?_cons]
        rw [hI.tail, hL, hR]
        simp [List.getLast?_append, List.getLast?_cons_cons]
  · rw [hkey6]; unfold keyAt; rw [hnew.1, hnew.2.1]
  · rw [hnl6]; exact hnew.2.2.2
  · intro a ha
    have hne : passed ≠ [] := by intro h; rw [h] at ha; simp at ha
    rcases hless with h | h
    · exfalso
      rw [h] at hP
      simp at hP
      exact hne hP.2
    · have : lastOr (some skl.header) passed = some a := by
        unfold lastOr; rw [ha]
      rw [hx1] at this
      cases this
      exact h
  · intro f hf
    apply hstop f
    have h1 : ∀ b ∈ R, 1 ≤ nlev skl.mem b := fun b hb =>
      (hI.node_lev b (by rw [hL]; simp [hb])).1
    rw [expLink_zero h1]
    exact hf

theorem deleteWalk_eq {mem : Mem} (score : Float64) (val : String) {i : Nat}
    (hi : i < sklMaxLevel) :
    ∀ (fuel x : Nat) (rank : Nat → Int),
      deleteWalk mem score val i fuel x =
        (insertWalk mem score val i fuel x rank).map Prod.fst := by
  intro fuel
  induction fuel with
  | zero => intro x rank; rfl
  | succ fuel ih =>
    intro x rank
    simp only [deleteWalk, insertWalk]
    cases hl : lvl mem x i with
    | none => rfl
    | some l =>
      simp only []
      cases hf : l.forward with
      | none => rfl
      | some f =>
        simp only []
        by_cases hless : nodeLess (mem f) score val = true
        · simp only [hless, if_true, idx_lt rank hi, idxSet_lt rank _ hi]
          exact ih f _
        · simp only [hless]
          rfl

theorem deleteSearch_spec (mem : Mem) (cap : Nat) (score : Float64) (val : String) (fuel : Nat)
    (hcap : cap ≤ sklMaxLevel) :
    ∀ (k x : Nat) (P0 R : List Nat) (update : Nat → Option Nat),
      k ≤ cap → Linked mem cap (P0 ++ x :: R) → k ≤ nlev mem x → R.length < fuel →
      (∀ j, k ≤ j → j < cap → ∃ u r, update j = some u ∧
        LastAbove (nlev mem) j (P0 ++ [x]) u r ∧ Stops mem score val j R) →
      (P0 = [] ∨ nodeLess (mem x) score val = true) →
      ∃ passed R2 P1 x1 update2,
        R = passed ++ R2 ∧ P0 ++ x :: passed = P1 ++ [x1] ∧
        deleteSearch mem score val fuel k x update = some (update2, x1) ∧
        (∀ j, j < cap → ∃ u r, update2 j = some u ∧
          LastAbove (nlev mem) j (P1 ++ [x1]) u r ∧ Stops mem score val j R2) ∧
        (P1 = [] ∨ nodeLess (mem x1) score val = true) := by
  intro k
  induction k with
  | zero =>
    intro x P0 R update _ _ _ _ hF hless
    exact ⟨[], R, P0, x, update, by simp, rfl, by simp [deleteSearch],
      fun j hj => hF j (Nat.zero_le _) hj, hless⟩
  | succ i ih =>
    intro x P0 R update hk hL hx hfuel hF hless
    have hi : i < cap := by omega
    have hi32 : i < sklMaxLevel := by omega
    have hLx : Linked mem cap (x :: R) := Linked.suffix hL
    obtain ⟨passed, R1, x2, pre, hR, hw, hpre, hx2, hst, hls, hj⟩ :=
      insertWalk_spec score val hi hi32 fuel x R (fun _ => 0) hLx (by omega) hfuel
    have hdw : deleteWalk mem score val i fuel x = some x2 := by
      rw [deleteWalk_eq score val hi32 fuel x (fun _ => 0), hw]; rfl
    have hP : P0 ++ x :: passed = (P0 ++ pre) ++ [x2] := by
      rw [hpre]; simp
    obtain ⟨passed2, R2, P1, x1, update2, hR1, hP1, hs, hall, hless2⟩ :=
      ih x2 (P0 ++ pre) R1 (Function.update update i (some x2))
        (by omega)
        (by
          have : (P0 ++ pre) ++ x2 :: R1 = P0 ++ x :: R := by
            rw [hR]
            have : (P0 ++ pre) ++ x2 :: R1 = (P0 ++ (pre ++ [x2])) ++ R1 := by simp
            rw [this, ← hpre]
            simp
          rw [this]; exact hL)
        (by omega)
        (by
          have := congrArg List.length hR
          simp at this
          omega)
        (by
          intro j hij hjc
          by_cases hji : j = i
          · subst hji
            exact ⟨x2, _, by simp, ⟨P0 ++ pre, [], by simp, rfl, hx2, by simp⟩, hst⟩
          · have hlt : i + 1 ≤ j := by omega
            obtain ⟨u, r, hu, hla, hsj⟩ := hF j hlt hjc
            obtain ⟨hp1, hp2⟩ := hj j (by omega) hsj
            refine ⟨u, r, ?_, ?_, hp2⟩
            · rw [Function.update_noteq hji]; exact hu
            · have e : (P0 ++ pre) ++ [x2] = (P0 ++ [x]) ++ passed := by
                rw [← hP]; simp
              rw [e]
              exact hla.extend hp1)
        (by
          by_cases hp : passed = []
          · subst hp
            have hlenpre : pre.length = 0 := by
              have := congrArg List.length hpre
              simp only [List.length_cons, List.length_append, List.length_nil] at this
              omega
            have hpre0 : pre = [] := List.length_eq_zero.mp hlenpre
            subst hpre0
            simp at hpre
            subst hpre
            rcases hless with h | h
            · left; simp [h]
            · right; exact h
          · right; exact hls hp)
    refine ⟨passed ++ passed2, R2, P1, x1, update2, ?_, ?_, ?_, hall, hless2⟩
    · rw [hR, hR1]; simp
    · rw [← hP1]
      have e : P0 ++ x :: (passed ++ passed2) = (P0 ++ x :: passed) ++ passed2 := by simp
      rw [e, hP]; simp
    · simp only [deleteSearch, hdw, idxSet_lt _ _ hi32]
      exact hs

theorem deleteShrink_spec (mem : Mem) (header : Nat) :
    ∀ (cap : Nat), cap ≤ nlev mem header → 1 ≤ cap →
      ∃ c, deleteShrink mem header cap = some c ∧ 1 ≤ c ∧ c ≤ cap ∧
        (∀ i, c ≤ i → i < cap → ∃ l, lvl mem header i = some l ∧ l.forward = none) ∧
        (1 < c → ∃ l f, lvl mem header (c - 1) = some l ∧ l.forward = some f) := by
  intro cap
  induction cap with
  | zero => intro _ h; omega
  | succ l ih =>
    intro hlev _
    by_cases hl1 : l + 1 > 1
    · obtain ⟨hl, hhl⟩ := lvl_at mem header l (by omega)
      cases hf : hl.forward with
      | none =>
        obtain ⟨c, hrun, hc1, hc2, hnone, htop⟩ := ih (by omega) (by omega)
        refine ⟨c, ?_, hc1, by omega, ?_, htop⟩
        · simp only [deleteShrink, if_pos hl1, hhl, hf, if_true]
          exact hrun
        · intro i hi hil
          by_cases hil2 : i = l
          · subst hil2; exact ⟨hl, hhl, hf⟩
          · exact hnone i hi (by omega)
      | some f =>
        refine ⟨l + 1, ?_, by omega, Nat.le_refl _, ?_, ?_⟩
        · simp [deleteShrink, hl1, hhl, hf]
        · intro i h1 h2; omega
        · intro _
          exact ⟨hl, f, by simpa using hhl, hf⟩
    · refine ⟨l + 1, ?_, by omega, Nat.le_refl _, ?_, ?_⟩
      · simp only [deleteShrink, if_neg hl1]
      · intro i h1 h2; omega
      · intro h; omega

/-- The search of `Delete` from the header of a well-formed list. -/
theorem delete_search {skl : SkipList} {L : List Nat} (hI : Inv skl L) (score : Float64)
    (val : String) :
    ∃ passed R x1 update,
      L = passed ++ R ∧ lastOr (some skl.header) passed = some x1 ∧
      deleteSearch skl.mem score val (skl.next + 1) skl.level skl.header (fun _ => none) =
        some (update, x1) ∧
      (∀ j, j < skl.level → ∃ u r, update j = some u ∧
        LastAbove (nlev skl.mem) j (skl.header :: passed) u r) ∧
      (∀ a, passed.getLast? = some a → nodeLess (skl.mem a) score val = true) ∧
      (∀ f, R.head? = some f → nodeLess (skl.mem f) score val = false) ∧
      lvl skl.mem x1 0 = some ⟨R.head?, if R = [] then 0 else 1⟩ := by
  obtain ⟨passed, R, P1, x1, update, hL, hP, hsearch, hall, hless⟩ :=
    deleteSearch_spec skl.mem skl.level score val (skl.next + 1) hI.lev_max
      skl.level skl.header [] L (fun _ => none) (Nat.le_refl _)
      (by simpa using hI.linked) (by rw [hI.hdr_lev]; exact hI.lev_max)
      (by have := hI.fuel; omega)
      (by intro j h1 h2; omega) (Or.inl rfl)
  simp only [List.nil_append] at hP
  have hx1 : lastOr (some skl.header) passed = some x1 := by
    have h1 := congrArg List.getLast? hP
    simp only [List.getLast?_append, List.getLast?_singleton, Option.or_some] at h1
    unfold lastOr
    cases passed with
    | nil => simpa using h1
    | cons a t =>
      rw [List.getLast?_cons_cons] at h1
      rw [h1]
  have hnlR : ∀ b ∈ R, 1 ≤ nlev skl.mem b := fun b hb =>
    (hI.node_lev b (by rw [hL]; simp [hb])).1
  refine ⟨passed, R, x1, update, hL, hx1, hsearch, ?_, ?_, ?_, ?_⟩
  · intro j hj
    obtain ⟨u, r, h1, h2, _⟩ := hall j hj
    exact ⟨u, r, h1, by rw [hP]; exact h2⟩
  · intro a ha
    have hne : passed ≠ [] := by intro h; rw [h] at ha; simp at ha
    rcases hless with h | h
    · exfalso
      rw [h] at hP
      simp at hP
      exact hne hP.2
    · have : lastOr (some skl.header) passed = some a := by
        unfold lastOr; rw [ha]
      rw [hx1] at this
      cases this
      exact h
  · intro f hf
    obtain ⟨_, _, _, _, hst⟩ := hall 0 hI.lev_pos
    apply hst f
    rw [expLink_zero hnlR]
    exact hf
  · rw [← expLink_zero hnlR]
    have hlink : Linked skl.mem skl.level (P1 ++ x1 :: R) := by
      have := hI.linked
      rw [hL] at this
      have e : skl.header :: (passed ++ R) = P1 ++ x1 :: R := by
        have : skl.header :: (passed ++ R) = (skl.header :: passed) ++ R := by simp
        rw [this, hP]; simp
      rw [e] at this
      exact this
    apply Linked.at hlink hI.lev_pos
    have hx1m : x1 ∈ skl.header :: passed := by rw [hP]; simp
    rcases List.mem_cons.mp hx1m with h | h
    · rw [h, hI.hdr_lev]; unfold sklMaxLevel; omega
    · exact (hI.node_lev x1 (by rw [hL]; simp [h])).1

theorem delete_cases {skl : SkipList} {L : List Nat} (hI : Inv skl L) (score : Float64)
    (val : String) :
    ∃ passed R,
      L = passed ++ R ∧
      (∀ a, passed.getLast? = some a → nodeLess (skl.mem a) score val = true) ∧
      (∀ f, R.head? = some f → nodeLess (skl.mem f) score val = false) ∧
      (R = [] → skl.Delete score val = some (skl, 0)) ∧
      (∀ x R2, R = x :: R2 → keyEq (score, val) (keyAt skl.mem x) = false →
        skl.Delete score val = some (skl, 0)) ∧
      ∀ x R2, R = x :: R2 → keyEq (score, val) (keyAt skl.mem x) = true →
        ∃ skl2, skl.Delete score val = some (skl2, 1) ∧ Inv skl2 (passed ++ R2) ∧
          keyAt skl2.mem = keyAt skl.mem ∧ nlev skl2.mem = nlev skl.mem ∧
          skl2.length = skl.length - 1 ∧ skl2.next = skl.next ∧ skl2.header = skl.header ∧
          skl2.level ≤ skl.level := by
  obtain ⟨passed, R, x1, update, hL, hx1, hsearch, hLA, hlast, hhead, hlx⟩ :=
    delete_search hI score val
  refine ⟨passed, R, hL, hlast, hhead, ?_, ?_, ?_⟩
  · intro hR
    rw [hR] at hlx
    simp only [SkipList.Delete, hsearch, hlx, List.head?_nil]
  · intro x R2 hR hx
    rw [hR] at hlx
    unfold keyEq keyAt at hx
    simp only [] at hx
    simp only [SkipList.Delete, hsearch, hlx, List.head?_cons, hx]
    rfl
  intro x R2 hR hmatch
  subst hR
  have hnodup : ((skl.header :: passed) ++ x :: R2).Nodup := by
    have := hI.nodup; rw [hL] at this; simpa using this
  have hlinked : Linked skl.mem skl.level ((skl.header :: passed) ++ x :: R2) := by
    have := hI.linked; rw [hL] at this; simpa using this
  have hxL : x ∈ L := by rw [hL]; simp
  have hxR2 : x ∉ R2 := (List.nodup_cons.mp (List.nodup_append.mp hnodup).2.1).1
  have hxP : x ∉ skl.header :: passed := fun h =>
    (List.disjoint_of_nodup_append hnodup) h (by simp)
  -- the unlink loop
  obtain ⟨mem2, hunlink, hsh, hout, hframe, hin⟩ :=
    deleteUnlink_spec x update skl.level 0 skl.mem (by have := hI.lev_max; omega)
      (by
        intro j _ hj
        obtain ⟨u, r, hu, hla⟩ := hLA j (by omega)
        obtain ⟨h1, lu, h2, h3⟩ := lastAbove_link hlinked hnodup (by omega) hla
        exact ⟨u, lu, hu, h1, h2, h3⟩)
  have hnl2 : nlev mem2 = nlev skl.mem := hsh.nlev_eq
  have hL2 : Linked mem2 skl.level ((skl.header :: passed) ++ R2) := by
    apply linked_delete hlinked hnodup hsh hLA
    · intro b j _ hu; exact hframe b j hu
    · intro j u lu hj hu hlu
      exact hin j u lu (Nat.zero_le _) (by omega) hu hlu
  have hnlR2 : ∀ b ∈ R2, 1 ≤ nlev skl.mem b := fun b hb =>
    (hI.node_lev b (by rw [hL]; simp [hb])).1
  have hlx2 : lvl mem2 x 0 = some ⟨R2.head?, if R2 = [] then 0 else 1⟩ := by
    rw [hframe x 0, ← expLink_zero hnlR2]
    · exact Linked.at hlinked hI.lev_pos (hI.node_lev x hxL).1
    · intro hu
      obtain ⟨u, r, hu2, hla⟩ := hLA 0 hI.lev_pos
      rw [hu2] at hu
      cases hu
      exact hxP hla.mem
  have hbacks := hI.backs
  rw [hL, BackLinked_append, BackLinked_cons] at hbacks
  obtain ⟨hb1, hbx, hb2⟩ := hbacks
  have hbx2 : (mem2 x).back = lastOr none passed := by rw [(hsh x).2.2.1]; exact hbx
  -- the final state
  obtain ⟨mem3, hmem3⟩ : ∃ mem3 : Mem, mem3 = (match R2.head? with
      | some f => setBack mem2 f (lastOr none passed)
      | none => mem2) := ⟨_, rfl⟩
  obtain ⟨tail3, htail3⟩ : ∃ tail3 : Option Nat, tail3 = (match R2.head? with
      | some _ => skl.tail
      | none => lastOr none passed) := ⟨_, rfl⟩
  have hlvl3 : ∀ b j, lvl mem3 b j = lvl mem2 b j := by
    intro b j
    rw [hmem3]
    cases R2.head? <;> simp [lvl_setBack]
  have hnl3 : nlev mem3 = nlev skl.mem := by
    rw [hmem3, ← hnl2]
    cases R2.head? <;> simp [nlev_setBack]
  have hkey3 : keyAt mem3 = keyAt skl.mem := by
    rw [hmem3, ← hsh.keyAt_eq]
    cases R2.head? <;> simp [keyAt_setBack]
  have hback3 : ∀ b, (mem3 b).back =
      if some b = R2.head? then lastOr none passed else (skl.mem b).back := by
    intro b
    rw [hmem3]
    cases hR : R2.head? with
    | none => simp [(hsh b).2.2.1]
    | some f => simp only [back_setBack, Option.some.injEq, (hsh b).2.2.1]
  obtain ⟨c, hshrink, hc1, hc2, hnone, htop⟩ :=
    deleteShrink_spec mem3 skl.header skl.level
      (by rw [hnl3, hI.hdr_lev]; exact hI.lev_max) hI.lev_pos
  have hfin : skl.deleteNode x update =
      some { mem := mem3, next := skl.next, header := skl.header, tail := tail3,
             length := skl.length - 1, level := c } := by
    unfold SkipList.deleteNode
    simp only [hunlink, hlx2, hbx2]
    cases hR : R2.head? with
    | none =>
      rw [hR] at hmem3 htail3
      simp only [] at hmem3 htail3
      simp only [deleteFinish, ← hmem3, hshrink, htail3]
    | some f =>
      rw [hR] at hmem3 htail3
      simp only [] at hmem3 htail3
      simp only [deleteFinish, ← hmem3, hshrink, htail3]
  obtain ⟨skl2, hskl2⟩ : ∃ skl2 : SkipList, skl2 =
      { mem := mem3, next := skl.next, header := skl.header, tail := tail3,
        length := skl.length - 1, level := c } := ⟨_, rfl⟩
  rw [← hskl2] at hfin
  have hrun : skl.Delete score val = some (skl2, 1) := by
    unfold keyEq keyAt at hmatch
    simp only [] at hmatch
    simp only [SkipList.Delete, hsearch, hlx, List.head?_cons, hmatch, if_true, hfin]
  have hL3 : Linked mem3 skl.level (skl.header :: (passed ++ R2)) := by
    apply Linked.congr (by simpa using hL2)
    · intro a _ i _; exact hlvl3 a i
    · intro a _; rw [hnl3, hnl2]
  have hhdr3 : ∀ i, i < skl.level →
      lvl mem3 skl.header i = some (expLink (nlev mem3) i (passed ++ R2)) := by
    intro i hi
    exact hL3.1 i hi (by rw [hnl3, hI.hdr_lev]; have := hI.lev_max; omega)
  have hsubL : ∀ a ∈ passed ++ R2, a ∈ L := by
    intro a ha
    rw [hL]
    simp only [List.mem_append, List.mem_cons] at ha ⊢
    tauto
  have hnode : ∀ a ∈ passed ++ R2, 1 ≤ nlev mem3 a ∧ nlev mem3 a ≤ c := by
    intro a ha
    have hold := hI.node_lev a (hsubL a ha)
    rw [hnl3]
    refine ⟨hold.1, ?_⟩
    by_contra hgt
    have hcl : c < skl.level := by omega
    obtain ⟨l, hl1, hl2⟩ := hnone c (Nat.le_refl _) hcl
    rw [hhdr3 c hcl] at hl1
    cases hl1
    have := (expLink_forward_none.mp hl2) a ha
    rw [hnl3] at this
    omega
  refine ⟨skl2, hrun, ?_, ?_⟩
  swap
  · rw [hskl2]; exact ⟨hkey3, hnl3, rfl, rfl, rfl, hc2⟩
  rw [hskl2]
  constructor
  · -- nodup
    show (skl.header :: (passed ++ R2)).Nodup
    have hsub : List.Sublist (skl.header :: (passed ++ R2)) ((skl.header :: passed) ++ x :: R2) := by
      rw [List.cons_append]
      apply List.Sublist.cons₂
      exact List.Sublist.append (List.Sublist.refl _) (List.sublist_cons_self _ _)
    exact hnodup.sublist hsub
  · intro a ha
    show a < skl.next
    apply hI.alloc
    rcases List.mem_cons.mp ha with h | h
    · rw [h]; simp
    · exact List.mem_cons_of_mem _ (hsubL a h)
  · show nlev mem3 skl.header = sklMaxLevel
    rw [hnl3]; exact hI.hdr_lev
  · exact hc1
  · show c ≤ sklMaxLevel
    have := hI.lev_max; omega
  · exact hnode
  · show Linked mem3 c (skl.header :: (passed ++ R2))
    exact hL3.mono hc2
  · intro i hi hi32
    show ∃ l, lvl mem3 skl.header i = some l ∧ l.forward = none
    have hi : c ≤ i := hi
    by_cases hil : i < skl.level
    · exact hnone i hi hil
    · rw [hlvl3, hout _ i (by omega)]
      exact hI.hdr_free i (by omega) hi32
  · intro h1
    have h1 : 1 < c := h1
    show ∃ a ∈ passed ++ R2, nlev mem3 a = c
    obtain ⟨l, f, hl1, hl2⟩ := htop h1
    rw [hhdr3 (c - 1) (by omega)] at hl1
    cases hl1
    obtain ⟨A, B, hAB, _, hf⟩ := expLink_forward_some hl2
    have hfm : f ∈ passed ++ R2 := by rw [hAB]; simp
    have := (hnode f hfm).2
    exact ⟨f, hfm, by omega⟩
  · show skl.length - 1 = ((passed ++ R2).length : Int)
    rw [hI.len, hL]
    simp only [List.length_append, List.length_cons]
    push_cast
    ring
  · -- backs
    show BackLinked mem3 none (passed ++ R2)
    have hdisj : ∀ b ∈ passed, some b ≠ R2.head? := by
      intro b hb h
      have hbR : b ∈ R2 := List.mem_of_mem_head? h.symm
      exact (List.disjoint_of_nodup_append hnodup) (List.mem_cons_of_mem _ hb) (by simp [hbR])
    rw [BackLinked_append]
    refine ⟨?_, ?_⟩
    · apply hb1.congr_back
      intro a ha
      rw [hback3, if_neg (hdisj a ha)]
    · cases hR : R2 with
      | nil => trivial
      | cons f R3 =>
        rw [hR] at hb2 hback3
        rw [BackLinked_cons] at hb2 ⊢
        refine ⟨?_, ?_⟩
        · rw [hback3, if_pos (by simp)]
        · apply hb2.2.congr_back
          intro a ha
          have haf : a ≠ f := by
            intro h
            have h3 := (List.nodup_append.mp hnodup).2.1
            rw [hR] at h3
            exact (List.nodup_cons.mp (List.nodup_cons.mp h3).2).1 (h ▸ ha)
          rw [hback3, if_neg (by simp [haf])]
  · show tail3 = (passed ++ R2).getLast?
    rw [htail3]
    cases hR : R2 with
    | nil => simp [lastOr_eq_getLast?]
    | cons f R3 =>
      simp only [List.head?_cons]
      rw [hI.tail, hL, hR]
      simp [List.getLast?_append, List.getLast?_cons_cons]

theorem newSkipList_header :
    NewSkipList.mem 0 = NewSklNode sklMaxLevel (.num 0) "" := by
  decide

theorem inv_new : Inv NewSkipList [] := by
  have hm := newSkipList_header
  have hnl : nlev NewSkipList.mem 0 = sklMaxLevel := by
    unfold nlev; rw [hm]; simp [NewSklNode]
  have hlv : ∀ i, i < sklMaxLevel → lvl NewSkipList.mem 0 i = some ⟨none, 0⟩ := by
    intro i hi
    unfold lvl
    rw [hm]
    simp only [NewSklNode]
    rw [List.getElem?_replicate, if_pos hi]
  constructor
  · show [0].Nodup
    simp
  · intro a ha
    show a < 1
    have : a = 0 := by simpa using ha
    omega
  · exact hnl
  · show 1 ≤ 1
    omega
  · show 1 ≤ sklMaxLevel
    unfold sklMaxLevel; omega
  · intro a ha; simp at ha
  · show Linked NewSkipList.mem 1 [0]
    refine ⟨?_, trivial⟩
    intro i hi _
    rw [hlv i (by unfold sklMaxLevel; omega)]
    rfl
  · intro i _ hi32
    exact ⟨_, hlv i hi32, rfl⟩
  · intro h
    have h : 1 < 1 := h
    omega
  · rfl
  · trivial
  · rfl

theorem insert_some_level {skl : SkipList} {score : Float64} {val : String} {draws : List Nat}
    {r : SkipList × Nat} (h : skl.Insert score val draws = some r) :
    ∃ level, sklRandomLevel draws = some level := by
  cases hd : sklRandomLevel draws with
  | some level => exact ⟨level, rfl⟩
  | none =>
    exfalso
    unfold SkipList.Insert at h
    cases hs : insertSearch skl.mem skl.level score val (skl.next + 1) skl.level skl.header
        (fun _ => none) (fun _ => 0) with
    | none => simp [hs] at h
    | some p => simp [hs, hd] at h

theorem inv_of_reachable {ok : Float64 → Prop} {skl : SkipList} (h : ReachableBy ok skl) :
    ∃ L, Inv skl L := by
  induction h with
  | new => exact ⟨[], inv_new⟩
  | insert score val draws _ _ hrun ih =>
    obtain ⟨L, hI⟩ := ih
    obtain ⟨level, hd⟩ := insert_some_level hrun
    obtain ⟨skl3, passed, R, _, hrun2, hI2, _⟩ := insert_inv hI score val draws hd
    rw [hrun] at hrun2
    cases hrun2
    exact ⟨_, hI2⟩
  | delete score val _ _ hrun ih =>
    obtain ⟨L, hI⟩ := ih
    obtain ⟨passed, R, hL, _, _, hnil, hmiss, hhit⟩ := delete_cases hI score val
    cases hR : R with
    | nil =>
      rw [hnil hR] at hrun
      cases hrun
      exact ⟨L, hI⟩
    | cons x R2 =>
      cases hm : keyEq (score, val) (keyAt _ x) with
      | false =>
        rw [hmiss x R2 hR hm] at hrun
        cases hrun
        exact ⟨L, hI⟩
      | true =>
        obtain ⟨skl3, hrun2, hI2, _⟩ := hhit x R2 hR hm
        rw [hrun] at hrun2
        cases hrun2
        exact ⟨_, hI2⟩

theorem walkFrom_none (mem : Mem) (i fuel : Nat) : walkFrom mem i fuel none = some [] := by
  cases fuel <;> rfl

theorem walkFrom_linked {mem : Mem} {cap i : Nat} (hi : i < cap) :
    ∀ (fuel a : Nat) (rest : List Nat), Linked mem cap (a :: rest) → rest.length ≤ fuel →
      walkFrom mem i fuel (expLink (nlev mem) i rest).forward =
        some (rest.filter (fun b => decide (i < nlev mem b))) := by
  intro fuel
  induction fuel with
  | zero =>
    intro a rest _ hlen
    have : rest = [] := List.length_eq_zero.mp (by omega)
    subst this
    rfl
  | succ fuel ih =>
    intro a rest hL hlen
    cases hf : (expLink (nlev mem) i rest).forward with
    | none =>
      rw [walkFrom_none]
      have hlow := expLink_forward_none.mp hf
      rw [List.filter_eq_nil_iff.mpr]
      intro b hb
      have := hlow b hb
      simp only [decide_eq_true_eq]
      omega
    | some f =>
      obtain ⟨A, B, hAB, hA, hfi⟩ := expLink_forward_some hf
      subst hAB
      have hLf : Linked mem cap (f :: B) := by
        have := Linked.suffix (A := a :: A) (B := f :: B) (by simpa using hL)
        exact this
      have hlf : lvl mem f i = some (expLink (nlev mem) i B) := hLf.1 i hi hfi
      have hrec := ih f B hLf (by simp at hlen; omega)
      have hAf : A.filter (fun b => decide (i < nlev mem b)) = [] := by
        apply List.filter_eq_nil_iff.mpr
        intro b hb
        have := hA b hb
        simp only [decide_eq_true_eq]
        omega
      simp only [walkFrom, hlf, hrec]
      rw [List.filter_append, List.filter_cons, if_pos (by simpa using hfi), hAf]
      rfl

theorem nodesAt_of_inv {skl : SkipList} {L : List Nat} (hI : Inv skl L) {i : Nat}
    (hi : i < skl.level) :
    skl.nodesAt i = some (L.filter (fun b => decide (i < nlev skl.mem b))) := by
  unfold SkipList.nodesAt
  have hh : lvl skl.mem skl.header i = some (expLink (nlev skl.mem) i L) :=
    hI.linked.1 i hi (by rw [hI.hdr_lev]; have := hI.lev_max; omega)
  rw [hh]
  exact walkFrom_linked hi skl.next skl.header L hI.linked (by have := hI.fuel; omega)

theorem nodes_of_inv {skl : SkipList} {L : List Nat} (hI : Inv skl L) :
    skl.nodes = some L := by
  unfold SkipList.nodes
  rw [nodesAt_of_inv hI hI.lev_pos]
  congr 1
  apply List.filter_eq_self.mpr
  intro b hb
  have := (hI.node_lev b hb).1
  simp only [decide_eq_true_eq]
  omega

theorem traversal_of_inv {skl : SkipList} {L : List Nat} (hI : Inv skl L) :
    skl.traversal = some (L.map (keyAt skl.mem)) := by
  unfold SkipList.traversal
  rw [nodes_of_inv hI]

/-- The ranks the level-`i` chain reports for the nodes of `rest`, when `r` nodes come
before `rest`. -/
theorem rankWalk_linked {mem : Mem} {cap i : Nat} (hi : i < cap) :
    ∀ (fuel a : Nat) (rest : List Nat) (r : Int), Linked mem cap (a :: rest) →
      i < nlev mem a → rest.length < fuel →
      ∃ res, rankWalk mem i fuel a r = some res ∧
        res.map Prod.fst = rest.filter (fun b => decide (i < nlev mem b)) ∧
        ∀ p ∈ res, ∃ k : Nat, p.2 = r + k + 1 ∧ rest[k]? = some p.1 := by
  intro fuel
  induction fuel with
  | zero => intro a rest r _ _ h; omega
  | succ fuel ih =>
    intro a rest r hL ha hlen
    have hla : lvl mem a i = some (expLink (nlev mem) i rest) := hL.1 i hi ha
    cases hf : (expLink (nlev mem) i rest).forward with
    | none =>
      refine ⟨[], ?_, ?_, by simp⟩
      · simp only [rankWalk, hla, hf]
      · have hlow := expLink_forward_none.mp hf
        rw [List.filter_eq_nil_iff.mpr]
        · rfl
        · intro b hb
          have := hlow b hb
          simp only [decide_eq_true_eq]
          omega
    | some f =>
      obtain ⟨A, B, hAB, hA, hfi⟩ := expLink_forward_some hf
      subst hAB
      have hLf : Linked mem cap (f :: B) := by
        have := Linked.suffix (A := a :: A) (B := f :: B) (by simpa using hL)
        exact this
      have hspan : (expLink (nlev mem) i (A ++ f :: B)).span = (A.length : Int) + 1 := by
        rw [expLink_first _ _ _ _ _ hA hfi]
      obtain ⟨res, hrun, hfst, hpos⟩ := ih f B (r + ((A.length : Int) + 1)) hLf hfi
        (by simp at hlen; omega)
      refine ⟨(f, r + ((A.length : Int) + 1)) :: res, ?_, ?_, ?_⟩
      · simp only [rankWalk, hla, hf, hspan, hrun]
      · have hAf : A.filter (fun b => decide (i < nlev mem b)) = [] := by
          apply List.filter_eq_nil_iff.mpr
          intro b hb
          have := hA b hb
          simp only [decide_eq_true_eq]
          omega
        rw [List.map_cons, hfst, List.filter_append, List.filter_cons,
          if_pos (by simpa using hfi), hAf]
        rfl
      · intro p hp
        rcases List.mem_cons.mp hp with h | h
        · subst h
          refine ⟨A.length, ?_, ?_⟩
          · show r + ((A.length : Int) + 1) = r + (A.length : Int) + 1
            ring
          · show (A ++ f :: B)[A.length]? = some f
            rw [List.getElem?_append_right (Nat.le_refl _), Nat.sub_self,
              List.getElem?_cons_zero]
        · obtain ⟨k, hk1, hk2⟩ := hpos p h
          refine ⟨A.length + 1 + k, ?_, ?_⟩
          · rw [hk1]; push_cast; ring
          · rw [List.getElem?_append_right (by omega)]
            have : A.length + 1 + k - A.length = k + 1 := by omega
            rw [this, List.getElem?_cons_succ]
            exact hk2

theorem spanRanks_of_inv {skl : SkipList} {L : List Nat} (hI : Inv skl L) {i : Nat}
    (hi : i < skl.level) :
    ∃ res, skl.spanRanks i = some res ∧
      res.map Prod.fst = L.filter (fun b => decide (i < nlev skl.mem b)) ∧
      ∀ p ∈ res, ∃ k : Nat, p.2 = (k : Int) + 1 ∧ L[k]? = some p.1 := by
  obtain ⟨res, h1, h2, h3⟩ := rankWalk_linked hi (skl.next + 1) skl.header L 0 hI.linked
    (by rw [hI.hdr_lev]; have := hI.lev_max; omega) (by have := hI.fuel; omega)
  refine ⟨res, h1, h2, ?_⟩
  intro p hp
  obtain ⟨k, hk1, hk2⟩ := h3 p hp
  exact ⟨k, by rw [hk1]; ring, hk2⟩

theorem backFrom_none (mem : Mem) (fuel : Nat) : backFrom mem fuel none = some [] := by
  cases fuel <;> rfl

theorem backFrom_linked {mem : Mem} :
    ∀ (A : List Nat) (fuel : Nat), BackLinked mem none A → A.length ≤ fuel →
      backFrom mem fuel (lastOr none A) = some A.reverse := by
  intro A
  induction A using List.reverseRecOn with
  | nil => intro fuel _ _; rw [lastOr_nil, backFrom_none]; rfl
  | append_singleton A a ih =>
    intro fuel hB hlen
    rw [BackLinked_append, BackLinked_cons] at hB
    obtain ⟨h1, h2, _⟩ := hB
    rw [lastOr_append_singleton]
    cases fuel with
    | zero => simp at hlen
    | succ fuel =>
      have := ih fuel h1 (by simp at hlen; omega)
      simp only [backFrom, h2, this]
      simp

theorem backNodes_of_inv {skl : SkipList} {L : List Nat} (hI : Inv skl L) :
    skl.backNodes = some L.reverse := by
  unfold SkipList.backNodes
  rw [hI.tail, ← lastOr_eq_getLast?]
  exact backFrom_linked L skl.next hI.backs (by have := hI.fuel; omega)

theorem strLess_iff (a b : String) : strLess a b = true ↔ a < b := by
  unfold strLess
  rw [decide_eq_true_iff, String.lt_iff_toList_lt]

theorem keyLess_iff {a b : Float64 × String} (ha : a.1 ≠ Float64.nan)
    (hb : b.1 ≠ Float64.nan) : keyLess a b = true ↔ keyRank a < keyRank b := by
  obtain ⟨sa, va⟩ := a
  obtain ⟨sb, vb⟩ := b
  cases sa with
  | nan => exact absurd rfl ha
  | num i =>
    cases sb with
    | nan => exact absurd rfl hb
    | num j =>
      unfold keyLess keyRank
      rw [Prod.Lex.lt_iff]
      simp only [Float64.lt, Float64.eq, Bool.or_eq_true, Bool.and_eq_true, decide_eq_true_eq,
        strLess_iff]

theorem keyLess_false_iff {a b : Float64 × String} (ha : a.1 ≠ Float64.nan)
    (hb : b.1 ≠ Float64.nan) : keyLess a b = false ↔ keyRank b ≤ keyRank a := by
  rw [← not_lt, ← keyLess_iff ha hb]
  simp

theorem keyLess_num {a b : Float64 × String} (h : keyLess a b = true) :
    a.1 ≠ Float64.nan ∧ b.1 ≠ Float64.nan := by
  obtain ⟨sa, va⟩ := a
  obtain ⟨sb, vb⟩ := b
  cases sa <;> cases sb <;> simp [keyLess, Float64.lt, Float64.eq] at h ⊢

theorem keyEq_eq {a b : Float64 × String} (h : keyEq a b = true) :
    a = b ∧ a.1 ≠ Float64.nan := by
  obtain ⟨sa, va⟩ := a
  obtain ⟨sb, vb⟩ := b
  cases sa <;> cases sb <;> simp [keyEq, Float64.eq, strEq] at h ⊢
  exact h

theorem keyEq_self {a : Float64 × String} (ha : a.1 ≠ Float64.nan) : keyEq a a = true := by
  obtain ⟨sa, va⟩ := a
  cases sa with
  | nan => exact absurd rfl ha
  | num i => simp [keyEq, Float64.eq, strEq]

theorem keyRank_inj {a b : Float64 × String} (ha : a.1 ≠ Float64.nan)
    (hb : b.1 ≠ Float64.nan) (h : keyRank a = keyRank b) : a = b := by
  obtain ⟨sa, va⟩ := a
  obtain ⟨sb, vb⟩ := b
  cases sa with
  | nan => exact absurd rfl ha
  | num i =>
    cases sb with
    | nan => exact absurd rfl hb
    | num j =>
      unfold keyRank at h
      have h2 := toLex.injective h
      simp only [Prod.mk.injEq] at h2
      rw [h2.1, h2.2]

theorem nodeLess_eq (n : SkipListNode) (score : Float64) (val : String) :
    nodeLess n score val = keyLess (n.score, n.val) (score, val) := rfl

/-- In an ascending list without NaN, split where the search stops, the first part is what
`takeWhile` keeps and the pair fits between the two parts. -/
theorem place_split (k : Float64 × String) (t1 t2 : List (Float64 × String))
    (hnan : ∀ a ∈ t1 ++ t2, a.1 ≠ Float64.nan)
    (hasc : Ascending (t1 ++ t2))
    (hlast : ∀ a, t1.getLast? = some a → keyLess a k = true)
    (hhead : ∀ f, t2.head? = some f → keyLess f k = false) :
    (∀ a ∈ t1, keyLess a k = true) ∧
    placeKey k (t1 ++ t2) = t1 ++ k :: t2 ∧
    (k.1 ≠ Float64.nan → Ascending (t1 ++ k :: t2)) := by
  have hall : ∀ a ∈ t1, keyLess a k = true := by
    intro a ha
    have hne : t1 ≠ [] := List.ne_nil_of_mem ha
    have hl := hlast _ (List.getLast?_eq_getLast _ hne)
    have hkn := (keyLess_num hl).2
    have hln := (keyLess_num hl).1
    have han := hnan a (List.mem_append_left _ ha)
    rw [keyLess_iff hln hkn] at hl
    rw [keyLess_iff han hkn]
    refine lt_of_le_of_lt ?_ hl
    -- a is the last element or comes before it
    have hsplit : t1 = t1.dropLast ++ [t1.getLast hne] := (List.dropLast_append_getLast hne).symm
    rw [hsplit] at ha
    rcases List.mem_append.mp ha with h | h
    · have h1 : Ascending t1 := (List.pairwise_append.mp hasc).1
      unfold Ascending at h1
      rw [hsplit, List.pairwise_append] at h1
      have := h1.2.2 a h (t1.getLast hne) (by simp)
      exact (keyLess_false_iff hln han).mp this
    · simp at h
      rw [h]
  have htake : t2.takeWhile (fun a => keyLess a k) = [] := by
    cases t2 with
    | nil => rfl
    | cons f t =>
      have := hhead f rfl
      simp [List.takeWhile, this]
  have hdrop : t2.dropWhile (fun a => keyLess a k) = t2 := by
    cases t2 with
    | nil => rfl
    | cons f t =>
      have := hhead f rfl
      simp [List.dropWhile, this]
  refine ⟨hall, ?_, ?_⟩
  · unfold placeKey
    rw [List.takeWhile_append_of_pos hall, List.dropWhile_append_of_pos hall, htake, hdrop]
    simp
  · intro hk
    unfold Ascending at hasc ⊢
    rw [List.pairwise_append] at hasc ⊢
    obtain ⟨h1, h2, h3⟩ := hasc
    refine ⟨h1, ?_, ?_⟩
    · rw [List.pairwise_cons]
      refine ⟨?_, h2⟩
      intro b hb
      have hbn := hnan b (List.mem_append_right _ hb)
      rw [keyLess_false_iff hbn hk]
      cases t2 with
      | nil => simp at hb
      | cons f t =>
        have hfn := hnan f (by simp)
        have hf := (keyLess_false_iff hfn hk).mp (hhead f rfl)
        refine le_trans hf ?_
        rcases List.mem_cons.mp hb with h | h
        · rw [h]
        · have := (List.pairwise_cons.mp h2).1 b h
          exact (keyLess_false_iff hbn hfn).mp this
    · intro a ha b hb
      have han := hnan a (List.mem_append_left _ ha)
      rcases List.mem_cons.mp hb with h | h
      · rw [h, keyLess_false_iff hk han]
        exact le_of_lt ((keyLess_iff han hk).mp (hall a ha))
      · exact h3 a ha b h

theorem insert_ord {skl : SkipList} {L : List Nat} (hI : Inv skl L) (hS : Sorted skl.mem L)
    {score : Float64} (hs : score ≠ Float64.nan) (val : String) (draws : List Nat)
    {level : Nat} (hd : sklRandomLevel draws = some level) :
    ∃ skl2 L2, skl.Insert score val draws = some (skl2, skl.next) ∧ Inv skl2 L2 ∧
      Sorted skl2.mem L2 ∧
      L2.map (keyAt skl2.mem) = placeKey (score, val) (L.map (keyAt skl.mem)) ∧
      skl2.length = skl.length + 1 ∧ nlev skl2.mem skl.next = level ∧ skl.next ∈ L2 := by
  obtain ⟨skl2, passed, R, hL, hrun, hI2, hold, hkx, hnx, hlast, hhead, hlen, _⟩ :=
    insert_inv hI score val draws hd
  have hfresh := hI.fresh
  have hne : ∀ a ∈ L, a ≠ skl.next := fun a ha h =>
    hfresh (h ▸ List.mem_cons_of_mem _ ha)
  have hmapP : passed.map (keyAt skl2.mem) = passed.map (keyAt skl.mem) := by
    apply List.map_congr_left
    intro a ha
    exact (hold a (hne a (by rw [hL]; simp [ha]))).1
  have hmapR : R.map (keyAt skl2.mem) = R.map (keyAt skl.mem) := by
    apply List.map_congr_left
    intro a ha
    exact (hold a (hne a (by rw [hL]; simp [ha]))).1
  obtain ⟨hnan, hasc⟩ := hS
  rw [hL, List.map_append] at hasc
  have hsplit := place_split (score, val) (passed.map (keyAt skl.mem))
    (R.map (keyAt skl.mem))
    (by
      intro a ha
      rw [← List.map_append, ← hL] at ha
      obtain ⟨b, hb, rfl⟩ := List.mem_map.mp ha
      exact hnan b hb)
    hasc
    (by
      intro a ha
      rw [List.getLast?_map] at ha
      cases hp : passed.getLast? with
      | none => rw [hp] at ha; cases ha
      | some b =>
        rw [hp] at ha
        simp only [Option.map_some', Option.some.injEq] at ha
        rw [← ha]
        exact hlast b hp)
    (by
      intro f hf
      rw [List.head?_map] at hf
      cases hp : R.head? with
      | none => rw [hp] at hf; cases hf
      | some b =>
        rw [hp] at hf
        simp only [Option.map_some', Option.some.injEq] at hf
        rw [← hf]
        exact hhead b hp)
  have hmap2 : (passed ++ skl.next :: R).map (keyAt skl2.mem) =
      passed.map (keyAt skl.mem) ++ (score, val) :: R.map (keyAt skl.mem) := by
    rw [List.map_append, List.map_cons, hmapP, hmapR, hkx]
  refine ⟨skl2, passed ++ skl.next :: R, hrun, hI2, ⟨?_, ?_⟩, ?_, hlen, hnx, by simp⟩
  · intro a ha
    by_cases hax : a = skl.next
    · rw [hax]
      have := congrArg Prod.fst hkx
      unfold keyAt at this
      simp only [] at this
      rw [this]; exact hs
    · have haL : a ∈ L := by
        rw [hL]
        simp only [List.mem_append, List.mem_cons] at ha ⊢
        tauto
      have := congrArg Prod.fst (hold a hax).1
      unfold keyAt at this
      simp only [] at this
      rw [this]; exact hnan a haL
  · rw [hmap2]
    exact hsplit.2.2 hs
  · rw [hmap2, hL, List.map_append]
    exact hsplit.2.1.symm

theorem delete_ord {skl : SkipList} {L : List Nat} (hI : Inv skl L) (hS : Sorted skl.mem L)
    (score : Float64) (val : String) :
    ((∀ a ∈ L, keyEq (score, val) (keyAt skl.mem a) = false) ∧
      skl.Delete score val = some (skl, 0)) ∨
    (∃ skl2 passed x R2, L = passed ++ x :: R2 ∧ keyAt skl.mem x = (score, val) ∧
      score ≠ Float64.nan ∧ skl.Delete score val = some (skl2, 1) ∧
      Inv skl2 (passed ++ R2) ∧ Sorted skl2.mem (passed ++ R2) ∧
      keyAt skl2.mem = keyAt skl.mem ∧ skl2.length = skl.length - 1 ∧
      (∀ a ∈ passed, keyLess (keyAt skl.mem a) (score, val) = true)) := by
  obtain ⟨passed, R, hL, hlast, hhead, hnil, hmiss, hhit⟩ := delete_cases hI score val
  obtain ⟨hnan, hasc⟩ := hS
  have hasc0 := hasc
  rw [hL, List.map_append] at hasc
  have hsplit := place_split (score, val) (passed.map (keyAt skl.mem))
    (R.map (keyAt skl.mem))
    (by
      intro a ha
      rw [← List.map_append, ← hL] at ha
      obtain ⟨b, hb, rfl⟩ := List.mem_map.mp ha
      exact hnan b hb)
    hasc
    (by
      intro a ha
      rw [List.getLast?_map] at ha
      cases hp : passed.getLast? with
      | none => rw [hp] at ha; cases ha
      | some b =>
        rw [hp] at ha
        simp only [Option.map_some', Option.some.injEq] at ha
        rw [← ha]
        exact hlast b hp)
    (by
      intro f hf
      rw [List.head?_map] at hf
      cases hp : R.head? with
      | none => rw [hp] at hf; cases hf
      | some b =>
        rw [hp] at hf
        simp only [Option.map_some', Option.some.injEq] at hf
        rw [← hf]
        exact hhead b hp)
  have hpassed : ∀ a ∈ passed, keyLess (keyAt skl.mem a) (score, val) = true :=
    fun a ha => hsplit.1 _ (List.mem_map_of_mem _ ha)
  have hpassed_ne : ∀ a ∈ passed, keyEq (score, val) (keyAt skl.mem a) = false := by
    intro a ha
    cases hm : keyEq (score, val) (keyAt skl.mem a) with
    | false => rfl
    | true =>
      exfalso
      have h1 := hpassed a ha
      obtain ⟨h2, h3⟩ := keyEq_eq hm
      rw [← h2] at h1
      rw [keyLess_iff h3 h3] at h1
      exact lt_irrefl _ h1
  cases hR : R with
  | nil =>
    left
    refine ⟨?_, hnil hR⟩
    intro a ha
    rw [hL, hR] at ha
    exact hpassed_ne a (by simpa using ha)
  | cons x R2 =>
    cases hm : keyEq (score, val) (keyAt skl.mem x) with
    | false =>
      left
      refine ⟨?_, hmiss x R2 hR hm⟩
      intro a ha
      rw [hL, hR] at ha
      rcases List.mem_append.mp ha with h | h
      · exact hpassed_ne a h
      · cases hma : keyEq (score, val) (keyAt skl.mem a) with
        | false => rfl
        | true =>
          exfalso
          obtain ⟨h2, h3⟩ := keyEq_eq hma
          have hxn : (keyAt skl.mem x).1 ≠ Float64.nan := hnan x (by rw [hL, hR]; simp)
          have hh := hhead x (by rw [hR]; rfl)
          rw [nodeLess_eq] at hh
          have h4 : keyRank (score, val) ≤ keyRank (keyAt skl.mem x) :=
            (keyLess_false_iff hxn h3).mp hh
          have h5 : keyRank (keyAt skl.mem x) ≤ keyRank (score, val) := by
            rcases List.mem_cons.mp h with h6 | h6
            · rw [h2, h6]
            · rw [hR, List.map_cons] at hasc
              have h7 := (List.pairwise_append.mp hasc).2.1
              have h8 := (List.pairwise_cons.mp h7).1 _ (List.mem_map_of_mem _ h6)
              rw [h2]
              have han : (keyAt skl.mem a).1 ≠ Float64.nan := by rw [← h2]; exact h3
              exact (keyLess_false_iff han hxn).mp h8
          have h9 := keyRank_inj hxn h3 (le_antisymm h5 h4)
          rw [h9, keyEq_self h3] at hm
          cases hm
    | true =>
      right
      obtain ⟨skl2, hrun, hI2, hk, hn, hlen, _⟩ := hhit x R2 hR hm
      obtain ⟨h2, h3⟩ := keyEq_eq hm
      refine ⟨skl2, passed, x, R2, by rw [hL, hR], h2.symm, h3, hrun, hI2, ⟨?_, ?_⟩, hk, hlen,
        hpassed⟩
      · intro a ha
        have haL : a ∈ L := by
          rw [hL, hR]
          simp only [List.mem_append, List.mem_cons] at ha ⊢
          tauto
        have := congrFun hk a
        unfold keyAt at this
        simp only [Prod.mk.injEq] at this
        rw [this.1]
        exact hnan a haL
      · rw [hk]
        unfold Ascending at hasc0 ⊢
        apply List.Pairwise.sublist _ hasc0
        apply List.Sublist.map
        rw [hL, hR]
        exact List.Sublist.append (List.Sublist.refl _) (List.sublist_cons_self _ _)

theorem sorted_new : Sorted NewSkipList.mem [] := by
  refine ⟨by simp, ?_⟩
  unfold Ascending
  simp

theorem ord_of_reachable {skl : SkipList} (h : ReachableOrd skl) :
    ∃ L, Inv skl L ∧ Sorted skl.mem L := by
  unfold ReachableOrd at h
  induction h with
  | new => exact ⟨[], inv_new, sorted_new⟩
  | insert score val draws _ hok hrun ih =>
    obtain ⟨L, hI, hS⟩ := ih
    obtain ⟨level, hd⟩ := insert_some_level hrun
    obtain ⟨skl3, L2, hrun2, hI2, hS2, _⟩ := insert_ord hI hS hok val draws hd
    rw [hrun] at hrun2
    cases hrun2
    exact ⟨L2, hI2, hS2⟩
  | delete score val _ _ hrun ih =>
    obtain ⟨L, hI, hS⟩ := ih
    rcases delete_ord hI hS score val with ⟨_, h0⟩ | ⟨skl3, passed, x, R2, _, _, _, h1, hI2, hS2, _⟩
    · rw [hrun] at h0
      cases h0
      exact ⟨L, hI, hS⟩
    · rw [hrun] at h1
      cases h1
      exact ⟨_, hI2, hS2⟩

theorem reachable_of_ord {skl : SkipList} (h : ReachableOrd skl) : Reachable skl := by
  unfold ReachableOrd at h
  unfold Reachable
  induction h with
  | new => exact ReachableBy.new
  | insert score val draws _ _ hrun ih => exact ReachableBy.insert score val draws ih trivial hrun
  | delete score val _ _ hrun ih => exact ReachableBy.delete score val ih trivial hrun

/-! ### Sample lists are reachable -/

theorem sklOne_run : NewSkipList.Insert (.num 5) "b" [65535] = some (sklOne, 1) := rfl

theorem sklTwo_run : sklOne.Insert (.num 5) "a" [0, 65535] = some (sklTwo, 2) := rfl

theorem sklThree_run : sklTwo.Insert (.num 7) "c" [0, 0, 65535] = some (sklThree, 3) := rfl

theorem sklThree_ord : ReachableOrd sklThree :=
  ReachableBy.insert (.num 7) "c" [0, 0, 65535]
    (ReachableBy.insert (.num 5) "a" [0, 65535]
      (ReachableBy.insert (.num 5) "b" [65535] ReachableBy.new (by decide) sklOne_run)
      (by decide) sklTwo_run)
    (by decide) sklThree_run

theorem sklThree_reachable : Reachable sklThree := reachable_of_ord sklThree_ord

/-! ### Lists -/

theorem count_placeKey (k : Float64 × String) (t : List (Float64 × String)) :
    (placeKey k t).count k = t.count k + 1 := by
  unfold placeKey
  rw [List.count_append, List.count_cons_self]
  have := congrArg (List.count k) (List.takeWhile_append_dropWhile (fun a => keyLess a k) t)
  rw [List.count_append] at this
  omega

theorem keyLess_irrefl (k : Float64 × String) : keyLess k k = false := by
  obtain ⟨s, v⟩ := k
  cases s with
  | nan => rfl
  | num i =>
    simp only [keyLess, Float64.lt, Float64.eq, lt_self_iff_false, decide_False, decide_True,
      Bool.true_and, Bool.false_or]
    cases h : strLess v v with
    | false => rfl
    | true => exact absurd ((strLess_iff v v).mp h) (lt_irrefl v)

theorem split_at_first {α : Type} {A B A2 B2 : List α} {k : α}
    (h : A ++ k :: B = A2 ++ k :: B2) (hA : k ∉ A) (hA2 : k ∉ A2) : A = A2 ∧ B = B2 := by
  rcases List.append_eq_append_iff.mp h with ⟨t, h1, h2⟩ | ⟨t, h1, h2⟩
  · cases t with
    | nil => simp at h1 h2; exact ⟨h1.symm, h2⟩
    | cons c t =>
      exfalso
      simp at h2
      apply hA2
      rw [h1, h2.1]
      simp
  · cases t with
    | nil => simp at h1 h2; exact ⟨h1, h2.symm⟩
    | cons c t =>
      exfalso
      simp at h2
      apply hA
      rw [h1, h2.1]
      simp

theorem BackLinked.step {mem : Mem} :
    ∀ (L : List Nat) (p : Option Nat) (k a b : Nat), BackLinked mem p L →
      L[k]? = some a → L[k + 1]? = some b → (mem b).back = some a := by
  intro L
  induction L with
  | nil => intro p k a b _ h; simp at h
  | cons c L ih =>
    intro p k a b hB ha hb
    rw [BackLinked_cons] at hB
    cases k with
    | zero =>
      simp only [List.getElem?_cons_zero, Option.some.injEq] at ha
      rw [List.getElem?_cons_succ] at hb
      cases L with
      | nil => simp at hb
      | cons d L =>
        simp only [List.getElem?_cons_zero, Option.some.injEq] at hb
        rw [← hb, ← ha]
        exact hB.2.1
    | succ k =>
      rw [List.getElem?_cons_succ] at ha hb
      exact ih (some c) k a b hB.2 ha hb

/-! ### The claims on the skip list -/

/-- C1: on a list reachable with non-NaN scores, `Insert(score, val)` with a non-NaN score
returns, and the level-0 traversal afterwards is the traversal before with the pair placed
immediately before the first element that is not strictly less; both traversals are in
ascending order, and the pair occurs once more than before (an equal pair is not merged). -/
theorem insert_places_pair (skl : SkipList) (score : Float64) (val : String)
    (draws : List Nat) (hr : ReachableOrd skl) (hs : score ≠ Float64.nan)
    (hd : (sklRandomLevel draws).isSome = true) :
    ∃ skl2 x t, skl.Insert score val draws = some (skl2, x) ∧
      skl.traversal = some t ∧
      skl2.traversal = some (placeKey (score, val) t) ∧
      Ascending t ∧ Ascending (placeKey (score, val) t) ∧
      (placeKey (score, val) t).count (score, val) = t.count (score, val) + 1 := by
  obtain ⟨L, hI, hS⟩ := ord_of_reachable hr
  obtain ⟨level, hlevel⟩ := Option.isSome_iff_exists.mp hd
  obtain ⟨skl2, L2, hrun, hI2, hS2, hmap, _⟩ := insert_ord hI hS hs val draws hlevel
  refine ⟨skl2, skl.next, L.map (keyAt skl.mem), hrun, traversal_of_inv hI, ?_, hS.2, ?_,
    count_placeKey _ _⟩
  · rw [traversal_of_inv hI2, hmap]
  · rw [← hmap]; exact hS2.2

/-- Witness for C1: inserting a second `(5, "b")` into the sample list. -/
theorem insert_places_pair_witness :
    ReachableOrd sklThree ∧ Float64.num 5 ≠ Float64.nan ∧
    (sklRandomLevel [0, 65535]).isSome = true ∧
    ∃ skl2 x t, sklThree.Insert (.num 5) "b" [0, 65535] = some (skl2, x) ∧
      sklThree.traversal = some t ∧
      skl2.traversal = some (placeKey (.num 5, "b") t) ∧
      Ascending t ∧ Ascending (placeKey (.num 5, "b") t) ∧
      (placeKey (.num 5, "b") t).count (.num 5, "b") = t.count (.num 5, "b") + 1 :=
  ⟨sklThree_ord, by decide, by decide,
    insert_places_pair sklThree (.num 5) "b" [0, 65535] sklThree_ord (by decide) (by decide)⟩

/-- C2: on a list reachable with non-NaN scores, at every level `i` below the level count,
the sums of level-`i` spans from the header list exactly the nodes of the level-`i` chain,
and the sum for a node is its 1-based position in the level-0 chain. -/
theorem rank_via_span (skl : SkipList) (i : Nat) (hr : ReachableOrd skl)
    (hi : i < skl.level) :
    ∃ L chain ranks, skl.nodes = some L ∧ L.Nodup ∧ skl.nodesAt i = some chain ∧
      skl.spanRanks i = some ranks ∧ ranks.map Prod.fst = chain ∧
      ∀ p ∈ ranks, ∃ k : Nat, p.2 = (k : Int) + 1 ∧ L[k]? = some p.1 := by
  obtain ⟨L, hI, _⟩ := ord_of_reachable hr
  obtain ⟨ranks, h1, h2, h3⟩ := spanRanks_of_inv hI hi
  exact ⟨L, _, ranks, nodes_of_inv hI, (List.nodup_cons.mp hI.nodup).2, nodesAt_of_inv hI hi,
    h1, h2, h3⟩

/-- Witness for C2: level 1 of the sample list. -/
theorem rank_via_span_witness :
    ReachableOrd sklThree ∧ 1 < sklThree.level ∧
    ∃ L chain ranks, sklThree.nodes = some L ∧ L.Nodup ∧ sklThree.nodesAt 1 = some chain ∧
      sklThree.spanRanks 1 = some ranks ∧ ranks.map Prod.fst = chain ∧
      ∀ p ∈ ranks, ∃ k : Nat, p.2 = (k : Int) + 1 ∧ L[k]? = some p.1 :=
  ⟨sklThree_ord, by decide, rank_via_span sklThree 1 sklThree_ord (by decide)⟩

/-- C3: on a list reachable with non-NaN scores, `Delete(score, val)` returns; it returns 1
when the traversal holds a node whose score and member both equal the arguments and 0 when
it holds none; when it returns 1 the traversal afterwards is the traversal before without
one such node, the others in the same order, and the length is one less. -/
theorem delete_removes_match (skl : SkipList) (score : Float64) (val : String)
    (hr : ReachableOrd skl) :
    ∃ skl2 r t, skl.Delete score val = some (skl2, r) ∧ skl.traversal = some t ∧
      ((r = 1 ∧ ∃ k ∈ t, keyEq (score, val) k = true) ∨
        (r = 0 ∧ ∀ k ∈ t, keyEq (score, val) k = false)) ∧
      (r = 1 → ∃ t1 t2, t = t1 ++ (score, val) :: t2 ∧
        skl2.traversal = some (t1 ++ t2) ∧ skl2.length = skl.length - 1) := by
  obtain ⟨L, hI, hS⟩ := ord_of_reachable hr
  rcases delete_ord hI hS score val with ⟨hno, hrun⟩ |
    ⟨skl2, passed, x, R2, hL, hkx, hsn, hrun, hI2, _, hk, hlen, _⟩
  · refine ⟨skl, 0, _, hrun, traversal_of_inv hI, Or.inr ⟨rfl, ?_⟩, by intro h; cases h⟩
    intro k hk
    obtain ⟨a, ha, rfl⟩ := List.mem_map.mp hk
    exact hno a ha
  · refine ⟨skl2, 1, _, hrun, traversal_of_inv hI, Or.inl ⟨rfl, ?_⟩, ?_⟩
    · refine ⟨keyAt skl.mem x, List.mem_map_of_mem _ (by rw [hL]; simp), ?_⟩
      rw [hkx]
      exact keyEq_self hsn
    · intro _
      refine ⟨passed.map (keyAt skl.mem), R2.map (keyAt skl.mem), ?_, ?_, hlen⟩
      · rw [hL, List.map_append, List.map_cons, hkx]
      · rw [traversal_of_inv hI2, hk, List.map_append]

/-- Witness for C3: deleting `(5, "b")` from the sample list. -/
theorem delete_removes_match_witness :
    ReachableOrd sklThree ∧
    ∃ skl2 r t, sklThree.Delete (.num 5) "b" = some (skl2, r) ∧ sklThree.traversal = some t ∧
      ((r = 1 ∧ ∃ k ∈ t, keyEq (.num 5, "b") k = true) ∨
        (r = 0 ∧ ∀ k ∈ t, keyEq (.num 5, "b") k = false)) ∧
      (r = 1 → ∃ t1 t2, t = t1 ++ (.num 5, "b") :: t2 ∧
        skl2.traversal = some (t1 ++ t2) ∧ skl2.length = sklThree.length - 1) :=
  ⟨sklThree_ord, delete_removes_match sklThree (.num 5) "b" sklThree_ord⟩

/-- C4: on a reachable list, when no node of the traversal has both the score and the
member given, `Delete` returns 0 and the list afterwards is the list before (so its length,
traversal, level count, spans and tail are the same). -/
theorem delete_absent_unchanged (skl : SkipList) (score : Float64) (val : String)
    (t : List (Float64 × String)) (hr : Reachable skl) (ht : skl.traversal = some t)
    (hno : ∀ k ∈ t, keyEq (score, val) k = false) :
    skl.Delete score val = some (skl, 0) := by
  obtain ⟨L, hI⟩ := inv_of_reachable hr
  rw [traversal_of_inv hI] at ht
  cases ht
  obtain ⟨passed, R, hL, _, _, hnil, hmiss, _⟩ := delete_cases hI score val
  cases hR : R with
  | nil => exact hnil hR
  | cons x R2 =>
    apply hmiss x R2 hR
    apply hno
    apply List.mem_map_of_mem
    rw [hL, hR]
    simp

/-- Witness for C4: `(5, "c")` matches a node of the sample list in score only and another
in member only. -/
theorem delete_absent_unchanged_witness :
    Reachable sklThree ∧
    sklThree.traversal = some [(.num 5, "a"), (.num 5, "b"), (.num 7, "c")] ∧
    (∀ k ∈ [(Float64.num 5, "a"), (Float64.num 5, "b"), (Float64.num 7, "c")],
      keyEq (.num 5, "c") k = false) ∧
    sklThree.Delete (.num 5) "c" = some (sklThree, 0) :=
  ⟨sklThree_reachable, by decide, by decide,
    delete_absent_unchanged sklThree (.num 5) "c"
      [(.num 5, "a"), (.num 5, "b"), (.num 7, "c")] sklThree_reachable (by decide)
      (by decide)⟩

/-- C5: on a list reachable with non-NaN scores, `Insert(score, val)` with a non-NaN score
followed by `Delete(score, val)` returns 1 and gives back the length and the level-0
traversal the list had before the `Insert`. -/
theorem insert_delete_roundtrip (skl : SkipList) (score : Float64) (val : String)
    (draws : List Nat) (hr : ReachableOrd skl) (hs : score ≠ Float64.nan)
    (hd : (sklRandomLevel draws).isSome = true) :
    ∃ skl2 x skl3 t, skl.Insert score val draws = some (skl2, x) ∧
      skl2.Delete score val = some (skl3, 1) ∧
      skl.traversal = some t ∧ skl3.traversal = some t ∧ skl3.length = skl.length := by
  obtain ⟨L, hI, hS⟩ := ord_of_reachable hr
  obtain ⟨level, hlevel⟩ := Option.isSome_iff_exists.mp hd
  obtain ⟨skl2, L2, hrun, hI2, hS2, hmap, hlen, _, hx⟩ := insert_ord hI hS hs val draws hlevel
  have hkx : (score, val) ∈ L2.map (keyAt skl2.mem) := by
    rw [hmap]; unfold placeKey; simp
  rcases delete_ord hI2 hS2 score val with ⟨hno, _⟩ |
    ⟨skl3, passed, y, R2, hL2, hky, _, hrun3, hI3, _, hk, hlen3, hpassed⟩
  · exfalso
    obtain ⟨a, ha, hka⟩ := List.mem_map.mp hkx
    have := hno a ha
    rw [hka, keyEq_self hs] at this
    cases this
  · refine ⟨skl2, skl.next, skl3, _, hrun, hrun3, traversal_of_inv hI, ?_, by rw [hlen3, hlen]; ring⟩
    rw [traversal_of_inv hI3, hk]
    congr 1
    have e : passed.map (keyAt skl2.mem) ++ (score, val) :: R2.map (keyAt skl2.mem) =
        (L.map (keyAt skl.mem)).takeWhile (fun a => keyLess a (score, val)) ++
          (score, val) :: (L.map (keyAt skl.mem)).dropWhile (fun a => keyLess a (score, val)) := by
      rw [← hky, ← List.map_cons, ← List.map_append, ← hL2, hmap, hky]
      rfl
    have h1 : (score, val) ∉ passed.map (keyAt skl2.mem) := by
      intro h
      obtain ⟨a, ha, hka⟩ := List.mem_map.mp h
      have := hpassed a ha
      rw [hka, keyLess_irrefl] at this
      cases this
    have h2 : (score, val) ∉
        (L.map (keyAt skl.mem)).takeWhile (fun a => keyLess a (score, val)) := by
      intro h
      have := List.mem_takeWhile_imp h
      simp only [] at this
      rw [keyLess_irrefl] at this
      cases this
    obtain ⟨e1, e2⟩ := split_at_first e h1 h2
    rw [List.map_append, e1, e2, List.takeWhile_append_dropWhile]

/-- Witness for C5: a second `(5, "b")` inserted into the sample list and deleted again. -/
theorem insert_delete_roundtrip_witness :
    ReachableOrd sklThree ∧ Float64.num 5 ≠ Float64.nan ∧
    (sklRandomLevel [0, 65535]).isSome = true ∧
    ∃ skl2 x skl3 t, sklThree.Insert (.num 5) "b" [0, 65535] = some (skl2, x) ∧
      skl2.Delete (.num 5) "b" = some (skl3, 1) ∧
      sklThree.traversal = some t ∧ skl3.traversal = some t ∧
      skl3.length = sklThree.length :=
  ⟨sklThree_ord, by decide, by decide,
    insert_delete_roundtrip sklThree (.num 5) "b" [0, 65535] sklThree_ord (by decide)
      (by decide)⟩

/-- C6: on a reachable list, the tail is the last node of the level-0 chain and is `nil`
exactly when the list is empty, the back pointer of the first node is `nil`, the back
pointer of every other node is the node before it, and following the back pointers from the
tail gives the nodes of the forward chain in reverse order, each once. -/
theorem back_reference_invariant (skl : SkipList) (hr : Reachable skl) :
    ∃ L, skl.nodes = some L ∧ L.Nodup ∧ skl.length = (L.length : Int) ∧
      skl.tail = L.getLast? ∧ (skl.tail = none ↔ L = []) ∧
      (∀ a, L.head? = some a → (skl.mem a).back = none) ∧
      (∀ k a b, L[k]? = some a → L[k + 1]? = some b → (skl.mem b).back = some a) ∧
      skl.backNodes = some L.reverse := by
  obtain ⟨L, hI⟩ := inv_of_reachable hr
  refine ⟨L, nodes_of_inv hI, (List.nodup_cons.mp hI.nodup).2, hI.len, hI.tail, ?_, ?_, ?_,
    backNodes_of_inv hI⟩
  · rw [hI.tail]
    exact List.getLast?_eq_none_iff
  · intro a ha
    cases hL : L with
    | nil => rw [hL] at ha; cases ha
    | cons b L2 =>
      rw [hL] at ha
      simp only [List.head?_cons, Option.some.injEq] at ha
      have := hI.backs
      rw [hL, BackLinked_cons] at this
      rw [← ha]
      exact this.1
  · intro k a b ha hb
    exact BackLinked.step L none k a b hI.backs ha hb

/-- Witness for C6: the sample list. -/
theorem back_reference_invariant_witness :
    Reachable sklThree ∧
    ∃ L, sklThree.nodes = some L ∧ L.Nodup ∧ sklThree.length = (L.length : Int) ∧
      sklThree.tail = L.getLast? ∧ (sklThree.tail = none ↔ L = []) ∧
      (∀ a, L.head? = some a → (sklThree.mem a).back = none) ∧
      (∀ k a b, L[k]? = some a → L[k + 1]? = some b → (sklThree.mem b).back = some a) ∧
      sklThree.backNodes = some L.reverse :=
  ⟨sklThree_reachable, back_reference_invariant sklThree sklThree_reachable⟩

/-! ### The sharded dictionary -/

theorem Dict.pos_spec {V : Type} {HashKey : String → Int} (hh : ∀ k, 0 ≤ HashKey k)
    {m : Dict V} (hv : m.Valid) (key : String) :
    ∃ pos sh, m.getKeyPos HashKey key = some pos ∧ m.shardAt pos = some sh ∧
      0 ≤ pos ∧ pos.toNat < m.dict.length := by
  obtain ⟨hsize, hpos⟩ := hv
  have h0 : 0 ≤ Int.tmod (HashKey key) m.size := Int.tmod_nonneg _ (hh key)
  have h1 : Int.tmod (HashKey key) m.size < m.size := Int.tmod_lt_of_pos _ hpos
  have h2 : (Int.tmod (HashKey key) m.size).toNat < m.dict.length := by
    rw [Int.toNat_lt h0, ← hsize]; exact h1
  refine ⟨_, m.dict[(Int.tmod (HashKey key) m.size).toNat], ?_, ?_, h0, h2⟩
  · unfold Dict.getKeyPos
    rw [if_neg (by omega)]
  · unfold Dict.shardAt
    rw [if_neg (by omega), List.getElem?_eq_getElem h2]

theorem Dict.withShard_valid {V : Type} {m : Dict V} (hv : m.Valid) (pos : Int)
    (mp : AList (fun _ : String => V)) : (m.withShard pos mp).Valid := by
  unfold Dict.Valid Dict.withShard
  simpa using hv

theorem Dict.withShard_pos {V : Type} (HashKey : String → Int) (m : Dict V) (pos : Int)
    (mp : AList (fun _ : String => V)) (key : String) :
    (m.withShard pos mp).getKeyPos HashKey key = m.getKeyPos HashKey key := rfl

theorem Dict.withShard_at {V : Type} {m : Dict V} {pos : Int} (h0 : 0 ≤ pos)
    (h1 : pos.toNat < m.dict.length) (mp : AList (fun _ : String => V)) :
    (m.withShard pos mp).shardAt pos = some { mp := mp } := by
  unfold Dict.shardAt Dict.withShard
  rw [if_neg (by omega)]
  exact List.getElem?_set_self h1

theorem Dict.get_eq {V : Type} [Inhabited V] (HashKey : String → Int) {m : Dict V}
    {key : String} {pos : Int} {sh : shard V} (hp : m.getKeyPos HashKey key = some pos)
    (hs : m.shardAt pos = some sh) :
    m.Get HashKey key =
      some (match sh.mp.lookup key with
        | some value => (value, true)
        | none => (default, false)) := by
  unfold Dict.Get
  rw [hp]
  simp only [hs]
  cases sh.mp.lookup key <;> rfl

/-- What `Get` reports after the shard of `key` has become `mp`. -/
theorem Dict.get_withShard {V : Type} [Inhabited V] {HashKey : String → Int} {m : Dict V}
    {key : String} {pos : Int} (hp : m.getKeyPos HashKey key = some pos) (h0 : 0 ≤ pos)
    (h1 : pos.toNat < m.dict.length) (mp : AList (fun _ : String => V)) :
    (m.withShard pos mp).Get HashKey key =
      some (match mp.lookup key with
        | some value => (value, true)
        | none => (default, false)) :=
  Dict.get_eq HashKey (by rw [Dict.withShard_pos]; exact hp) (Dict.withShard_at h0 h1 mp)

/-- C7: in a valid dictionary, with a hash function that returns non-negative integers,
`Set(K, V)` returns and `Get(K)` afterwards returns `(V, true)`. -/
theorem set_then_get {V : Type} [Inhabited V] (HashKey : String → Int) (m : Dict V)
    (K : String) (v : V) (hh : ∀ k, 0 ≤ HashKey k) (hv : m.Valid) :
    ∃ m2 r, m.Set HashKey K v = some (m2, r) ∧ m2.Valid ∧
      m2.Get HashKey K = some (v, true) := by
  obtain ⟨pos, sh, hp, hs, h0, h1⟩ := Dict.pos_spec hh hv K
  refine ⟨m.withShard pos (sh.mp.insert K v), if (sh.mp.lookup K).isSome then 0 else 1, ?_,
    Dict.withShard_valid hv pos (sh.mp.insert K v), ?_⟩
  · unfold Dict.Set
    rw [hp]
    simp only [hs]
  · rw [Dict.get_withShard hp h0 h1, AList.lookup_insert]

/-- C8: in a valid dictionary, `Set(K, V)` returns 1 when `Get(K)` reported "not found"
just before and 0 when it reported "found"; every later `Set` on the same key returns 0. -/
theorem set_return_code {V : Type} [Inhabited V] (HashKey : String → Int) (m : Dict V)
    (K : String) (v : V) (hh : ∀ k, 0 ≤ HashKey k) (hv : m.Valid) :
    ∃ m2 r w f, m.Set HashKey K v = some (m2, r) ∧ m.Get HashKey K = some (w, f) ∧
      ((r = 1 ∧ f = false) ∨ (r = 0 ∧ f = true)) ∧
      ∀ vs : List V, ∃ m3, m2.SetEach HashKey K vs = some (m3, List.replicate vs.length 0) := by
  obtain ⟨pos, sh, hp, hs, h0, h1⟩ := Dict.pos_spec hh hv K
  have hset : m.Set HashKey K v = some (m.withShard pos (sh.mp.insert K v),
      if (sh.mp.lookup K).isSome then 0 else 1) := by
    unfold Dict.Set
    rw [hp]
    simp only [hs]
  have hlater : ∀ (vs : List V) (m2 : Dict V), m2.Valid →
      (∃ w, m2.Get HashKey K = some (w, true)) →
      ∃ m3, m2.SetEach HashKey K vs = some (m3, List.replicate vs.length 0) := by
    intro vs
    induction vs with
    | nil => intro m2 _ _; exact ⟨m2, rfl⟩
    | cons u vs ih =>
      intro m2 hv2 hfound
      obtain ⟨pos2, sh2, hp2, hs2, h02, h12⟩ := Dict.pos_spec hh hv2 K
      obtain ⟨w, hw⟩ := hfound
      rw [Dict.get_eq HashKey hp2 hs2] at hw
      have hsome : (sh2.mp.lookup K).isSome = true := by
        cases hl : sh2.mp.lookup K with
        | none => rw [hl] at hw; simp at hw
        | some x => rfl
      obtain ⟨m3, hm3⟩ := ih (m2.withShard pos2 (sh2.mp.insert K u))
        (Dict.withShard_valid hv2 _ _)
        ⟨u, by rw [Dict.get_withShard hp2 h02 h12, AList.lookup_insert]⟩
      refine ⟨m3, ?_⟩
      simp only [Dict.SetEach, Dict.Set, hp2, hs2, hsome, if_true, hm3, List.length_cons,
        List.replicate_succ]
  cases hl : sh.mp.lookup K with
  | none =>
    refine ⟨m.withShard pos (sh.mp.insert K v), 1, default, false, ?_, ?_, Or.inl ⟨rfl, rfl⟩, ?_⟩
    · rw [hset, hl]; rfl
    · rw [Dict.get_eq HashKey hp hs, hl]
    · intro vs
      exact hlater vs _ (Dict.withShard_valid hv _ _)
        ⟨v, by rw [Dict.get_withShard hp h0 h1, AList.lookup_insert]⟩
  | some x =>
    refine ⟨m.withShard pos (sh.mp.insert K v), 0, x, true, ?_, ?_, Or.inr ⟨rfl, rfl⟩, ?_⟩
    · rw [hset, hl]; rfl
    · rw [Dict.get_eq HashKey hp hs, hl]
    · intro vs
      exact hlater vs _ (Dict.withShard_valid hv _ _)
        ⟨v, by rw [Dict.get_withShard hp h0 h1, AList.lookup_insert]⟩

/-- C9: in a valid dictionary, when `K` is present with value `V1`, `SetIfNotExist(K, V2)`
returns 0 and `Get(K)` still returns `(V1, true)`; when `K` is absent it returns 1 and
`Get(K)` then returns `(V2, true)`. -/
theorem setIfNotExist_spec {V : Type} [Inhabited V] (HashKey : String → Int) (m : Dict V)
    (K : String) (v2 : V) (hh : ∀ k, 0 ≤ HashKey k) (hv : m.Valid) :
    (∀ v1, m.Get HashKey K = some (v1, true) →
      ∃ m2, m.SetIfNotExist HashKey K v2 = some (m2, 0) ∧
        m2.Get HashKey K = some (v1, true)) ∧
    (∀ w, m.Get HashKey K = some (w, false) →
      ∃ m2, m.SetIfNotExist HashKey K v2 = some (m2, 1) ∧
        m2.Get HashKey K = some (v2, true)) := by
  obtain ⟨pos, sh, hp, hs, h0, h1⟩ := Dict.pos_spec hh hv K
  have hget := Dict.get_eq HashKey hp hs
  constructor
  · intro v1 hg
    rw [hget] at hg
    have hsome : (sh.mp.lookup K).isSome = true := by
      cases hl : sh.mp.lookup K with
      | none => rw [hl] at hg; simp at hg
      | some x => rfl
    refine ⟨m, ?_, by rw [hget]; exact hg⟩
    simp only [Dict.SetIfNotExist, hp, hs, hsome, if_true]
  · intro w hg
    rw [hget] at hg
    have hnone : (sh.mp.lookup K).isSome = false := by
      cases hl : sh.mp.lookup K with
      | none => rfl
      | some x => rw [hl] at hg; simp at hg
    refine ⟨m.withShard pos (sh.mp.insert K v2), ?_, ?_⟩
    · simp only [Dict.SetIfNotExist, hp, hs, hnone]
      rfl
    · rw [Dict.get_withShard hp h0 h1, AList.lookup_insert]

/-- C10: in a valid dictionary, `Delete(K)` returns 1 when `K` was present and 0 when it was
absent, leaving the dictionary as it was in that case; in both cases `Get(K)` afterwards
reports "not found". -/
theorem delete_spec {V : Type} [Inhabited V] (HashKey : String → Int) (m : Dict V)
    (K : String) (hh : ∀ k, 0 ≤ HashKey k) (hv : m.Valid) :
    ∃ m2 r w f, m.Delete HashKey K = some (m2, r) ∧ m.Get HashKey K = some (w, f) ∧
      ((r = 1 ∧ f = true) ∨ (r = 0 ∧ f = false ∧ m2 = m)) ∧
      m2.Get HashKey K = some (default, false) := by
  obtain ⟨pos, sh, hp, hs, h0, h1⟩ := Dict.pos_spec hh hv K
  have hget := Dict.get_eq HashKey hp hs
  cases hl : sh.mp.lookup K with
  | none =>
    refine ⟨m, 0, default, false, ?_, ?_, Or.inr ⟨rfl, rfl, rfl⟩, ?_⟩
    · simp only [Dict.Delete, hp, hs, hl]
      rfl
    · rw [hget, hl]
    · rw [hget, hl]
  | some x =>
    refine ⟨m.withShard pos (sh.mp.erase K), 1, x, true, ?_, ?_, Or.inl ⟨rfl, rfl⟩, ?_⟩
    · simp only [Dict.Delete, hp, hs, hl]
      rfl
    · rw [hget, hl]
    · rw [Dict.get_withShard hp h0 h1, AList.lookup_erase]

theorem lengthHash_nonneg : ∀ k, 0 ≤ lengthHash k := fun _ => Int.natCast_nonneg _

theorem dictOne_valid : dictOne.Valid := by
  unfold Dict.Valid
  decide

/-- Witness for C7: `Set("a", 2)` on the sample dictionary. -/
theorem set_then_get_witness :
    (∀ k, 0 ≤ lengthHash k) ∧ dictOne.Valid ∧
    ∃ m2 r, dictOne.Set lengthHash "a" 2 = some (m2, r) ∧ m2.Valid ∧
      m2.Get lengthHash "a" = some (2, true) :=
  ⟨lengthHash_nonneg, dictOne_valid,
    set_then_get lengthHash dictOne "a" 2 lengthHash_nonneg dictOne_valid⟩

/-- Witness for C8: `Set("b", 2)` on the sample dictionary. -/
theorem set_return_code_witness :
    (∀ k, 0 ≤ lengthHash k) ∧ dictOne.Valid ∧
    ∃ m2 r w f, dictOne.Set lengthHash "b" 2 = some (m2, r) ∧
      dictOne.Get lengthHash "b" = some (w, f) ∧
      ((r = 1 ∧ f = false) ∨ (r = 0 ∧ f = true)) ∧
      ∀ vs : List Nat, ∃ m3,
        m2.SetEach lengthHash "b" vs = some (m3, List.replicate vs.length 0) :=
  ⟨lengthHash_nonneg, dictOne_valid,
    set_return_code lengthHash dictOne "b" 2 lengthHash_nonneg dictOne_valid⟩

/-- Witness for C9: `SetIfNotExist("a", 3)` on the sample dictionary. -/
theorem setIfNotExist_spec_witness :
    (∀ k, 0 ≤ lengthHash k) ∧ dictOne.Valid ∧
    dictOne.Get lengthHash "a" = some (1, true) ∧
    ∃ m2, dictOne.SetIfNotExist lengthHash "a" 3 = some (m2, 0) ∧
      m2.Get lengthHash "a" = some (1, true) :=
  ⟨lengthHash_nonneg, dictOne_valid, by decide,
    (setIfNotExist_spec lengthHash dictOne "a" 3 lengthHash_nonneg dictOne_valid).1 1
      (by decide)⟩

/-- Witness for C10: `Delete("a")` on the sample dictionary. -/
theorem delete_spec_witness :
    (∀ k, 0 ≤ lengthHash k) ∧ dictOne.Valid ∧
    ∃ m2 r w f, dictOne.Delete lengthHash "a" = some (m2, r) ∧
      dictOne.Get lengthHash "a" = some (w, f) ∧
      ((r = 1 ∧ f = true) ∨ (r = 0 ∧ f = false ∧ m2 = dictOne)) ∧
      m2.Get lengthHash "a" = some (default, false) :=
  ⟨lengthHash_nonneg, dictOne_valid,
    delete_spec lengthHash dictOne "a" lengthHash_nonneg dictOne_valid⟩

/-! ## The dictionary as a whole -/

/-! ### The dictionary: shards and placement -/

theorem Dict.shardAt_some {V : Type} {m : Dict V} {pos : Int} {sh : shard V}
    (h : m.shardAt pos = some sh) :
    0 ≤ pos ∧ pos.toNat < m.dict.length ∧ m.dict[pos.toNat]? = some sh := by
  unfold Dict.shardAt at h
  by_cases hneg : pos < 0
  · rw [if_pos hneg] at h; cases h
  · rw [if_neg hneg] at h
    exact ⟨by omega, (List.getElem?_eq_some.mp h).1, h⟩

theorem Dict.shardAt_nat {V : Type} (m : Dict V) (i : Nat) :
    m.shardAt (i : Int) = m.dict[i]? := by
  unfold Dict.shardAt
  rw [if_neg (by omega)]
  rfl

theorem Dict.withShard_dict {V : Type} (m : Dict V) (pos : Int)
    (mp : AList (fun _ : String => V)) (h1 : pos.toNat < m.dict.length) (i : Nat) :
    (m.withShard pos mp).dict[i]? = if i = pos.toNat then some { mp := mp } else m.dict[i]? := by
  unfold Dict.withShard
  by_cases hi : i = pos.toNat
  · rw [if_pos hi, hi]
    exact List.getElem?_set_self h1
  · rw [if_neg hi]
    exact List.getElem?_set_ne (fun h => hi h.symm)

theorem Dict.withShard_size {V : Type} (m : Dict V) (pos : Int)
    (mp : AList (fun _ : String => V)) : (m.withShard pos mp).size = m.size := rfl

theorem Dict.withShard_length {V : Type} (m : Dict V) (pos : Int)
    (mp : AList (fun _ : String => V)) :
    (m.withShard pos mp).dict.length = m.dict.length := by
  unfold Dict.withShard
  simp

/-- Writing, in the shard of `K`, a map whose keys are `K` or keys of the old map keeps
every key in its shard. -/
theorem Dict.placed_withShard {V : Type} {HashKey : String → Int} {m : Dict V}
    (hp : m.Placed HashKey) {K : String} {pos : Int} {sh : shard V}
    (hk : m.getKeyPos HashKey K = some pos) (hs : m.shardAt pos = some sh)
    (mp : AList (fun _ : String => V)) (hkeys : ∀ k, k ∈ mp.keys → k = K ∨ k ∈ sh.mp.keys) :
    (m.withShard pos mp).Placed HashKey := by
  obtain ⟨h0, h1, h2⟩ := Dict.shardAt_some hs
  intro i sh2 hi k hk2
  rw [Dict.withShard_pos]
  rw [Dict.withShard_dict m pos mp h1] at hi
  by_cases hip : i = pos.toNat
  · rw [if_pos hip] at hi
    cases hi
    have hpos : ((i : Nat) : Int) = pos := by rw [hip]; exact Int.toNat_of_nonneg h0
    rcases hkeys k hk2 with h | h
    · rw [h, hk, hpos]
    · rw [hip]
      exact hp pos.toNat sh h2 k h
  · rw [if_neg hip] at hi
    exact hp i sh2 hi k hk2

theorem newDict_size {V : Type} (n : Int) :
    (NewDict n : Dict V).size = (if n < 16 ∨ n > 2048 then 128 else n) := rfl

theorem newDict_dict {V : Type} (n : Int) :
    (NewDict n : Dict V).dict =
      List.replicate (NewDict n : Dict V).size.toNat { mp := ∅ } := rfl

theorem newDict_range {V : Type} (n : Int) :
    16 ≤ (NewDict n : Dict V).size ∧ (NewDict n : Dict V).size ≤ 2048 := by
  rw [newDict_size]
  by_cases h : n < 16 ∨ n > 2048
  · rw [if_pos h]; omega
  · rw [if_neg h]; omega

theorem newDict_valid {V : Type} (n : Int) : (NewDict n : Dict V).Valid := by
  have hr := newDict_range (V := V) n
  unfold Dict.Valid
  rw [newDict_dict, List.length_replicate]
  constructor
  · rw [Int.toNat_of_nonneg (by omega)]
  · omega

theorem newDict_shard {V : Type} (n : Int) (i : Nat) (sh : shard V)
    (h : (NewDict n : Dict V).dict[i]? = some sh) : sh = { mp := ∅ } := by
  rw [newDict_dict, List.getElem?_replicate] at h
  by_cases hi : i < (NewDict n : Dict V).size.toNat
  · rw [if_pos hi] at h; cases h; rfl
  · rw [if_neg hi] at h; cases h

theorem newDict_placed {V : Type} (HashKey : String → Int) (n : Int) :
    (NewDict n : Dict V).Placed HashKey := by
  intro i sh hi k hk
  rw [newDict_shard n i sh hi] at hk
  simp at hk

/-! ### The dictionary: what each call does to the state -/

theorem Dict.set_inv {V : Type} {HashKey : String → Int} {m m2 : Dict V} {K : String} {v : V}
    {r : Int} (h : m.Set HashKey K v = some (m2, r)) :
    ∃ pos sh, m.getKeyPos HashKey K = some pos ∧ m.shardAt pos = some sh ∧
      m2 = m.withShard pos (sh.mp.insert K v) ∧
      r = (if (sh.mp.lookup K).isSome then 0 else 1) := by
  unfold Dict.Set at h
  cases hp : m.getKeyPos HashKey K with
  | none => rw [hp] at h; cases h
  | some pos =>
    rw [hp] at h
    cases hs : m.shardAt pos with
    | none => simp only [hs] at h; cases h
    | some sh =>
      simp only [hs, Option.some.injEq, Prod.mk.injEq] at h
      exact ⟨pos, sh, rfl, hs, h.1.symm, h.2.symm⟩

theorem Dict.setIfExist_inv {V : Type} {HashKey : String → Int} {m m2 : Dict V} {K : String}
    {v : V} {r : Int} (h : m.SetIfExist HashKey K v = some (m2, r)) :
    ∃ pos sh, m.getKeyPos HashKey K = some pos ∧ m.shardAt pos = some sh ∧
      (((sh.mp.lookup K).isSome = true ∧ m2 = m.withShard pos (sh.mp.insert K v) ∧ r = 1) ∨
       ((sh.mp.lookup K).isSome = false ∧ m2 = m ∧ r = 0)) := by
  unfold Dict.SetIfExist at h
  cases hp : m.getKeyPos HashKey K with
  | none => rw [hp] at h; cases h
  | some pos =>
    rw [hp] at h
    cases hs : m.shardAt pos with
    | none => simp only [hs] at h; cases h
    | some sh =>
      simp only [hs] at h
      refine ⟨pos, sh, rfl, hs, ?_⟩
      cases hl : (sh.mp.lookup K).isSome with
      | true =>
        rw [hl] at h
        simp only [if_true, Option.some.injEq, Prod.mk.injEq] at h
        exact Or.inl ⟨rfl, h.1.symm, h.2.symm⟩
      | false =>
        rw [hl] at h
        simp only [Bool.false_eq_true, if_false, Option.some.injEq, Prod.mk.injEq] at h
        exact Or.inr ⟨rfl, h.1.symm, h.2.symm⟩

theorem Dict.setIfNotExist_inv {V : Type} {HashKey : String → Int} {m m2 : Dict V}
    {K : String} {v : V} {r : Int} (h : m.SetIfNotExist HashKey K v = some (m2, r)) :
    ∃ pos sh, m.getKeyPos HashKey K = some pos ∧ m.shardAt pos = some sh ∧
      (((sh.mp.lookup K).isSome = false ∧ m2 = m.withShard pos (sh.mp.insert K v) ∧ r = 1) ∨
       ((sh.mp.lookup K).isSome = true ∧ m2 = m ∧ r = 0)) := by
  unfold Dict.SetIfNotExist at h
  cases hp : m.getKeyPos HashKey K with
  | none => rw [hp] at h; cases h
  | some pos =>
    rw [hp] at h
    cases hs : m.shardAt pos with
    | none => simp only [hs] at h; cases h
    | some sh =>
      simp only [hs] at h
      refine ⟨pos, sh, rfl, hs, ?_⟩
      cases hl : (sh.mp.lookup K).isSome with
      | true =>
        rw [hl] at h
        simp only [if_true, Option.some.injEq, Prod.mk.injEq] at h
        exact Or.inr ⟨rfl, h.1.symm, h.2.symm⟩
      | false =>
        rw [hl] at h
        simp only [Bool.false_eq_true, if_false, Option.some.injEq, Prod.mk.injEq] at h
        exact Or.inl ⟨rfl, h.1.symm, h.2.symm⟩

theorem Dict.delete_inv {V : Type} {HashKey : String → Int} {m m2 : Dict V} {K : String}
    {r : Int} (h : m.Delete HashKey K = some (m2, r)) :
    ∃ pos sh, m.getKeyPos HashKey K = some pos ∧ m.shardAt pos = some sh ∧
      (((sh.mp.lookup K).isSome = true ∧ m2 = m.withShard pos (sh.mp.erase K) ∧ r = 1) ∨
       ((sh.mp.lookup K).isSome = false ∧ m2 = m ∧ r = 0)) := by
  unfold Dict.Delete at h
  cases hp : m.getKeyPos HashKey K with
  | none => rw [hp] at h; cases h
  | some pos =>
    rw [hp] at h
    cases hs : m.shardAt pos with
    | none => simp only [hs] at h; cases h
    | some sh =>
      simp only [hs] at h
      refine ⟨pos, sh, rfl, hs, ?_⟩
      cases hl : (sh.mp.lookup K).isSome with
      | true =>
        rw [hl] at h
        simp only [if_true, Option.some.injEq, Prod.mk.injEq] at h
        exact Or.inl ⟨rfl, h.1.symm, h.2.symm⟩
      | false =>
        rw [hl] at h
        simp only [Bool.false_eq_true, if_false, Option.some.injEq, Prod.mk.injEq] at h
        exact Or.inr ⟨rfl, h.1.symm, h.2.symm⟩

theorem keys_insert_sub {V : Type} (mp : AList (fun _ : String => V)) (K : String) (v : V) :
    ∀ k, k ∈ (mp.insert K v).keys → k = K ∨ k ∈ mp.keys := by
  intro k hk
  rw [← AList.mem_keys, AList.mem_insert] at hk
  rcases hk with h | h
  · exact Or.inl h
  · exact Or.inr (AList.mem_keys.mp h)

theorem keys_erase_sub {V : Type} (mp : AList (fun _ : String => V)) (K : String) :
    ∀ k, k ∈ (mp.erase K).keys → k = K ∨ k ∈ mp.keys := by
  intro k hk
  rw [← AList.mem_keys, AList.mem_erase] at hk
  exact Or.inr (AList.mem_keys.mp hk.2)

/-- Every reachable dictionary is valid, keeps every key in its shard, and has the size
`NewDict` gave it. -/
theorem dictReach_inv {V : Type} {HashKey : String → Int} {n : Int} {m : Dict V}
    (h : DictReach HashKey n m) :
    m.Valid ∧ m.Placed HashKey ∧ m.size = (NewDict n : Dict V).size := by
  induction h with
  | new => exact ⟨newDict_valid n, newDict_placed HashKey n, rfl⟩
  | set key rob _ hrun ih =>
    obtain ⟨hv, hp, hsz⟩ := ih
    obtain ⟨pos, sh, hk, hs, rfl, _⟩ := Dict.set_inv hrun
    exact ⟨Dict.withShard_valid hv _ _,
      Dict.placed_withShard hp hk hs _ (keys_insert_sub _ _ _), hsz⟩
  | setIfExist key rob _ hrun ih =>
    obtain ⟨hv, hp, hsz⟩ := ih
    obtain ⟨pos, sh, hk, hs, h | h⟩ := Dict.setIfExist_inv hrun
    · obtain ⟨_, rfl, _⟩ := h
      exact ⟨Dict.withShard_valid hv _ _,
        Dict.placed_withShard hp hk hs _ (keys_insert_sub _ _ _), hsz⟩
    · obtain ⟨_, rfl, _⟩ := h
      exact ⟨hv, hp, hsz⟩
  | setIfNotExist key rob _ hrun ih =>
    obtain ⟨hv, hp, hsz⟩ := ih
    obtain ⟨pos, sh, hk, hs, h | h⟩ := Dict.setIfNotExist_inv hrun
    · obtain ⟨_, rfl, _⟩ := h
      exact ⟨Dict.withShard_valid hv _ _,
        Dict.placed_withShard hp hk hs _ (keys_insert_sub _ _ _), hsz⟩
    · obtain ⟨_, rfl, _⟩ := h
      exact ⟨hv, hp, hsz⟩
  | delete key _ hrun ih =>
    obtain ⟨hv, hp, hsz⟩ := ih
    obtain ⟨pos, sh, hk, hs, h | h⟩ := Dict.delete_inv hrun
    · obtain ⟨_, rfl, _⟩ := h
      exact ⟨Dict.withShard_valid hv _ _,
        Dict.placed_withShard hp hk hs _ (keys_erase_sub _ _), hsz⟩
    · obtain ⟨_, rfl, _⟩ := h
      exact ⟨hv, hp, hsz⟩
  | clear _ _ => exact ⟨newDict_valid n, newDict_placed HashKey n, rfl⟩


/-! ### The dictionary: `Keys`, `Len` and `Get` -/

theorem entries_length_keys {V : Type} (mp : AList (fun _ : String => V)) :
    mp.entries.length = mp.keys.length := by
  simp [AList.keys, List.keys]

/-- The two folds of `Keys` and `Len` over shards whose keys sit at the positions
`o, o + 1, …` given by `posf`. -/
theorem keys_fold {V : Type} (posf : String → Nat) :
    ∀ (l : List (shard V)) (o : Nat) (init : List String) (s0 : Int),
      (∀ i sh, l[i]? = some sh → ∀ k, k ∈ sh.mp.keys → posf k = o + i) →
      init.Nodup → (∀ k, k ∈ init → posf k < o) →
      (l.foldl (fun keys shard => keys ++ shard.mp.keys) init).Nodup ∧
      (∀ k, k ∈ l.foldl (fun keys shard => keys ++ shard.mp.keys) init ↔
        k ∈ init ∨ ∃ (i : Nat) (sh : shard V), l[i]? = some sh ∧ k ∈ sh.mp.keys) ∧
      ((l.foldl (fun keys shard => keys ++ shard.mp.keys) init).length : Int) + s0 =
        (init.length : Int) +
          l.foldl (fun sum shard => sum + (shard.mp.entries.length : Int)) s0 := by
  intro l
  induction l with
  | nil =>
    intro o init s0 _ hnd _
    refine ⟨hnd, ?_, rfl⟩
    intro k
    simp
  | cons a rest ih =>
    intro o init s0 hpl hnd hlt
    have ha : ∀ k, k ∈ a.mp.keys → posf k = o := by
      intro k hk
      have := hpl 0 a (by simp) k hk
      omega
    have hnd2 : (init ++ a.mp.keys).Nodup := by
      rw [List.nodup_append]
      refine ⟨hnd, a.mp.keys_nodup, ?_⟩
      intro k h1 h2
      have := hlt k h1
      have := ha k h2
      omega
    have hlt2 : ∀ k, k ∈ init ++ a.mp.keys → posf k < o + 1 := by
      intro k hk
      rcases List.mem_append.mp hk with h | h
      · have := hlt k h; omega
      · have := ha k h; omega
    have hpl2 : ∀ i sh, rest[i]? = some sh → ∀ k, k ∈ sh.mp.keys → posf k = (o + 1) + i := by
      intro i sh hi k hk
      have := hpl (i + 1) sh (by simpa using hi) k hk
      omega
    obtain ⟨h1, h2, h3⟩ :=
      ih (o + 1) (init ++ a.mp.keys) (s0 + (a.mp.entries.length : Int)) hpl2 hnd2 hlt2
    simp only [List.foldl_cons]
    refine ⟨h1, ?_, ?_⟩
    · intro k
      rw [h2 k, List.mem_append]
      constructor
      · rintro ((h | h) | ⟨i, sh, hi, hk⟩)
        · exact Or.inl h
        · exact Or.inr ⟨0, a, by simp, h⟩
        · exact Or.inr ⟨i + 1, sh, by simpa using hi, hk⟩
      · rintro (h | ⟨i, sh, hi, hk⟩)
        · exact Or.inl (Or.inl h)
        · cases i with
          | zero =>
            simp only [List.getElem?_cons_zero, Option.some.injEq] at hi
            rw [← hi] at hk
            exact Or.inl (Or.inr hk)
          | succ j => exact Or.inr ⟨j, sh, by simpa using hi, hk⟩
    · rw [List.length_append, entries_length_keys] at h3
      rw [entries_length_keys]
      push_cast at h3
      linarith

/-- In a dictionary that keeps every key in its shard, `Keys()` has no repetition, holds
exactly the keys stored in some shard, and has `Len()` elements. -/
theorem Dict.keys_stored {V : Type} {HashKey : String → Int} {m : Dict V}
    (hp : m.Placed HashKey) :
    m.Keys.Nodup ∧
    (∀ k, k ∈ m.Keys ↔ ∃ (i : Nat) (sh : shard V), m.dict[i]? = some sh ∧ k ∈ sh.mp.keys) ∧
    (m.Keys.length : Int) = m.Len := by
  obtain ⟨h1, h2, h3⟩ :=
    keys_fold (fun k => ((m.getKeyPos HashKey k).getD 0).toNat) m.dict 0 [] 0
      (by
        intro i sh hi k hk
        show ((m.getKeyPos HashKey k).getD 0).toNat = 0 + i
        rw [hp i sh hi k hk]
        simp)
      List.nodup_nil (by intro k hk; cases hk)
  refine ⟨h1, ?_, ?_⟩
  · intro k
    rw [show m.Keys = m.dict.foldl (fun keys shard => keys ++ shard.mp.keys) [] from rfl, h2 k]
    simp
  · have h3b : ((m.Keys.length : Int)) + 0 = (([] : List String).length : Int) + m.Len := h3
    simpa using h3b

/-- A key is stored in some shard exactly when `Get` finds it. -/
theorem Dict.stored_iff_found {V : Type} [Inhabited V] {HashKey : String → Int} {m : Dict V}
    (hp : m.Placed HashKey) (K : String) :
    (∃ (i : Nat) (sh : shard V), m.dict[i]? = some sh ∧ K ∈ sh.mp.keys) ↔ ∃ v, m.Get HashKey K = some (v, true) := by
  constructor
  · rintro ⟨i, sh, hi, hk⟩
    have hpos := hp i sh hi K hk
    have hs : m.shardAt (i : Int) = some sh := by rw [Dict.shardAt_nat]; exact hi
    rw [Dict.get_eq HashKey hpos hs]
    have hmem : K ∈ sh.mp := AList.mem_keys.mpr hk
    rw [← AList.lookup_isSome] at hmem
    obtain ⟨v, hv⟩ := Option.isSome_iff_exists.mp hmem
    exact ⟨v, by rw [hv]⟩
  · rintro ⟨v, hg⟩
    cases hpos : m.getKeyPos HashKey K with
    | none => unfold Dict.Get at hg; rw [hpos] at hg; cases hg
    | some pos =>
      cases hs : m.shardAt pos with
      | none => unfold Dict.Get at hg; rw [hpos] at hg; simp only [hs] at hg; cases hg
      | some sh =>
        rw [Dict.get_eq HashKey hpos hs] at hg
        obtain ⟨_, _, h2⟩ := Dict.shardAt_some hs
        refine ⟨pos.toNat, sh, h2, ?_⟩
        cases hl : sh.mp.lookup K with
        | none => rw [hl] at hg; simp at hg
        | some w =>
          have : (sh.mp.lookup K).isSome = true := by rw [hl]; rfl
          exact AList.mem_keys.mp (AList.lookup_isSome.mp this)

/-- In a dictionary that keeps every key in its shard, `Keys()` has no repetition, holds
exactly the keys that `Get` finds, and has `Len()` elements. -/
theorem Dict.keys_found {V : Type} [Inhabited V] {HashKey : String → Int} {m : Dict V}
    (hp : m.Placed HashKey) :
    m.Keys.Nodup ∧ (∀ K, K ∈ m.Keys ↔ ∃ v, m.Get HashKey K = some (v, true)) ∧
    (m.Keys.length : Int) = m.Len := by
  obtain ⟨h1, h2, h3⟩ := Dict.keys_stored hp
  exact ⟨h1, fun K => (h2 K).trans (Dict.stored_iff_found hp K), h3⟩

/-- Writing the shard of `K` leaves `Get(K')` as it was when the new map and the old one
agree on `K'`. -/
theorem Dict.get_frame {V : Type} [Inhabited V] {HashKey : String → Int} {m : Dict V}
    {K : String} {pos : Int} {sh : shard V}
    (hk : m.getKeyPos HashKey K = some pos) (hs : m.shardAt pos = some sh)
    (mp : AList (fun _ : String => V)) (K' : String)
    (hl : mp.lookup K' = sh.mp.lookup K') :
    (m.withShard pos mp).Get HashKey K' = m.Get HashKey K' := by
  obtain ⟨h0, h1, h2⟩ := Dict.shardAt_some hs
  cases hpos : m.getKeyPos HashKey K' with
  | none =>
    unfold Dict.Get
    rw [Dict.withShard_pos, hpos]
  | some pos' =>
    by_cases hpp : pos' = pos
    · subst hpp
      rw [Dict.get_withShard hpos h0 h1, Dict.get_eq HashKey hpos hs, hl]
    · have hsame : (m.withShard pos mp).shardAt pos' = m.shardAt pos' := by
        unfold Dict.shardAt
        by_cases hneg : pos' < 0
        · rw [if_pos hneg, if_pos hneg]
        · rw [if_neg hneg, if_neg hneg, Dict.withShard_dict m pos mp h1, if_neg]
          intro h
          apply hpp
          have := Int.toNat_of_nonneg h0
          have := Int.toNat_of_nonneg (show 0 ≤ pos' by omega)
          omega
      unfold Dict.Get
      rw [Dict.withShard_pos, hpos]
      simp only [hsame]


/-! ### The dictionary: the calls return -/

theorem Dict.set_total {V : Type} {HashKey : String → Int} (hh : ∀ k, 0 ≤ HashKey k)
    {m : Dict V} (hv : m.Valid) (K : String) (v : V) :
    ∃ m2 r, m.Set HashKey K v = some (m2, r) ∧ m2.Valid := by
  obtain ⟨pos, sh, hp, hs, _, _⟩ := Dict.pos_spec hh hv K
  refine ⟨m.withShard pos (sh.mp.insert K v), if (sh.mp.lookup K).isSome then 0 else 1, ?_,
    Dict.withShard_valid hv pos (sh.mp.insert K v)⟩
  simp only [Dict.Set, hp, hs]

theorem Dict.setIfExist_total {V : Type} {HashKey : String → Int} (hh : ∀ k, 0 ≤ HashKey k)
    {m : Dict V} (hv : m.Valid) (K : String) (v : V) :
    ∃ m2 r, m.SetIfExist HashKey K v = some (m2, r) ∧ m2.Valid := by
  obtain ⟨pos, sh, hp, hs, _, _⟩ := Dict.pos_spec hh hv K
  cases hl : (sh.mp.lookup K).isSome with
  | true =>
    refine ⟨_, 1, ?_, Dict.withShard_valid hv pos (sh.mp.insert K v)⟩
    simp only [Dict.SetIfExist, hp, hs, hl, if_true]
  | false =>
    refine ⟨_, 0, ?_, hv⟩
    simp only [Dict.SetIfExist, hp, hs, hl, Bool.false_eq_true, if_false]

theorem Dict.setIfNotExist_total {V : Type} {HashKey : String → Int} (hh : ∀ k, 0 ≤ HashKey k)
    {m : Dict V} (hv : m.Valid) (K : String) (v : V) :
    ∃ m2 r, m.SetIfNotExist HashKey K v = some (m2, r) ∧ m2.Valid := by
  obtain ⟨pos, sh, hp, hs, _, _⟩ := Dict.pos_spec hh hv K
  cases hl : (sh.mp.lookup K).isSome with
  | true =>
    refine ⟨_, 0, ?_, hv⟩
    simp only [Dict.SetIfNotExist, hp, hs, hl, if_true]
  | false =>
    refine ⟨_, 1, ?_, Dict.withShard_valid hv pos (sh.mp.insert K v)⟩
    simp only [Dict.SetIfNotExist, hp, hs, hl, Bool.false_eq_true, if_false]

theorem Dict.delete_total {V : Type} {HashKey : String → Int} (hh : ∀ k, 0 ≤ HashKey k)
    {m : Dict V} (hv : m.Valid) (K : String) :
    ∃ m2 r, m.Delete HashKey K = some (m2, r) ∧ m2.Valid := by
  obtain ⟨pos, sh, hp, hs, _, _⟩ := Dict.pos_spec hh hv K
  cases hl : (sh.mp.lookup K).isSome with
  | true =>
    refine ⟨_, 1, ?_, Dict.withShard_valid hv pos (sh.mp.erase K)⟩
    simp only [Dict.Delete, hp, hs, hl, if_true]
  | false =>
    refine ⟨_, 0, ?_, hv⟩
    simp only [Dict.Delete, hp, hs, hl, Bool.false_eq_true, if_false]

/-! ### The dictionary: `Get` after a call -/

theorem Dict.get_set_other {V : Type} [Inhabited V] {HashKey : String → Int} {m m2 : Dict V}
    {K K' : String} {v : V} {r : Int} (hne : K ≠ K')
    (h : m.Set HashKey K v = some (m2, r)) :
    m2.Get HashKey K' = m.Get HashKey K' ∧ m2.dict.length = m.dict.length ∧
      m2.size = m.size := by
  obtain ⟨pos, sh, hk, hs, rfl, _⟩ := Dict.set_inv h
  exact ⟨Dict.get_frame hk hs _ K' (AList.lookup_insert_ne (Ne.symm hne)),
    Dict.withShard_length _ _ _, rfl⟩

theorem Dict.get_setIfExist_other {V : Type} [Inhabited V] {HashKey : String → Int}
    {m m2 : Dict V} {K K' : String} {v : V} {r : Int} (hne : K ≠ K')
    (h : m.SetIfExist HashKey K v = some (m2, r)) :
    m2.Get HashKey K' = m.Get HashKey K' ∧ m2.dict.length = m.dict.length ∧
      m2.size = m.size := by
  obtain ⟨pos, sh, hk, hs, h | h⟩ := Dict.setIfExist_inv h
  · obtain ⟨_, rfl, _⟩ := h
    exact ⟨Dict.get_frame hk hs _ K' (AList.lookup_insert_ne (Ne.symm hne)),
      Dict.withShard_length _ _ _, rfl⟩
  · obtain ⟨_, rfl, _⟩ := h
    exact ⟨rfl, rfl, rfl⟩

theorem Dict.get_setIfNotExist_other {V : Type} [Inhabited V] {HashKey : String → Int}
    {m m2 : Dict V} {K K' : String} {v : V} {r : Int} (hne : K ≠ K')
    (h : m.SetIfNotExist HashKey K v = some (m2, r)) :
    m2.Get HashKey K' = m.Get HashKey K' ∧ m2.dict.length = m.dict.length ∧
      m2.size = m.size := by
  obtain ⟨pos, sh, hk, hs, h | h⟩ := Dict.setIfNotExist_inv h
  · obtain ⟨_, rfl, _⟩ := h
    exact ⟨Dict.get_frame hk hs _ K' (AList.lookup_insert_ne (Ne.symm hne)),
      Dict.withShard_length _ _ _, rfl⟩
  · obtain ⟨_, rfl, _⟩ := h
    exact ⟨rfl, rfl, rfl⟩

theorem Dict.get_delete_other {V : Type} [Inhabited V] {HashKey : String → Int}
    {m m2 : Dict V} {K K' : String} {r : Int} (hne : K ≠ K')
    (h : m.Delete HashKey K = some (m2, r)) :
    m2.Get HashKey K' = m.Get HashKey K' ∧ m2.dict.length = m.dict.length ∧
      m2.size = m.size := by
  obtain ⟨pos, sh, hk, hs, h | h⟩ := Dict.delete_inv h
  · obtain ⟨_, rfl, _⟩ := h
    exact ⟨Dict.get_frame hk hs _ K' (AList.lookup_erase_ne (Ne.symm hne)),
      Dict.withShard_length _ _ _, rfl⟩
  · obtain ⟨_, rfl, _⟩ := h
    exact ⟨rfl, rfl, rfl⟩

theorem Dict.get_set_self {V : Type} [Inhabited V] {HashKey : String → Int} {m m2 : Dict V}
    {K : String} {v : V} {r : Int} (h : m.Set HashKey K v = some (m2, r)) :
    m2.Get HashKey K = some (v, true) := by
  obtain ⟨pos, sh, hk, hs, rfl, _⟩ := Dict.set_inv h
  obtain ⟨h0, h1, _⟩ := Dict.shardAt_some hs
  rw [Dict.get_withShard hk h0 h1, AList.lookup_insert]

theorem Dict.get_delete_self {V : Type} [Inhabited V] {HashKey : String → Int} {m m2 : Dict V}
    {K : String} {r : Int} (h : m.Delete HashKey K = some (m2, r)) :
    m2.Get HashKey K = some (default, false) := by
  obtain ⟨pos, sh, hk, hs, h | h⟩ := Dict.delete_inv h
  · obtain ⟨_, rfl, _⟩ := h
    obtain ⟨h0, h1, _⟩ := Dict.shardAt_some hs
    rw [Dict.get_withShard hk h0 h1, AList.lookup_erase]
  · obtain ⟨hl, rfl, _⟩ := h
    rw [Dict.get_eq HashKey hk hs]
    cases hlk : sh.mp.lookup K with
    | none => rfl
    | some w => rw [hlk] at hl; cases hl

theorem Dict.set_placed {V : Type} {HashKey : String → Int} {m m2 : Dict V}
    {K : String} {v : V} {r : Int} (hp : m.Placed HashKey)
    (h : m.Set HashKey K v = some (m2, r)) : m2.Placed HashKey := by
  obtain ⟨pos, sh, hk, hs, rfl, _⟩ := Dict.set_inv h
  exact Dict.placed_withShard hp hk hs _ (keys_insert_sub _ _ _)

theorem Dict.delete_placed {V : Type} {HashKey : String → Int} {m m2 : Dict V}
    {K : String} {r : Int} (hp : m.Placed HashKey)
    (h : m.Delete HashKey K = some (m2, r)) : m2.Placed HashKey := by
  obtain ⟨pos, sh, hk, hs, h | h⟩ := Dict.delete_inv h
  · obtain ⟨_, rfl, _⟩ := h
    exact Dict.placed_withShard hp hk hs _ (keys_erase_sub _ _)
  · obtain ⟨_, rfl, _⟩ := h
    exact hp

/-! ### The dictionary: `Len` after a call -/

/-- Two lists without repetition, the second with one element more: the lengths. -/
theorem length_of_mem_iff {l l2 : List String} {K : String} (h1 : l.Nodup) (h2 : l2.Nodup)
    (hK : K ∉ l) (hmem : ∀ k, k ∈ l2 ↔ k = K ∨ k ∈ l) : l2.length = l.length + 1 := by
  have hperm : l2.Perm (K :: l) := by
    rw [List.perm_ext_iff_of_nodup h2 (List.nodup_cons.mpr ⟨hK, h1⟩)]
    intro k
    rw [hmem k, List.mem_cons]
  rw [hperm.length_eq, List.length_cons]

theorem Dict.len_set {V : Type} [Inhabited V] {HashKey : String → Int} {m m2 : Dict V}
    {K : String} {v : V} {r : Int} (hp : m.Placed HashKey)
    (h : m.Set HashKey K v = some (m2, r)) (hK : ¬ ∃ w, m.Get HashKey K = some (w, true)) :
    m2.Len = m.Len + 1 := by
  obtain ⟨a1, a2, a3⟩ := Dict.keys_found hp
  obtain ⟨b1, b2, b3⟩ := Dict.keys_found (Dict.set_placed hp h)
  have := length_of_mem_iff (K := K) a1 b1 (fun hm => hK ((a2 K).mp hm)) (by
    intro k
    rw [b2 k, a2 k]
    by_cases hk : k = K
    · subst hk
      exact ⟨fun _ => Or.inl rfl, fun _ => ⟨v, Dict.get_set_self h⟩⟩
    · rw [(Dict.get_set_other (fun e => hk e.symm) h).1]
      exact ⟨fun x => Or.inr x, fun x => x.resolve_left hk⟩)
  rw [← a3, ← b3, this]
  push_cast
  rfl

theorem Dict.len_delete {V : Type} [Inhabited V] {HashKey : String → Int} {m m2 : Dict V}
    {K : String} {r : Int} (hp : m.Placed HashKey)
    (h : m.Delete HashKey K = some (m2, r)) (hK : ∃ w, m.Get HashKey K = some (w, true)) :
    m2.Len = m.Len - 1 := by
  obtain ⟨a1, a2, a3⟩ := Dict.keys_found hp
  obtain ⟨b1, b2, b3⟩ := Dict.keys_found (Dict.delete_placed hp h)
  have hno : K ∉ m2.Keys := by
    intro hm
    obtain ⟨w, hw⟩ := (b2 K).mp hm
    rw [Dict.get_delete_self h] at hw
    cases hw
  have := length_of_mem_iff (K := K) b1 a1 hno (by
    intro k
    rw [b2 k, a2 k]
    by_cases hk : k = K
    · subst hk
      exact ⟨fun _ => Or.inl rfl, fun _ => hK⟩
    · rw [(Dict.get_delete_other (fun e => hk e.symm) h).1]
      exact ⟨fun x => Or.inr x, fun x => x.resolve_left hk⟩)
  rw [← a3, ← b3, this]
  push_cast
  ring

theorem newDict_get {V : Type} [Inhabited V] (HashKey : String → Int) (n : Int) (K : String)
    (v : V) : (NewDict n : Dict V).Get HashKey K ≠ some (v, true) := by
  intro h
  obtain ⟨i, sh, hi, hk⟩ :=
    (Dict.stored_iff_found (newDict_placed HashKey n) K).mpr ⟨v, h⟩
  rw [newDict_shard n i sh hi] at hk
  simp at hk

theorem newDict_keys {V : Type} (n : Int) : (NewDict n : Dict V).Keys = [] := by
  obtain ⟨_, h2, _⟩ := Dict.keys_stored (newDict_placed (V := V) (fun _ => 0) n)
  apply List.eq_nil_iff_forall_not_mem.mpr
  intro k hk
  obtain ⟨i, sh, hi, hk2⟩ := (h2 k).mp hk
  rw [newDict_shard n i sh hi] at hk2
  simp at hk2

theorem newDict_len {V : Type} (n : Int) : (NewDict n : Dict V).Len = 0 := by
  obtain ⟨_, _, h3⟩ := Dict.keys_stored (newDict_placed (V := V) (fun _ => 0) n)
  rw [← h3, newDict_keys]
  rfl

/-- Setting pairwise distinct keys that are not found yet adds their number to `Len()`. -/
theorem Dict.setAll_len {V : Type} [Inhabited V] {HashKey : String → Int} :
    ∀ (kvs : List (String × V)) (m m1 : Dict V), m.Placed HashKey →
      (kvs.map Prod.fst).Nodup →
      (∀ k, k ∈ kvs.map Prod.fst → ¬ ∃ w, m.Get HashKey k = some (w, true)) →
      m.SetAll HashKey kvs = some m1 →
      m1.Placed HashKey ∧ m1.Len = m.Len + (kvs.length : Int) ∧
      ∀ k, (∃ w, m1.Get HashKey k = some (w, true)) ↔
        ((∃ w, m.Get HashKey k = some (w, true)) ∨ k ∈ kvs.map Prod.fst) := by
  intro kvs
  induction kvs with
  | nil =>
    intro m m1 hp _ _ hrun
    simp only [Dict.SetAll, Option.some.injEq] at hrun
    subst hrun
    simp [hp]
  | cons kv rest ih =>
    intro m m1 hp hnd hnew hrun
    rw [List.map_cons, List.nodup_cons] at hnd
    cases hset : m.Set HashKey kv.1 kv.2 with
    | none => simp only [Dict.SetAll, hset] at hrun; cases hrun
    | some p =>
      obtain ⟨m2, r⟩ := p
      simp only [Dict.SetAll, hset] at hrun
      have hp2 := Dict.set_placed hp hset
      have hlen := Dict.len_set hp hset (hnew kv.1 (by simp))
      have hnew2 : ∀ k, k ∈ rest.map Prod.fst → ¬ ∃ w, m2.Get HashKey k = some (w, true) := by
        intro k hk
        have hne : kv.1 ≠ k := fun e => hnd.1 (e ▸ hk)
        rw [(Dict.get_set_other hne hset).1]
        exact hnew k (by simp only [List.map_cons, List.mem_cons]; exact Or.inr hk)
      obtain ⟨c1, c2, c3⟩ := ih m2 m1 hp2 hnd.2 hnew2 hrun
      refine ⟨c1, ?_, ?_⟩
      · rw [c2, hlen, List.length_cons]
        push_cast
        ring
      · intro k
        rw [c3 k, List.map_cons, List.mem_cons]
        by_cases hk : k = kv.1
        · subst hk
          exact ⟨fun _ => Or.inr (Or.inl rfl), fun _ => Or.inl ⟨kv.2, Dict.get_set_self hset⟩⟩
        · rw [(Dict.get_set_other (fun e => hk e.symm) hset).1]
          constructor
          · rintro (h | h)
            · exact Or.inl h
            · exact Or.inr (Or.inr h)
          · rintro (h | h | h)
            · exact Or.inl h
            · exact absurd h hk
            · exact Or.inr h

/-- Deleting pairwise distinct keys that are found takes their number from `Len()`. -/
theorem Dict.deleteAll_len {V : Type} [Inhabited V] {HashKey : String → Int} :
    ∀ (ks : List String) (m m2 : Dict V), m.Placed HashKey → ks.Nodup →
      (∀ k, k ∈ ks → ∃ w, m.Get HashKey k = some (w, true)) →
      m.DeleteAll HashKey ks = some m2 →
      m2.Len = m.Len - (ks.length : Int) := by
  intro ks
  induction ks with
  | nil =>
    intro m m2 _ _ _ hrun
    simp only [Dict.DeleteAll, Option.some.injEq] at hrun
    subst hrun
    simp
  | cons k rest ih =>
    intro m m2 hp hnd hfound hrun
    rw [List.nodup_cons] at hnd
    cases hdel : m.Delete HashKey k with
    | none => simp only [Dict.DeleteAll, hdel] at hrun; cases hrun
    | some p =>
      obtain ⟨m1, r⟩ := p
      simp only [Dict.DeleteAll, hdel] at hrun
      have hlen := Dict.len_delete hp hdel (hfound k (by simp))
      have hfound2 : ∀ j, j ∈ rest → ∃ w, m1.Get HashKey j = some (w, true) := by
        intro j hj
        have hne : k ≠ j := fun e => hnd.1 (e ▸ hj)
        rw [(Dict.get_delete_other hne hdel).1]
        exact hfound j (List.mem_cons_of_mem _ hj)
      rw [ih m1 m2 (Dict.delete_placed hp hdel) hnd.2 hfound2 hrun, hlen, List.length_cons]
      push_cast
      ring

theorem Dict.setAll_total {V : Type} {HashKey : String → Int} (hh : ∀ k, 0 ≤ HashKey k) :
    ∀ (kvs : List (String × V)) (m : Dict V), m.Valid →
      ∃ m1, m.SetAll HashKey kvs = some m1 ∧ m1.Valid := by
  intro kvs
  induction kvs with
  | nil => intro m hv; exact ⟨m, rfl, hv⟩
  | cons kv rest ih =>
    intro m hv
    obtain ⟨m2, r, hset, hv2⟩ := Dict.set_total hh hv kv.1 kv.2
    obtain ⟨m1, hrun, hv1⟩ := ih m2 hv2
    exact ⟨m1, by simp only [Dict.SetAll, hset]; exact hrun, hv1⟩

theorem Dict.deleteAll_total {V : Type} {HashKey : String → Int} (hh : ∀ k, 0 ≤ HashKey k) :
    ∀ (ks : List String) (m : Dict V), m.Valid →
      ∃ m2, m.DeleteAll HashKey ks = some m2 ∧ m2.Valid := by
  intro ks
  induction ks with
  | nil => intro m hv; exact ⟨m, rfl, hv⟩
  | cons k rest ih =>
    intro m hv
    obtain ⟨m1, r, hdel, hv1⟩ := Dict.delete_total hh hv k
    obtain ⟨m2, hrun, hv2⟩ := ih m1 hv1
    exact ⟨m2, by simp only [Dict.DeleteAll, hdel]; exact hrun, hv2⟩

theorem Dict.setAll_valid {V : Type} {HashKey : String → Int} :
    ∀ (kvs : List (String × V)) (m m1 : Dict V), m.Valid →
      m.SetAll HashKey kvs = some m1 → m1.Valid := by
  intro kvs
  induction kvs with
  | nil =>
    intro m m1 hv hrun
    simp only [Dict.SetAll, Option.some.injEq] at hrun
    exact hrun ▸ hv
  | cons kv rest ih =>
    intro m m1 hv hrun
    cases hset : m.Set HashKey kv.1 kv.2 with
    | none => simp only [Dict.SetAll, hset] at hrun; cases hrun
    | some p =>
      obtain ⟨m2, r⟩ := p
      simp only [Dict.SetAll, hset] at hrun
      obtain ⟨pos, sh, _, _, rfl, _⟩ := Dict.set_inv hset
      exact ih _ m1 (Dict.withShard_valid hv _ _) hrun

theorem dictOne_run : (NewDict 16 : Dict Nat).Set lengthHash "a" 1 = some (dictOne, 1) := rfl

theorem dictOne_reach : DictReach lengthHash 16 dictOne :=
  DictReach.set "a" 1 DictReach.new dictOne_run

/-- C11: in every dictionary reachable from `NewDict()` by `Set`, `SetIfExist`,
`SetIfNotExist`, `Delete` and `Clear`, `Len()` is the number of keys that `Get` finds; and
`Set` calls with `N` pairwise distinct keys on a new dictionary return (for a hash function
without negative values) and leave `Len() = N`, and `Delete` of `M` distinct keys among them
then returns and leaves `Len() = N - M`. -/
theorem len_counts_found {V : Type} [Inhabited V] (HashKey : String → Int) (ShardNum : Int)
    (m : Dict V) (h : DictReach HashKey ShardNum m) :
    (∃ s : Finset String, (∀ K, K ∈ s ↔ ∃ v, m.Get HashKey K = some (v, true)) ∧
      m.Len = (s.card : Int)) ∧
    ∀ kvs : List (String × V), (kvs.map Prod.fst).Nodup →
      ((∀ k, 0 ≤ HashKey k) →
        ∃ m1, (NewDict ShardNum : Dict V).SetAll HashKey kvs = some m1) ∧
      ∀ m1, (NewDict ShardNum : Dict V).SetAll HashKey kvs = some m1 →
        m1.Len = (kvs.length : Int) ∧
        ∀ ks : List String, ks.Nodup → (∀ k, k ∈ ks → k ∈ kvs.map Prod.fst) →
          ((∀ k, 0 ≤ HashKey k) → ∃ m2, m1.DeleteAll HashKey ks = some m2) ∧
          ∀ m2, m1.DeleteAll HashKey ks = some m2 →
            m2.Len = (kvs.length : Int) - (ks.length : Int) := by
  constructor
  · obtain ⟨_, hp, _⟩ := dictReach_inv h
    obtain ⟨a1, a2, a3⟩ := Dict.keys_found hp
    refine ⟨m.Keys.toFinset, ?_, ?_⟩
    · intro K
      rw [List.mem_toFinset]
      exact a2 K
    · rw [List.toFinset_card_of_nodup a1]
      exact a3.symm
  · intro kvs hnd
    refine ⟨fun hh => ?_, ?_⟩
    · obtain ⟨m1, hrun, _⟩ := Dict.setAll_total hh kvs (NewDict ShardNum) (newDict_valid _)
      exact ⟨m1, hrun⟩
    · intro m1 hrun
      obtain ⟨hp1, hlen, hfound⟩ :=
        Dict.setAll_len kvs (NewDict ShardNum) m1 (newDict_placed HashKey ShardNum) hnd
          (fun k _ ⟨w, hw⟩ => newDict_get HashKey ShardNum k w hw) hrun
      have hv1 := Dict.setAll_valid kvs (NewDict ShardNum) m1 (newDict_valid _) hrun
      rw [newDict_len, zero_add] at hlen
      refine ⟨hlen, ?_⟩
      intro ks hks hsub
      refine ⟨fun hh => ?_, ?_⟩
      · obtain ⟨m2, hdel, _⟩ := Dict.deleteAll_total hh ks m1 hv1
        exact ⟨m2, hdel⟩
      · intro m2 hdel
        rw [Dict.deleteAll_len ks m1 m2 hp1 hks
          (fun k hk => (hfound k).mpr (Or.inr (hsub k hk))) hdel, hlen]

/-- Witness for C11: the sample dictionary; two `Set` calls and one `Delete` on a new one. -/
theorem len_counts_found_witness :
    DictReach lengthHash 16 dictOne ∧
    (∃ s : Finset String, (∀ K, K ∈ s ↔ ∃ v, dictOne.Get lengthHash K = some (v, true)) ∧
      dictOne.Len = (s.card : Int)) ∧
    ∃ m1, (NewDict 16 : Dict Nat).SetAll lengthHash [("a", 1), ("bb", 2)] = some m1 ∧
      m1.Len = 2 ∧ ∃ m2, m1.DeleteAll lengthHash ["bb"] = some m2 ∧ m2.Len = 2 - 1 := by
  have h := len_counts_found lengthHash 16 dictOne dictOne_reach
  refine ⟨dictOne_reach, h.1, ?_⟩
  obtain ⟨t1, t2⟩ := h.2 [("a", 1), ("bb", 2)] (by decide)
  obtain ⟨m1, hrun⟩ := t1 lengthHash_nonneg
  obtain ⟨hlen, hrest⟩ := t2 m1 hrun
  obtain ⟨d1, d2⟩ := hrest ["bb"] (by decide) (by decide)
  obtain ⟨m2, hdel⟩ := d1 lengthHash_nonneg
  exact ⟨m1, hrun, hlen, m2, hdel, d2 m2 hdel⟩

/-- C12: for every configured shard number `n`, `NewDict` builds a dictionary whose number
of shards lies in `[16, 2048]`, is `n` when `16 ≤ n ≤ 2048` and 128 otherwise; every shard
is empty, `Len()` is 0, and `size` is the number of shards. -/
theorem newDict_spec {V : Type} (n : Int) :
    16 ≤ (NewDict n : Dict V).dict.length ∧ (NewDict n : Dict V).dict.length ≤ 2048 ∧
    ((NewDict n : Dict V).dict.length : Int) = (if 16 ≤ n ∧ n ≤ 2048 then n else 128) ∧
    (∀ sh, sh ∈ (NewDict n : Dict V).dict → sh.mp = ∅) ∧
    (NewDict n : Dict V).Len = 0 ∧
    (NewDict n : Dict V).size = ((NewDict n : Dict V).dict.length : Int) := by
  have hr := newDict_range (V := V) n
  have hv := newDict_valid (V := V) n
  have hs := newDict_size (V := V) n
  obtain ⟨hsz, _⟩ := hv
  refine ⟨by omega, by omega, ?_, ?_, newDict_len n, hsz⟩
  · rw [← hsz, hs]
    by_cases h : n < 16 ∨ n > 2048
    · rw [if_pos h, if_neg (by omega)]
    · rw [if_neg h, if_pos (by omega)]
  · intro sh hsh
    rw [newDict_dict] at hsh
    rw [List.eq_of_mem_replicate hsh]

/-- Witness for C12: the shard numbers 0, -5, 16, 2048 and 2049. -/
theorem newDict_spec_witness :
    (NewDict 0 : Dict Nat).dict.length = 128 ∧ (NewDict (-5) : Dict Nat).dict.length = 128 ∧
    (NewDict 16 : Dict Nat).dict.length = 16 ∧ (NewDict 2048 : Dict Nat).dict.length = 2048 ∧
    (NewDict 2049 : Dict Nat).dict.length = 128 ∧ (NewDict 0 : Dict Nat).Len = 0 := by
  have h0 := (newDict_spec (V := Nat) 0).2.2.1
  have h1 := (newDict_spec (V := Nat) (-5)).2.2.1
  have h2 := (newDict_spec (V := Nat) 16).2.2.1
  have h3 := (newDict_spec (V := Nat) 2048).2.2.1
  have h4 := (newDict_spec (V := Nat) 2049).2.2.1
  have h5 := (newDict_spec (V := Nat) 0).2.2.2.2.1
  norm_num at h0 h1 h2 h3 h4
  exact ⟨by exact_mod_cast h0, by exact_mod_cast h1, by exact_mod_cast h2,
    by exact_mod_cast h3, by exact_mod_cast h4, h5⟩

/-- C13: after `Clear()`, `Len()` is 0, `Get(K)` finds no key (and reports "not found"
whenever the hash of `K` is not negative), and a dictionary reachable from `NewDict()` under
the same configured shard number keeps its number of shards. -/
theorem clear_spec {V : Type} [Inhabited V] (HashKey : String → Int) (ShardNum : Int)
    (m : Dict V) :
    (m.Clear ShardNum).Len = 0 ∧
    (∀ K v, (m.Clear ShardNum).Get HashKey K ≠ some (v, true)) ∧
    (∀ K, 0 ≤ HashKey K → (m.Clear ShardNum).Get HashKey K = some (default, false)) ∧
    (DictReach HashKey ShardNum m →
      (m.Clear ShardNum).dict.length = m.dict.length ∧ (m.Clear ShardNum).size = m.size) := by
  refine ⟨newDict_len ShardNum, fun K v => newDict_get HashKey ShardNum K v, ?_, ?_⟩
  · intro K hK
    have hv := newDict_valid (V := V) ShardNum
    obtain ⟨hsize, hpos⟩ := hv
    have h0 : 0 ≤ Int.tmod (HashKey K) (NewDict ShardNum : Dict V).size :=
      Int.tmod_nonneg _ hK
    have h1 : Int.tmod (HashKey K) (NewDict ShardNum : Dict V).size <
        (NewDict ShardNum : Dict V).size := Int.tmod_lt_of_pos _ hpos
    have h2 : (Int.tmod (HashKey K) (NewDict ShardNum : Dict V).size).toNat <
        (NewDict ShardNum : Dict V).dict.length := by
      rw [Int.toNat_lt h0, ← hsize]; exact h1
    have hp : (NewDict ShardNum : Dict V).getKeyPos HashKey K =
        some (Int.tmod (HashKey K) (NewDict ShardNum : Dict V).size) := by
      unfold Dict.getKeyPos
      rw [if_neg (by omega)]
    have hs : (NewDict ShardNum : Dict V).shardAt
        (Int.tmod (HashKey K) (NewDict ShardNum : Dict V).size) = some { mp := ∅ } := by
      unfold Dict.shardAt
      rw [if_neg (by omega)]
      obtain ⟨sh, hsh⟩ : ∃ sh, (NewDict ShardNum : Dict V).dict[(Int.tmod (HashKey K)
          (NewDict ShardNum : Dict V).size).toNat]? = some sh :=
        ⟨_, List.getElem?_eq_getElem h2⟩
      rw [hsh, newDict_shard ShardNum _ sh hsh]
    show (NewDict ShardNum : Dict V).Get HashKey K = some (default, false)
    rw [Dict.get_eq HashKey hp hs]
    rfl
  · intro hr
    obtain ⟨hv, _, hsz⟩ := dictReach_inv hr
    have hv2 := newDict_valid (V := V) ShardNum
    refine ⟨?_, hsz.symm⟩
    have e1 := hv.1
    have e2 := hv2.1
    show (NewDict ShardNum : Dict V).dict.length = m.dict.length
    omega

/-- Witness for C13: `Clear()` on the sample dictionary. -/
theorem clear_spec_witness :
    (dictOne.Clear 16).Len = 0 ∧ (dictOne.Clear 16).Get lengthHash "a" = some (0, false) ∧
    (dictOne.Clear 16).dict.length = dictOne.dict.length := by
  have h := clear_spec lengthHash 16 dictOne
  exact ⟨h.1, h.2.2.1 "a" (lengthHash_nonneg _), (h.2.2.2 dictOne_reach).1⟩

/-- C14: in every dictionary reachable from `NewDict()` by `Set`, `SetIfExist`,
`SetIfNotExist`, `Delete` and `Clear`, `Keys()` holds every key that `Get` finds exactly
once and no other string, and its length is `Len()`. -/
theorem keys_spec {V : Type} [Inhabited V] (HashKey : String → Int) (ShardNum : Int)
    (m : Dict V) (h : DictReach HashKey ShardNum m) :
    (∀ K v, m.Get HashKey K = some (v, true) → m.Keys.count K = 1) ∧
    (∀ K, K ∈ m.Keys → ∃ v, m.Get HashKey K = some (v, true)) ∧
    m.Keys.Nodup ∧ (m.Keys.length : Int) = m.Len := by
  obtain ⟨_, hp, _⟩ := dictReach_inv h
  obtain ⟨a1, a2, a3⟩ := Dict.keys_found hp
  refine ⟨?_, fun K hK => (a2 K).mp hK, a1, a3⟩
  intro K v hg
  exact List.count_eq_one_of_mem a1 ((a2 K).mpr ⟨v, hg⟩)

/-- Witness for C14: the sample dictionary, whose only key is `"a"`. -/
theorem keys_spec_witness :
    DictReach lengthHash 16 dictOne ∧ dictOne.Get lengthHash "a" = some (1, true) ∧
    dictOne.Keys.count "a" = 1 ∧ (dictOne.Keys.length : Int) = dictOne.Len :=
  ⟨dictOne_reach, rfl,
    (keys_spec lengthHash 16 dictOne dictOne_reach).1 "a" 1 rfl,
    (keys_spec lengthHash 16 dictOne dictOne_reach).2.2.2⟩

/-- C15: for a hash function without negative values and a dictionary reachable from
`NewDict()`, `getKeyPos(K)` is `hash(K) mod size`, lies in `[0, size)` and below the number
of shards (the shard lookup succeeds), is the same in every dictionary of that size, and a
shard that stores `K` is the shard at index `getKeyPos(K)`. -/
theorem placement_invariant {V : Type} (HashKey : String → Int) (ShardNum : Int)
    (m : Dict V) (K : String) (hh : ∀ k, 0 ≤ HashKey k) (h : DictReach HashKey ShardNum m) :
    ∃ pos, m.getKeyPos HashKey K = some pos ∧ pos = HashKey K % m.size ∧
      0 ≤ pos ∧ pos < m.size ∧ m.size = (m.dict.length : Int) ∧
      (∃ sh, m.shardAt pos = some sh) ∧
      (∀ m2 : Dict V, m2.size = m.size → m2.getKeyPos HashKey K = some pos) ∧
      (∀ (i : Nat) (sh : shard V), m.dict[i]? = some sh → K ∈ sh.mp.keys → (i : Int) = pos) := by
  obtain ⟨hv, hp, _⟩ := dictReach_inv h
  obtain ⟨pos, sh, hpos, hs, h0, h1⟩ := Dict.pos_spec hh hv K
  have hdef : pos = Int.tmod (HashKey K) m.size := by
    unfold Dict.getKeyPos at hpos
    rw [if_neg (by have := hv.2; omega)] at hpos
    exact (Option.some.inj hpos).symm
  refine ⟨pos, hpos, ?_, h0, ?_, hv.1, ⟨sh, hs⟩, ?_, ?_⟩
  · rw [hdef, Int.tmod_eq_emod (hh K) (le_of_lt hv.2)]
  · rw [hdef]; exact Int.tmod_lt_of_pos _ hv.2
  · intro m2 hsz
    unfold Dict.getKeyPos
    rw [hsz, if_neg (by have := hv.2; omega), hdef]
  · intro i sh2 hi hk
    have := hp i sh2 hi K hk
    rw [hpos] at this
    exact (Option.some.inj this).symm

/-- Witness for C15: the key `"a"` of the sample dictionary sits in shard 1. -/
theorem placement_invariant_witness :
    (∀ k, 0 ≤ lengthHash k) ∧ DictReach lengthHash 16 dictOne ∧
    ∃ pos, dictOne.getKeyPos lengthHash "a" = some pos ∧ pos = lengthHash "a" % dictOne.size ∧
      0 ≤ pos ∧ pos < dictOne.size ∧ dictOne.size = (dictOne.dict.length : Int) ∧
      (∃ sh, dictOne.shardAt pos = some sh) ∧
      (∀ m2 : Dict Nat, m2.size = dictOne.size → m2.getKeyPos lengthHash "a" = some pos) ∧
      (∀ (i : Nat) (sh : shard Nat), dictOne.dict[i]? = some sh → "a" ∈ sh.mp.keys →
        (i : Int) = pos) :=
  ⟨lengthHash_nonneg, dictOne_reach,
    placement_invariant lengthHash 16 dictOne "a" lengthHash_nonneg dictOne_reach⟩

/-- C19: for two distinct keys `K` and `K'`, each of `Set(K, V)`, `SetIfExist(K, V)`,
`SetIfNotExist(K, V)` and `Delete(K)` that returns leaves `Get(K')`, the number of shards
and `size` as they were; and in a valid dictionary, with a hash function without negative
values, each of them returns. -/
theorem frame_property {V : Type} [Inhabited V] (HashKey : String → Int) (m : Dict V)
    (K K' : String) (v : V) (hne : K ≠ K') :
    (∀ m2 r, m.Set HashKey K v = some (m2, r) →
      m2.Get HashKey K' = m.Get HashKey K' ∧ m2.dict.length = m.dict.length ∧
        m2.size = m.size) ∧
    (∀ m2 r, m.SetIfExist HashKey K v = some (m2, r) →
      m2.Get HashKey K' = m.Get HashKey K' ∧ m2.dict.length = m.dict.length ∧
        m2.size = m.size) ∧
    (∀ m2 r, m.SetIfNotExist HashKey K v = some (m2, r) →
      m2.Get HashKey K' = m.Get HashKey K' ∧ m2.dict.length = m.dict.length ∧
        m2.size = m.size) ∧
    (∀ m2 r, m.Delete HashKey K = some (m2, r) →
      m2.Get HashKey K' = m.Get HashKey K' ∧ m2.dict.length = m.dict.length ∧
        m2.size = m.size) ∧
    ((∀ k, 0 ≤ HashKey k) → m.Valid →
      (∃ m2 r, m.Set HashKey K v = some (m2, r)) ∧
      (∃ m2 r, m.SetIfExist HashKey K v = some (m2, r)) ∧
      (∃ m2 r, m.SetIfNotExist HashKey K v = some (m2, r)) ∧
      (∃ m2 r, m.Delete HashKey K = some (m2, r))) := by
  refine ⟨fun m2 r h => Dict.get_set_other hne h,
    fun m2 r h => Dict.get_setIfExist_other hne h,
    fun m2 r h => Dict.get_setIfNotExist_other hne h,
    fun m2 r h => Dict.get_delete_other hne h, ?_⟩
  intro hh hv
  obtain ⟨a, b, h1, _⟩ := Dict.set_total hh hv K v
  obtain ⟨c, d, h2, _⟩ := Dict.setIfExist_total hh hv K v
  obtain ⟨e, f, h3, _⟩ := Dict.setIfNotExist_total hh hv K v
  obtain ⟨g, i, h4, _⟩ := Dict.delete_total hh hv K
  exact ⟨⟨a, b, h1⟩, ⟨c, d, h2⟩, ⟨e, f, h3⟩, ⟨g, i, h4⟩⟩

/-- Witness for C19: `Delete("a")` and `Set("q", 7)` on the sample dictionary leave
`Get("a")`, resp. `Get("b")` (same shard as `"a"`), as they were. -/
theorem frame_property_witness :
    "b" ≠ "a" ∧ "q" ≠ "a" ∧
    (∃ m2 r, dictOne.Delete lengthHash "b" = some (m2, r) ∧
      m2.Get lengthHash "a" = some (1, true) ∧ m2.dict.length = 16) ∧
    (∃ m2 r, dictOne.Set lengthHash "q" 7 = some (m2, r) ∧
      m2.Get lengthHash "a" = some (1, true) ∧ m2.dict.length = 16) := by
  have hb : "b" ≠ "a" := by decide
  have hq : "q" ≠ "a" := by decide
  have h1 := frame_property lengthHash dictOne "b" "a" 0 hb
  have h2 := frame_property lengthHash dictOne "q" "a" 7 hq
  have ⟨m2, r, hrun⟩ := (h1.2.2.2.2 lengthHash_nonneg dictOne_valid).2.2.2
  obtain ⟨⟨m3, r3, hrun3⟩, _⟩ := h2.2.2.2.2 lengthHash_nonneg dictOne_valid
  obtain ⟨g1, g2, _⟩ := h1.2.2.2.1 m2 r hrun
  obtain ⟨g3, g4, _⟩ := h2.1 m3 r3 hrun3
  exact ⟨hb, hq, ⟨m2, r, hrun, g1, g2⟩, ⟨m3, r3, hrun3, g3, g4⟩⟩

/-! ## The skip list as a whole -/

/-! ### Later calls -/

/-- What later `Insert` and `Delete` calls keep: the invariant, the nodes allocated so far
with their pairs and numbers of levels, and the NaN nodes on the chain. -/
theorem reachableFrom_inv {skl0 skl : SkipList} {L0 : List Nat} (hI : Inv skl0 L0)
    (h : ReachableFrom skl0 skl) :
    ∃ L, Inv skl L ∧ skl0.next ≤ skl.next ∧
      (∀ b, b < skl0.next → keyAt skl.mem b = keyAt skl0.mem b ∧
        nlev skl.mem b = nlev skl0.mem b) ∧
      (∀ x, x ∈ L0 → (keyAt skl0.mem x).1 = Float64.nan → x ∈ L) := by
  induction h with
  | refl => exact ⟨L0, hI, le_refl _, fun b _ => ⟨rfl, rfl⟩, fun x hx _ => hx⟩
  | insert score val draws _ hrun ih =>
    obtain ⟨L, hIL, hnext, hsame, hnan⟩ := ih
    obtain ⟨level, hd⟩ := insert_some_level hrun
    obtain ⟨skl3, passed, R, hL, hrun2, hI2, hold, _, _, _, _, _, _, hnx, _⟩ :=
      insert_inv hIL score val draws hd
    rw [hrun] at hrun2
    simp only [Option.some.injEq, Prod.mk.injEq] at hrun2
    obtain ⟨rfl, _⟩ := hrun2
    refine ⟨_, hI2, by omega, ?_, ?_⟩
    · intro b hb
      obtain ⟨h1, h2⟩ := hold b (by omega)
      obtain ⟨h3, h4⟩ := hsame b hb
      exact ⟨h1.trans h3, h2.trans h4⟩
    · intro x hx hn
      have := hnan x hx hn
      rw [hL] at this
      rcases List.mem_append.mp this with h | h
      · exact List.mem_append_left _ h
      · exact List.mem_append_right _ (List.mem_cons_of_mem _ h)
  | @delete skl1 skl2 r score val _ hrun ih =>
    obtain ⟨L, hIL, hnext, hsame, hnan⟩ := ih
    obtain ⟨passed, R, hL, _, _, hnil, hmiss, hhit⟩ := delete_cases hIL score val
    cases R with
    | nil =>
      rw [hnil rfl] at hrun
      simp only [Option.some.injEq, Prod.mk.injEq] at hrun
      obtain ⟨rfl, _⟩ := hrun
      exact ⟨L, hIL, hnext, hsame, hnan⟩
    | cons x R2 =>
      cases hk : keyEq (score, val) (keyAt skl1.mem x) with
      | false =>
        rw [hmiss x R2 rfl hk] at hrun
        simp only [Option.some.injEq, Prod.mk.injEq] at hrun
        obtain ⟨rfl, _⟩ := hrun
        exact ⟨L, hIL, hnext, hsame, hnan⟩
      | true =>
        obtain ⟨skl3, hrun2, hI2, hkey, hnl, _, hnx, _, _⟩ := hhit x R2 rfl hk
        rw [hrun] at hrun2
        simp only [Option.some.injEq, Prod.mk.injEq] at hrun2
        obtain ⟨rfl, _⟩ := hrun2
        refine ⟨_, hI2, by omega, ?_, ?_⟩
        · intro b hb
          obtain ⟨h3, h4⟩ := hsame b hb
          rw [hkey, hnl]
          exact ⟨h3, h4⟩
        · intro y hy hn
          have hyL := hnan y hy hn
          have hylt : y < skl0.next := hI.alloc y (List.mem_cons_of_mem _ hy)
          have hky := (hsame y hylt).1
          have hne : y ≠ x := by
            intro e
            subst e
            have := (keyEq_eq hk).1
            have h2 := (keyEq_eq hk).2
            rw [← this] at hky
            rw [← hky] at hn
            exact h2 hn
          rw [hL] at hyL
          rcases List.mem_append.mp hyL with h | h
          · exact List.mem_append_left _ h
          · rcases List.mem_cons.mp h with h | h
            · exact absurd h hne
            · exact List.mem_append_right _ h

/-! ### The level draw -/

theorem specDraw_lt (v : Nat) : specDraw v < 0.25 ↔ drawPasses v = true := by
  unfold specDraw drawPasses
  rw [decide_eq_true_eq, div_lt_iff₀ (by norm_num)]
  constructor
  · intro h
    have h2 : (4 : ℚ) * ((v &&& 0xFFFF : Nat) : ℚ) < 0xFFFF := by linarith
    exact_mod_cast h2
  · intro h
    have h2 : (4 : ℚ) * ((v &&& 0xFFFF : Nat) : ℚ) < 0xFFFF := by exact_mod_cast h
    linarith

theorem sklRandomLoop_passes (pre : List Nat) (v : Nat) (rest : List Nat)
    (hpre : ∀ u, u ∈ pre → drawPasses u = true) (hv : drawPasses v = false) :
    ∀ l, sklRandomLoop (pre ++ v :: rest) l = some (l + pre.length) := by
  induction pre with
  | nil => intro l; simp [sklRandomLoop, hv]
  | cons u pre ih =>
    intro l
    have hu := hpre u (List.mem_cons_self _ _)
    rw [List.cons_append]
    simp only [sklRandomLoop, hu, if_true]
    rw [ih (fun w hw => hpre w (List.mem_cons_of_mem _ hw)) (l + 1), List.length_cons]
    congr 1
    omega

theorem specRandomLoop_passes (pre : List Nat) (v : Nat) (rest : List Nat)
    (hpre : ∀ u, u ∈ pre → drawPasses u = true) (hv : drawPasses v = false) :
    ∀ l, l ≤ 32 → specRandomLoop (pre ++ v :: rest) l = some (min 32 (l + pre.length)) := by
  induction pre with
  | nil =>
    intro l hl
    have hno : ¬ specDraw v < 0.25 := by rw [specDraw_lt, hv]; simp
    simp only [List.nil_append, specRandomLoop, hno, false_and, if_false, List.length_nil]
    congr 1
    omega
  | cons u pre ih =>
    intro l hl
    have hu : specDraw u < 0.25 := (specDraw_lt u).mpr (hpre u (List.mem_cons_self _ _))
    rw [List.cons_append]
    by_cases hl32 : l < 32
    · simp only [specRandomLoop, hu, hl32, and_self, if_true]
      rw [ih (fun w hw => hpre w (List.mem_cons_of_mem _ hw)) (l + 1) (by omega),
        List.length_cons]
      congr 2
      omega
    · simp only [specRandomLoop, hl32, and_false, if_false, List.length_cons]
      congr 1
      omega

theorem sklRandomLevel_passes (pre : List Nat) (v : Nat) (rest : List Nat)
    (hpre : ∀ u, u ∈ pre → drawPasses u = true) (hv : drawPasses v = false) :
    sklRandomLevel (pre ++ v :: rest) = some (min 32 (1 + pre.length)) := by
  unfold sklRandomLevel
  rw [sklRandomLoop_passes pre v rest hpre hv 1]
  simp only [sklMaxLevel]
  by_cases h : 1 + pre.length > 32
  · rw [if_pos h]; congr 1; omega
  · rw [if_neg h]; congr 1; omega

theorem sklOne_reachable : Reachable sklOne :=
  ReachableBy.insert (.num 5) "b" [65535] ReachableBy.new trivial sklOne_run

theorem sklTwo_reachable : Reachable sklTwo :=
  ReachableBy.insert (.num 5) "a" [0, 65535] sklOne_reachable trivial sklTwo_run

theorem draws_split : ∀ draws : List Nat, (∃ v, v ∈ draws ∧ drawPasses v = false) →
    ∃ v rest, draws = draws.takeWhile drawPasses ++ v :: rest ∧ drawPasses v = false := by
  intro draws
  induction draws with
  | nil => rintro ⟨v, hv, _⟩; cases hv
  | cons u t ih =>
    intro h
    cases hu : drawPasses u with
    | false => exact ⟨u, t, by simp [List.takeWhile, hu], hu⟩
    | true =>
      obtain ⟨v, hv, hf⟩ := h
      have hvt : v ∈ t := by
        rcases List.mem_cons.mp hv with e | e
        · rw [e, hu] at hf; cases hf
        · exact e
      obtain ⟨w, rest, hsplit, hw⟩ := ih ⟨v, hvt, hf⟩
      refine ⟨w, rest, ?_, hw⟩
      simp only [List.takeWhile, hu, List.cons_append]
      rw [← hsplit]

/-- C16: when the draws hold a failing one, `sklRandomLevel` returns `min(32, 1 + k)` for
the number `k` of passing draws before the first failing one; the result lies in `[1, 32]`
and is what the loop of the specification returns on the same draws; `Insert` on a
reachable list then returns, its new node has that many levels, and keeps that number in
every list reachable by later calls. -/
theorem random_level_spec (draws : List Nat)
    (hfail : ∃ v, v ∈ draws ∧ drawPasses v = false) :
    sklRandomLevel draws = some (min 32 (1 + (draws.takeWhile drawPasses).length)) ∧
    1 ≤ min 32 (1 + (draws.takeWhile drawPasses).length) ∧
    min 32 (1 + (draws.takeWhile drawPasses).length) ≤ 32 ∧
    specRandomLevel draws = sklRandomLevel draws ∧
    ∀ skl, Reachable skl → ∀ (score : Float64) (val : String),
      ∃ skl2 x, skl.Insert score val draws = some (skl2, x) ∧
        nlev skl2.mem x = min 32 (1 + (draws.takeWhile drawPasses).length) ∧
        ∀ skl3, ReachableFrom skl2 skl3 →
          nlev skl3.mem x = min 32 (1 + (draws.takeWhile drawPasses).length) := by
  obtain ⟨v, rest, hsplit, hv⟩ := draws_split draws hfail
  have hpre : ∀ u, u ∈ draws.takeWhile drawPasses → drawPasses u = true :=
    fun u hu => List.mem_takeWhile_imp hu
  have hd : sklRandomLevel draws =
      some (min 32 (1 + (draws.takeWhile drawPasses).length)) := by
    have := sklRandomLevel_passes _ v rest hpre hv
    rw [← hsplit] at this
    exact this
  refine ⟨hd, by omega, by omega, ?_, ?_⟩
  · rw [hd]
    have := specRandomLoop_passes _ v rest hpre hv 1 (by omega)
    rw [← hsplit] at this
    exact this
  · intro skl hr score val
    obtain ⟨L, hI⟩ := inv_of_reachable hr
    obtain ⟨skl2, passed, R, _, hrun, hI2, _, _, hnl, _, _, _, _, hnx, _⟩ :=
      insert_inv hI score val draws hd
    refine ⟨skl2, skl.next, hrun, hnl, ?_⟩
    intro skl3 h3
    obtain ⟨L3, _, _, hsame, _⟩ := reachableFrom_inv hI2 h3
    rw [(hsame skl.next (by omega)).2, hnl]

/-- Witness for C16: the draws 0, 0, 65535 give level 3; the node `Insert(7, "c")` makes
with them on the two-element sample list keeps 3 levels after `Delete(5, "a")`. -/
theorem random_level_spec_witness :
    (∃ v, v ∈ [0, 0, 65535] ∧ drawPasses v = false) ∧
    sklRandomLevel [0, 0, 65535] = some 3 ∧ specRandomLevel [0, 0, 65535] = some 3 ∧
    (∃ skl2 x, sklTwo.Insert (.num 7) "c" [0, 0, 65535] = some (skl2, x) ∧
      nlev skl2.mem x = 3 ∧ ∀ skl3, ReachableFrom skl2 skl3 → nlev skl3.mem x = 3) ∧
    nlev sklThree.mem 3 = 3 ∧ nlev (afterDelete sklThree (.num 5) "a").mem 3 = 3 := by
  have hfail : ∃ v, v ∈ [0, 0, 65535] ∧ drawPasses v = false := ⟨65535, by decide, by decide⟩
  have h := random_level_spec [0, 0, 65535] hfail
  have hk : min 32 (1 + (List.takeWhile drawPasses [0, 0, 65535]).length) = 3 := by decide
  rw [hk] at h
  exact ⟨hfail, h.1, h.2.2.2.1.trans h.1, h.2.2.2.2 sklTwo sklTwo_reachable (.num 7) "c",
    rfl, rfl⟩

/-! ### The header -/

/-- Counterexample for C17: after one `Insert` on a new list the header's level-0 link
leads to the only node with span 1, and no node lies before that node. -/
theorem header_span_counterexample :
    ¬ ∀ skl : SkipList, Reachable skl → ∀ i, i < skl.level →
      ∀ (L : List Nat) (l : skipListLevel) (f : Nat),
        skl.nodes = some L → lvl skl.mem skl.header i = some l → l.forward = some f →
        l.span = (L.indexOf f : Int) := by
  intro h
  have h1 := h sklOne sklOne_reachable 0 (by decide) [1] ⟨some 1, 1⟩ 1 rfl rfl rfl
  revert h1
  decide

/-- C17, amended: in every list reachable from `NewSkipList` by `Insert` and `Delete`, at
every level `i` below the level count the header's link is there, and when it has a forward
node, that node is the first node of the level-0 chain with more than `i` levels and the
span is its 1-based position: the number of nodes strictly before it, plus one. -/
theorem header_span (skl : SkipList) (h : Reachable skl) (i : Nat) (hi : i < skl.level) :
    ∃ L l, skl.nodes = some L ∧ lvl skl.mem skl.header i = some l ∧
      ∀ f, l.forward = some f →
        f ∈ L ∧ i < nlev skl.mem f ∧
        (∀ b, b ∈ L.take (L.indexOf f) → nlev skl.mem b ≤ i) ∧
        l.span = (L.indexOf f : Int) + 1 := by
  obtain ⟨L, hI⟩ := inv_of_reachable h
  have hh : lvl skl.mem skl.header i = some (expLink (nlev skl.mem) i L) :=
    hI.linked.1 i hi (by rw [hI.hdr_lev]; have := hI.lev_max; omega)
  refine ⟨L, _, nodes_of_inv hI, hh, ?_⟩
  intro f hf
  obtain ⟨A, B, hL, hlow, hhigh⟩ := expLink_forward_some hf
  have hfA : f ∉ A := fun hm => by have := hlow f hm; omega
  have hidx : L.indexOf f = A.length := by
    rw [hL, List.indexOf_append_of_not_mem hfA, List.indexOf_cons_self]
    rfl
  refine ⟨by rw [hL]; simp, hhigh, ?_, ?_⟩
  · intro b hb
    rw [hidx, hL, List.take_left] at hb
    exact hlow b hb
  · rw [hidx, hL, expLink_first (nlev skl.mem) i A B f hlow hhigh]

/-- Witness for C17: the three-element sample list at level 2, where the header's link
leads to the third node with span 3. -/
theorem header_span_witness :
    Reachable sklThree ∧ 2 < sklThree.level ∧ sklThree.nodes = some [2, 1, 3] ∧
    lvl sklThree.mem sklThree.header 2 = some ⟨some 3, 3⟩ ∧
    ∃ L l, sklThree.nodes = some L ∧ lvl sklThree.mem sklThree.header 2 = some l ∧
      ∀ f, l.forward = some f →
        f ∈ L ∧ 2 < nlev sklThree.mem f ∧
        (∀ b, b ∈ L.take (L.indexOf f) → nlev sklThree.mem b ≤ 2) ∧
        l.span = (L.indexOf f : Int) + 1 :=
  ⟨sklThree_reachable, by decide, rfl, rfl,
    header_span sklThree sklThree_reachable 2 (by decide)⟩

/-- C18: `NewSkipList` returns a list of length 0 and level count 1; in every list
reachable from it by `Insert` and `Delete` the level count lies in `[1, 32]`, the header's
forward reference is empty at every level from the level count on, it is non-empty at the
topmost level in use when the level count is above 1, and the length counter is the number
of nodes of the level-0 chain. -/
theorem level_count_invariant (skl : SkipList) (h : Reachable skl) :
    NewSkipList.length = 0 ∧ NewSkipList.level = 1 ∧
    1 ≤ skl.level ∧ skl.level ≤ 32 ∧
    (∀ i, skl.level ≤ i → i < 32 →
      ∃ l, lvl skl.mem skl.header i = some l ∧ l.forward = none) ∧
    (1 < skl.level →
      ∃ l f, lvl skl.mem skl.header (skl.level - 1) = some l ∧ l.forward = some f) ∧
    ∃ L, skl.nodes = some L ∧ skl.length = (L.length : Int) := by
  obtain ⟨L, hI⟩ := inv_of_reachable h
  refine ⟨rfl, rfl, hI.lev_pos, hI.lev_max, fun i h1 h2 => hI.hdr_free i h1 h2, ?_,
    ⟨L, nodes_of_inv hI, hI.len⟩⟩
  intro h1
  obtain ⟨a, ha, hla⟩ := hI.top h1
  have hh : lvl skl.mem skl.header (skl.level - 1) =
      some (expLink (nlev skl.mem) (skl.level - 1) L) :=
    hI.linked.1 _ (by omega) (by rw [hI.hdr_lev]; have := hI.lev_max; omega)
  cases hf : (expLink (nlev skl.mem) (skl.level - 1) L).forward with
  | some f => exact ⟨_, f, hh, hf⟩
  | none =>
    have := expLink_forward_none.mp hf a ha
    omega

/-- Witness for C18: the three-element sample list, with level count 3. -/
theorem level_count_invariant_witness :
    Reachable sklThree ∧ sklThree.level = 3 ∧
    (∃ l, lvl sklThree.mem sklThree.header 3 = some l ∧ l.forward = none) ∧
    (∃ l f, lvl sklThree.mem sklThree.header (sklThree.level - 1) = some l ∧
      l.forward = some f) ∧
    ∃ L, sklThree.nodes = some L ∧ sklThree.length = (L.length : Int) := by
  have h := level_count_invariant sklThree sklThree_reachable
  exact ⟨sklThree_reachable, rfl, h.2.2.2.2.1 3 (by decide) (by decide),
    h.2.2.2.2.2.1 (by decide), h.2.2.2.2.2.2⟩

/-! ### NaN scores -/

theorem nodeLess_nan (n : SkipListNode) (val : String) :
    nodeLess n Float64.nan val = false := by
  unfold nodeLess
  cases n.score <;> rfl

theorem keyEq_nan (val : String) (k : Float64 × String) :
    keyEq (Float64.nan, val) k = false := by
  cases h : keyEq (Float64.nan, val) k with
  | false => rfl
  | true => exact absurd rfl (keyEq_eq h).2

theorem delete_nan {skl : SkipList} {L : List Nat} (hI : Inv skl L) (val : String) :
    skl.Delete Float64.nan val = some (skl, 0) := by
  obtain ⟨passed, R, _, _, _, hnil, hmiss, _⟩ := delete_cases hI Float64.nan val
  cases R with
  | nil => exact hnil rfl
  | cons x R2 => exact hmiss x R2 rfl (keyEq_nan val _)

/-- C20: on a reachable list, `Insert(NaN, m)` returns, its new node is the first node of
the level-0 chain and the length grows by one; `Delete(NaN, m)` then returns 0 and leaves
the list as it is; and the new node stays on the level-0 chain of every list reachable by
later `Insert` and `Delete` calls. -/
theorem nan_insert_spec (skl : SkipList) (h : Reachable skl) (m : String) (draws : List Nat)
    (level : Nat) (hd : sklRandomLevel draws = some level) :
    ∃ skl2 x L, skl.Insert Float64.nan m draws = some (skl2, x) ∧
      skl.nodes = some L ∧ skl2.nodes = some (x :: L) ∧
      skl2.traversal = some ((Float64.nan, m) :: L.map (keyAt skl.mem)) ∧
      skl2.length = skl.length + 1 ∧
      skl2.Delete Float64.nan m = some (skl2, 0) ∧
      ∀ skl3, ReachableFrom skl2 skl3 →
        (∃ L3, skl3.nodes = some L3 ∧ x ∈ L3) ∧ keyAt skl3.mem x = (Float64.nan, m) ∧
        skl3.Delete Float64.nan m = some (skl3, 0) := by
  obtain ⟨L, hI⟩ := inv_of_reachable h
  obtain ⟨skl2, passed, R, hL, hrun, hI2, hold, hkey, _, hlast, _, hlen, _, hnx, _⟩ :=
    insert_inv hI Float64.nan m draws hd
  have hp : passed = [] := by
    cases hgl : passed.getLast? with
    | none => exact List.getLast?_eq_none_iff.mp hgl
    | some a =>
      have := hlast a hgl
      rw [nodeLess_nan] at this
      cases this
  subst hp
  simp only [List.nil_append] at hL hI2
  subst hL
  refine ⟨skl2, skl.next, L, hrun, nodes_of_inv hI, nodes_of_inv hI2, ?_, hlen,
    delete_nan hI2 m, ?_⟩
  · rw [traversal_of_inv hI2, List.map_cons, hkey]
    congr 2
    apply List.map_congr_left
    intro b hb
    have hb2 := hI.alloc b (List.mem_cons_of_mem _ hb)
    exact (hold b (by omega)).1
  · intro skl3 h3
    obtain ⟨L3, hI3, _, hsame, hnan⟩ := reachableFrom_inv hI2 h3
    refine ⟨⟨L3, nodes_of_inv hI3, hnan skl.next (List.mem_cons_self _ _) (by rw [hkey])⟩,
      ?_, delete_nan hI3 m⟩
    rw [(hsame skl.next (by omega)).1, hkey]

theorem sklNaN_run : sklThree.Insert Float64.nan "n" [65535] = some (sklNaN, 4) := rfl

/-- Witness for C20: `Insert(NaN, "n")` on the three-element sample list. -/
theorem nan_insert_spec_witness :
    Reachable sklThree ∧ sklRandomLevel [65535] = some 1 ∧
    sklThree.Insert Float64.nan "n" [65535] = some (sklNaN, 4) ∧
    sklNaN.nodes = some [4, 2, 1, 3] ∧ sklNaN.Delete Float64.nan "n" = some (sklNaN, 0) ∧
    ∃ skl2 x L, sklThree.Insert Float64.nan "n" [65535] = some (skl2, x) ∧
      sklThree.nodes = some L ∧ skl2.nodes = some (x :: L) ∧
      skl2.traversal = some ((Float64.nan, "n") :: L.map (keyAt sklThree.mem)) ∧
      skl2.length = sklThree.length + 1 ∧
      skl2.Delete Float64.nan "n" = some (skl2, 0) ∧
      ∀ skl3, ReachableFrom skl2 skl3 →
        (∃ L3, skl3.nodes = some L3 ∧ x ∈ L3) ∧ keyAt skl3.mem x = (Float64.nan, "n") ∧
        skl3.Delete Float64.nan "n" = some (skl3, 0) :=
  ⟨sklThree_reachable, rfl, sklNaN_run, rfl, rfl,
    nan_insert_spec sklThree sklThree_reachable "n" [65535] 1 rfl⟩

end ThinRedis
